import Mathlib

set_option maxRecDepth 10000

/-!
Verification of the chat-response rendering pipeline of the
schumacher-ads-dashboard repository (the JarvisChat component).

The development shallowly embeds the TypeScript functions
`convertToEmailText`, `stripInlineMarkdown`, `parseInlineFormatting`,
`parseTable`, `parseCodeBlock`, `formatMessage`, the renderers
`PauseListBlock` / `BudgetTableBlock`, and the synchronous phase of
`sendMessage`, as total executable Lean functions over `List Char`
(one JavaScript string = one list of characters; JavaScript numbers
obtained from `JSON.parse` are modelled as rationals).  Loops that walk
the line array by index are written with an explicit fuel argument that
the top-level wrappers instantiate with `lines.length + 1`; a fuel
adequacy theorem shows the result is independent of the fuel once it
exceeds the number of remaining lines, which is the termination argument
of the original loops.
-/

namespace Jarvis

/-- Characters of a string literal, the working representation of JS strings. -/
def str (s : String) : List Char := s.data

/-- JS `String.prototype.trim`: drop whitespace from both ends. -/
def jsTrim (l : List Char) : List Char :=
  ((l.dropWhile Char.isWhitespace).reverse.dropWhile Char.isWhitespace).reverse

/-- JS `s.split(sep)` for a one-character separator. -/
def splitOnCh (sep : Char) : List Char → List (List Char)
  | [] => [[]]
  | c :: rest =>
    let r := splitOnCh sep rest
    if c = sep then [] :: r
    else match r with
      | [] => [[c]]
      | h :: t => (c :: h) :: t

/-- JS `s.split("\n")` on the character list. -/
def splitLines (l : List Char) : List (List Char) := splitOnCh '\n' l

/-- Decimal digits of a natural number, the JS rendering of `${n}`. -/
def natStr (n : Nat) : List Char := (Nat.repr n).data

/-- JS `trimmed.replace(&quot;three backticks&quot; global, "")`: delete every
occurrence of a triple backtick, scanning left to right. -/
def removeTicks : List Char → List Char
  | '`' :: '`' :: '`' :: rest => removeTicks rest
  | c :: rest => c :: removeTicks rest
  | [] => []

/-- JS `text.replace("**" global, "")`: delete every double star. -/
def removeStars2 : List Char → List Char
  | '*' :: '*' :: rest => removeStars2 rest
  | c :: rest => c :: removeStars2 rest
  | [] => []

/-- JS `toLowerCase` (ASCII fragment, which is all the fence tags use). -/
def jsLower (l : List Char) : List Char := l.map Char.toLower

/-- JS `toUpperCase` (ASCII fragment). -/
def jsUpper (l : List Char) : List Char := l.map Char.toUpper

/-- `"c".repeat(n)`. -/
def repChar (c : Char) (n : Nat) : List Char := List.replicate n c

-- ───────────────────────────────────────────────────────────────────────────
-- Inline text formatting: the three regular expressions of
-- `parseInlineFormatting` and the four of `stripInlineMarkdown`, embedded as
-- explicit leftmost-match searches with the lazy-quantifier semantics of the
-- JS engine.  Each matcher returns `(before, group, after)` with the input
-- equal to `before ++ delimiters-and-group ++ after`.
-- ───────────────────────────────────────────────────────────────────────────

/-- Close of a bold match: chars after the opening double star.  Returns the
lazily-matched group (at least one character, no newline) and the characters
after the closing double star. -/
def boldCloseGo : List Char → Option (List Char × List Char)
  | '*' :: '*' :: a => some ([], a)
  | c :: rest => if c = '\n' then none else
      (boldCloseGo rest).map (fun p => (c :: p.1, p.2))
  | [] => none

/-- Close of a bold match, requiring at least one group character. -/
def boldClose (l : List Char) : Option (List Char × List Char) :=
  match l with
  | [] => none
  | c :: rest => if c = '\n' then none else
      (boldCloseGo rest).map (fun p => (c :: p.1, p.2))

/-- First match of the bold pattern (double star, lazy group, double star):
`(before, group, after)`. -/
def findBold : List Char → Option (List Char × List Char × List Char)
  | [] => none
  | c :: rest =>
    (if c = '*' then
      match rest with
      | '*' :: rest2 =>
        match boldClose rest2 with
        | some (g, a) => some ([], g, a)
        | none => (findBold rest).map (fun t => (c :: t.1, t.2.1, t.2.2))
      | _ => (findBold rest).map (fun t => (c :: t.1, t.2.1, t.2.2))
    else (findBold rest).map (fun t => (c :: t.1, t.2.1, t.2.2)))

/-- Close of an inline-code match: group of non-backtick characters, then the
closing backtick. -/
def codeCloseGo : List Char → Option (List Char × List Char)
  | '`' :: a => some ([], a)
  | c :: rest => (codeCloseGo rest).map (fun p => (c :: p.1, p.2))
  | [] => none

/-- Close of an inline-code match, requiring a nonempty non-backtick group. -/
def codeClose (l : List Char) : Option (List Char × List Char) :=
  match l with
  | [] => none
  | c :: rest => if c = '`' then none else
      (codeCloseGo rest).map (fun p => (c :: p.1, p.2))

/-- First match of the inline-code pattern (backtick, nonempty non-backtick
group, backtick). -/
def findCode : List Char → Option (List Char × List Char × List Char)
  | [] => none
  | c :: rest =>
    if c = '`' then
      match codeClose rest with
      | some (g, a) => some ([], g, a)
      | none => (findCode rest).map (fun t => (c :: t.1, t.2.1, t.2.2))
    else (findCode rest).map (fun t => (c :: t.1, t.2.1, t.2.2))

/-- Close of an italic match.  `prevC` is the character before the current
position; a closing star needs the previous character and the next character
to both differ from a star (the lookarounds of the JS pattern). -/
def italCloseGo (prevC : Char) : List Char → Option (List Char × List Char)
  | c :: rest =>
    if c = '*' ∧ prevC ≠ '*' ∧ rest.head? ≠ some '*' then some ([], rest)
    else if c = '\n' then none
    else (italCloseGo c rest).map (fun p => (c :: p.1, p.2))
  | [] => none

/-- Close of an italic match, requiring a nonempty group. -/
def italClose (l : List Char) : Option (List Char × List Char) :=
  match l with
  | [] => none
  | c :: rest => if c = '\n' then none else
      (italCloseGo c rest).map (fun p => (c :: p.1, p.2))

/-- First match of the italic pattern: a star not preceded or followed by a
star, a lazy nonempty group, and a closing star with the same lookarounds.
`prev` is the character before the scan position (`none` at string start). -/
def findItal (prev : Option Char) : List Char → Option (List Char × List Char × List Char)
  | [] => none
  | c :: rest =>
    if c = '*' ∧ prev ≠ some '*' ∧ rest.head? ≠ some '*' then
      match italClose rest with
      | some (g, a) => some ([], g, a)
      | none => (findItal (some c) rest).map (fun t => (c :: t.1, t.2.1, t.2.2))
    else (findItal (some c) rest).map (fun t => (c :: t.1, t.2.1, t.2.2))

/-- Second half of a link match: the characters after the bracket-paren pair,
matched lazily up to the first closing paren, group nonempty without newline. -/
def lp2Go : List Char → Option (List Char × List Char)
  | ')' :: a => some ([], a)
  | c :: rest => if c = '\n' then none else
      (lp2Go rest).map (fun p => (c :: p.1, p.2))
  | [] => none

/-- Url part of a link match, requiring a nonempty group. -/
def lp2 (l : List Char) : Option (List Char × List Char) :=
  match l with
  | [] => none
  | c :: rest => if c = ')' ∨ c = '\n' then none else
      (lp2Go rest).map (fun p => (c :: p.1, p.2))

/-- Scan for the closing bracket of a link text, backtracking over bracket
candidates whose paren part fails, as the JS engine does. -/
def linkGo : List Char → Option (List Char × List Char × List Char)
  | ']' :: '(' :: rest2 =>
    (match lp2 rest2 with
     | some (u, a) => some ([], u, a)
     | none => (linkGo ('(' :: rest2)).map (fun t => (']' :: t.1, t.2.1, t.2.2)))
  | c :: rest => if c = '\n' then none else
      (linkGo rest).map (fun t => (c :: t.1, t.2.1, t.2.2))
  | [] => none

/-- Link text part, requiring a nonempty group. -/
def linkClose (l : List Char) : Option (List Char × List Char × List Char) :=
  match l with
  | [] => none
  | c :: rest => if c = '\n' then none else
      (linkGo rest).map (fun t => (c :: t.1, t.2.1, t.2.2))

/-- First match of the link pattern: bracketed text then parenthesised url,
returning `(before, text, url, after)`. -/
def findLink : List Char → Option (List Char × List Char × List Char × List Char)
  | [] => none
  | c :: rest =>
    if c = '[' then
      match linkClose rest with
      | some (t, u, a) => some ([], t, u, a)
      | none => (findLink rest).map (fun q => (c :: q.1, q.2.1, q.2.2.1, q.2.2.2))
    else (findLink rest).map (fun q => (c :: q.1, q.2.1, q.2.2.1, q.2.2.2))

/-- An inline-formatted fragment of a line: the four React span shapes that
`parseInlineFormatting` can emit. -/
inductive Span where
  | plain (t : List Char)
  | bold (t : List Char)
  | ital (t : List Char)
  | code (t : List Char)
deriving DecidableEq, Repr

/-- The three candidate matches of `parseInlineFormatting`, in the order the
source lists them (bold, italic, code). -/
def inlineCands (l : List Char) : List (List Char × Span × List Char) :=
  [(findBold l).map (fun t => (t.1, Span.bold t.2.1, t.2.2)),
   (findItal none l).map (fun t => (t.1, Span.ital t.2.1, t.2.2)),
   (findCode l).map (fun t => (t.1, Span.code t.2.1, t.2.2))].filterMap id

/-- JS stable sort by match index followed by taking the head: the candidate
with the smallest `before` length, earliest listed winning ties. -/
def pickMin : List (List Char × Span × List Char) → Option (List Char × Span × List Char)
  | [] => none
  | x :: xs =>
    match pickMin xs with
    | none => some x
    | some y => if x.1.length ≤ y.1.length then some x else some y

/-- The `parseInlineFormatting` while-loop with explicit fuel.  Each pass
either finds no match (the rest becomes one plain span) or emits the text
before the leftmost match, the styled span, and recurses on the remainder. -/
def parseInlineF : Nat → List Char → List Span
  | _, [] => []
  | 0, l => [Span.plain l]
  | f + 1, l =>
    match pickMin (inlineCands l) with
    | none => [Span.plain l]
    | some (b, sp, a) =>
      (if b = [] then [] else [Span.plain b]) ++ sp :: parseInlineF f a

/-- `parseInlineFormatting(text)`: spans of one line of text. -/
def parseInlineFormatting (l : List Char) : List Span :=
  parseInlineF (l.length + 1) l

-- ───────────────────────────────────────────────────────────────────────────
-- stripInlineMarkdown: the four sequential global replaces then trim
-- ───────────────────────────────────────────────────────────────────────────

/-- Generic fueled global replace: repeatedly find the first match, keep the
text before it plus the replacement group, continue after it threading a scan
state (used by the italic pass for its lookbehind). -/
def rewriteF (find : σ → List Char → Option (List Char × List Char × List Char × σ)) :
    Nat → σ → List Char → List Char
  | 0, _, l => l
  | f + 1, s, l =>
    match find s l with
    | none => l
    | some (b, g, a, s2) => b ++ g ++ rewriteF find f s2 a

/-- Close of the strip pass italic pattern: unlike the render-side italic
regex, the strip regex has no lookarounds, so the close is simply the first
star after at least one non-newline group character. -/
def italPlainCloseGo : List Char → Option (List Char × List Char)
  | '*' :: a => some ([], a)
  | c :: rest => if c = '\n' then none else
      (italPlainCloseGo rest).map (fun p => (c :: p.1, p.2))
  | [] => none

/-- Close of the strip pass italic pattern, nonempty group. -/
def italPlainClose (l : List Char) : Option (List Char × List Char) :=
  match l with
  | [] => none
  | c :: rest => if c = '\n' then none else
      (italPlainCloseGo rest).map (fun p => (c :: p.1, p.2))

/-- First match of the strip pass italic pattern (star, lazy nonempty group,
star, no lookarounds). -/
def findItalPlain : List Char → Option (List Char × List Char × List Char)
  | [] => none
  | c :: rest =>
    if c = '*' then
      match italPlainClose rest with
      | some (g, a) => some ([], g, a)
      | none => (findItalPlain rest).map (fun t => (c :: t.1, t.2.1, t.2.2))
    else (findItalPlain rest).map (fun t => (c :: t.1, t.2.1, t.2.2))

/-- Bold pass matcher (no scan state). -/
def boldFindU (_ : Unit) (l : List Char) :
    Option (List Char × List Char × List Char × Unit) :=
  (findBold l).map (fun t => (t.1, t.2.1, t.2.2, ()))

/-- Italic pass matcher of `stripInlineMarkdown` (plain stars, no state). -/
def italFindU (_ : Unit) (l : List Char) :
    Option (List Char × List Char × List Char × Unit) :=
  (findItalPlain l).map (fun t => (t.1, t.2.1, t.2.2, ()))

/-- Inline-code pass matcher. -/
def codeFindU (_ : Unit) (l : List Char) :
    Option (List Char × List Char × List Char × Unit) :=
  (findCode l).map (fun t => (t.1, t.2.1, t.2.2, ()))

/-- Link pass matcher: the replacement keeps the link text, drops the url. -/
def linkFindU (_ : Unit) (l : List Char) :
    Option (List Char × List Char × List Char × Unit) :=
  (findLink l).map (fun q => (q.1, q.2.1, q.2.2.2, ()))

/-- Global `replace` of the bold pattern by its group. -/
def replaceBoldG (l : List Char) : List Char := rewriteF boldFindU (l.length + 1) () l

/-- Global `replace` of the italic pattern by its group. -/
def replaceItalG (l : List Char) : List Char := rewriteF italFindU (l.length + 1) () l

/-- Global `replace` of the inline-code pattern by its group. -/
def replaceCodeG (l : List Char) : List Char := rewriteF codeFindU (l.length + 1) () l

/-- Global `replace` of the link pattern by its text group. -/
def replaceLinkG (l : List Char) : List Char := rewriteF linkFindU (l.length + 1) () l

/-- `stripInlineMarkdown(text)`: bold, italic, code and link delimiters
removed in that order, then trimmed. -/
def stripInlineMarkdown (l : List Char) : List Char :=
  jsTrim (replaceLinkG (replaceCodeG (replaceItalG (replaceBoldG l))))

-- ───────────────────────────────────────────────────────────────────────────
-- JSON: values, a model of `JSON.parse`, and the dynamic JS semantics the
-- pause-list / budget-table branches rely on (member access, truthiness,
-- string interpolation, `toFixed`).  JS numbers are modelled as rationals.
-- ───────────────────────────────────────────────────────────────────────────

/-- A JSON-parsed number, kept in exact decimal scientific form: the value
is `m * 10 ^ e`.  The rendering pipeline never computes with these values —
it only tests their sign and zeroness and formats them — so the decimal form
is a faithful executable model of the doubles `JSON.parse` produces (two
spellings of the same value, such as `1e2` and `100`, get different
representatives, but no code path compares numbers). -/
structure JNum where
  m : ℤ
  e : ℤ
deriving Repr, DecidableEq

/-- Zero test (`m = 0` regardless of exponent). -/
def JNum.isZero (n : JNum) : Bool := n.m = 0

/-- The number of cents of the magnitude, rounded half-up: the integer
`toFixed(2)` works from. -/
def JNum.cents (n : JNum) : Nat :=
  let a := n.m.natAbs
  if 0 ≤ n.e + 2 then a * 10 ^ (n.e + 2).toNat
  else
    let d := 10 ^ (-(n.e + 2)).toNat
    (2 * a + d) / (2 * d)

/-- A parsed JSON value. -/
inductive Json where
  | null
  | bool (b : Bool)
  | num (q : JNum)
  | jstr (s : List Char)
  | arr (elems : List Json)
  | obj (fields : List (List Char × Json))
deriving Repr

/-- The whitespace characters JSON.parse skips. -/
def jsonWsChar (c : Char) : Bool := c = ' ' ∨ c = '\t' ∨ c = '\n' ∨ c = '\r'

/-- Skip JSON whitespace. -/
def skipWs (l : List Char) : List Char := l.dropWhile jsonWsChar

/-- Hexadecimal digit test. -/
def isHexCh (c : Char) : Bool :=
  c.isDigit ∨ ('a' ≤ c ∧ c ≤ 'f') ∨ ('A' ≤ c ∧ c ≤ 'F')

/-- Hexadecimal digit value. -/
def hexVal (c : Char) : Nat :=
  if c.isDigit then c.toNat - 48
  else if 'a' ≤ c ∧ c ≤ 'f' then c.toNat - 87
  else c.toNat - 55

/-- Parse the remainder of a JSON string literal (after the opening quote):
permitted escapes, no raw control characters, up to the closing quote. -/
def parseJStr : List Char → Option (List Char × List Char)
  | [] => none
  | '"' :: rest => some ([], rest)
  | '\\' :: 'u' :: h1 :: h2 :: h3 :: h4 :: rest =>
    if isHexCh h1 ∧ isHexCh h2 ∧ isHexCh h3 ∧ isHexCh h4 then
      let code := ((hexVal h1 * 16 + hexVal h2) * 16 + hexVal h3) * 16 + hexVal h4
      (parseJStr rest).map (fun p => (Char.ofNat code :: p.1, p.2))
    else none
  | '\\' :: e :: rest =>
    let dec : Option Char :=
      if e = '"' then some '"'
      else if e = '\\' then some '\\'
      else if e = '/' then some '/'
      else if e = 'b' then some (Char.ofNat 8)
      else if e = 'f' then some (Char.ofNat 12)
      else if e = 'n' then some '\n'
      else if e = 'r' then some '\r'
      else if e = 't' then some '\t'
      else none
    match dec with
    | some c => (parseJStr rest).map (fun p => (c :: p.1, p.2))
    | none => none
  | c :: rest =>
    if c.toNat < 32 then none
    else (parseJStr rest).map (fun p => (c :: p.1, p.2))

/-- Value of a digit list. -/
def digitsVal (ds : List Char) : Nat := ds.foldl (fun a c => 10 * a + (c.toNat - 48)) 0

/-- Parse a JSON number (sign, integer part without leading zeros, optional
fraction, optional exponent) into its exact decimal form. -/
def parseNum (l : List Char) : Option (Json × List Char) :=
  let sgn : Bool × List Char := match l with | '-' :: r => (true, r) | _ => (false, l)
  match sgn.2 with
  | [] => none
  | c :: rest =>
    if ¬ c.isDigit then none else
    let ipl : List Char × List Char :=
      if c = '0' then ([c], rest)
      else (c :: rest.takeWhile Char.isDigit, rest.dropWhile Char.isDigit)
    let fr : Option (List Char × List Char) :=
      match ipl.2 with
      | '.' :: r =>
        let ds := r.takeWhile Char.isDigit
        if ds = [] then none else some (ds, r.dropWhile Char.isDigit)
      | _ => some ([], ipl.2)
    match fr with
    | none => none
    | some (fd, l3) =>
      let ex : Option (Bool × List Char × List Char) :=
        match l3 with
        | e :: r =>
          if e = 'e' ∨ e = 'E' then
            let es : Bool × List Char :=
              match r with
              | '-' :: rr => (true, rr)
              | '+' :: rr => (false, rr)
              | _ => (false, r)
            let ds := es.2.takeWhile Char.isDigit
            if ds = [] then none else some (es.1, ds, es.2.dropWhile Char.isDigit)
          else some (false, [], l3)
        | [] => some (false, [], l3)
      match ex with
      | none => none
      | some (esgn, ed, l4) =>
        let mant : ℤ := digitsVal (ipl.1 ++ fd)
        let e10 : ℤ := (if esgn then -(digitsVal ed : ℤ) else (digitsVal ed : ℤ)) - fd.length
        some (Json.num ⟨if sgn.1 then -mant else mant, e10⟩, l4)

/-- Parser mode: a single value, the element loop of an array, or the member
loop of an object. -/
inductive PMode where
  | val
  | elems (acc : List Json)
  | members (acc : List (List Char × Json))

/-- The recursive core of `JSON.parse`, fueled. -/
def parseCore : Nat → PMode → List Char → Option (Json × List Char)
  | 0, _, _ => none
  | f + 1, .val, l =>
    match l with
    | 'n' :: _ => if (str "null").isPrefixOf l then some (.null, l.drop 4) else none
    | 't' :: _ => if (str "true").isPrefixOf l then some (.bool true, l.drop 4) else none
    | 'f' :: _ => if (str "false").isPrefixOf l then some (.bool false, l.drop 5) else none
    | '"' :: rest => (parseJStr rest).map (fun p => (.jstr p.1, p.2))
    | '[' :: rest =>
      let r := skipWs rest
      if r.head? = some ']' then some (.arr [], r.tail)
      else parseCore f (.elems []) r
    | '\x7b' :: rest =>
      let r := skipWs rest
      if r.head? = some '\x7d' then some (.obj [], r.tail)
      else parseCore f (.members []) r
    | _ => parseNum l
  | f + 1, .elems acc, l =>
    match parseCore f .val l with
    | none => none
    | some (v, r) =>
      match skipWs r with
      | ',' :: r2 => parseCore f (.elems (acc ++ [v])) (skipWs r2)
      | ']' :: r2 => some (.arr (acc ++ [v]), r2)
      | _ => none
  | f + 1, .members acc, l =>
    match l with
    | '"' :: rest =>
      match parseJStr rest with
      | none => none
      | some (k, r) =>
        match skipWs r with
        | ':' :: r2 =>
          match parseCore f .val (skipWs r2) with
          | none => none
          | some (v, r3) =>
            match skipWs r3 with
            | ',' :: r4 => parseCore f (.members (acc ++ [(k, v)])) (skipWs r4)
            | '\x7d' :: r4 => some (.obj (acc ++ [(k, v)]), r4)
            | _ => none
        | _ => none
    | _ => none

/-- `JSON.parse` on a character list: a value surrounded by whitespace and
nothing else; `none` models a thrown `SyntaxError`. -/
def parseJson (l : List Char) : Option Json :=
  match parseCore (2 * l.length + 4) .val (skipWs l) with
  | some (v, r) => if skipWs r = [] then some v else none
  | none => none

/-- Property lookup on a parsed object: the last binding of a key wins, as in
a JS object literal with duplicate keys. -/
def jlookup (fields : List (List Char × Json)) (k : List Char) : Option Json :=
  ((fields.filter (fun p => p.1 = k)).getLast?).map (fun p => p.2)

/-- JS member access `v[k]` on a parsed value: `none` is a thrown TypeError
(reading a property of `null`); `some none` is `undefined`. -/
def jsGet : Json → List Char → Option (Option Json)
  | .null, _ => none
  | .obj fields, k => some (jlookup fields k)
  | _, _ => some none

/-- JS truthiness of a possibly-undefined value. -/
def truthy : Option Json → Bool
  | none => false
  | some .null => false
  | some (.bool b) => b
  | some (.num q) => decide (q.m ≠ 0)
  | some (.jstr s) => decide (s ≠ [])
  | some (.arr _) => true
  | some (.obj _) => true

/-- Decimal rendering of the magnitude `a * 10 ^ e` (`a` a natural number),
as JS `toString` renders it for values in the plain-notation range (very
large or very small doubles, which JS prints in exponential notation, do not
occur in this pipeline). -/
def jnumAbsStr (a : Nat) (e : ℤ) : List Char :=
  if a = 0 then ['0']
  else if 0 ≤ e then natStr (a * 10 ^ e.toNat)
  else
    let k := (-e).toNat
    let ip := a / 10 ^ k
    let fp := a % 10 ^ k
    if fp = 0 then natStr ip
    else
      let fds := natStr fp
      let fdsPad := List.replicate (k - fds.length) '0' ++ fds
      natStr ip ++ '.' :: (fdsPad.reverse.dropWhile (· = '0')).reverse

/-- JS `String(q)` for a parsed number. -/
def jnumToStr (n : JNum) : List Char :=
  (if n.m < 0 then ['-'] else []) ++ jnumAbsStr n.m.natAbs n.e

/-- Two-digit padding for the cent part of a fixed rendering. -/
def pad2 (m : Nat) : List Char := if m < 10 then '0' :: natStr m else natStr m

/-- JS `q.toFixed(2)`: sign, then the magnitude rounded half-up to cents. -/
def toFixed2 (n : JNum) : List Char :=
  (if n.m < 0 then ['-'] else []) ++ natStr (n.cents / 100) ++ '.' :: pad2 (n.cents % 100)

/-- Comma grouping of an integer digit string, as `toLocaleString("en-US")`. -/
def groupThousands (ds : List Char) : List Char :=
  (List.flatten ((ds.reverse.toChunks 3).intersperse [','])).reverse

/-- JS `q.toLocaleString("en-US", two fraction digits)`. -/
def toLocale2 (n : JNum) : List Char :=
  (if n.m < 0 then ['-'] else []) ++ groupThousands (natStr (n.cents / 100)) ++
    '.' :: pad2 (n.cents % 100)

/-- JS `String(v)` (string interpolation).  The fuel bounds the nesting depth
of arrays; the pipeline instantiates it with the length of the payload text
the value was parsed from, which always exceeds the nesting depth.  Scalar
values ignore the fuel. -/
def jsonToStrF : Nat → Json → List Char
  | _, .null => str "null"
  | _, .bool true => str "true"
  | _, .bool false => str "false"
  | _, .num q => jnumToStr q
  | _, .jstr s => s
  | 0, .arr _ => []
  | f + 1, .arr es =>
    List.flatten (List.intersperse [','] (es.map (fun v =>
      match v with
      | .null => []
      | w => jsonToStrF f w)))
  | _, .obj _ => str "[object Object]"

/-- JS string interpolation of a possibly-undefined value, with the same
depth fuel. -/
def jsValStrF (n : Nat) : Option Json → List Char
  | none => str "undefined"
  | some v => jsonToStrF n v

-- ───────────────────────────────────────────────────────────────────────────
-- convertToEmailText
-- ───────────────────────────────────────────────────────────────────────────

/-- Null test for a possibly-undefined value (`v !== null` is its negation;
`undefined !== null` holds under strict comparison). -/
def isNullV : Option Json → Bool
  | some .null => true
  | _ => false

/-- Capture of the unordered-list pattern on a trimmed line: a dash, star or
bullet marker, at least one whitespace, then the greedy nonempty rest (when
everything after the marker is whitespace the final whitespace character is
handed back to the capture, as the backtracking JS engine does). -/
def ulCapture (l : List Char) : Option (List Char) :=
  match l with
  | [] => none
  | c :: rest =>
    if c = '-' ∨ c = '*' ∨ c = '•' then
      let w := rest.takeWhile Char.isWhitespace
      let r := rest.dropWhile Char.isWhitespace
      if w = [] then none
      else if r ≠ [] then some r
      else if 2 ≤ w.length then some (w.drop (w.length - 1))
      else none
    else none

/-- Capture of the ordered-list pattern: digits, a dot, whitespace, rest;
returns the digit run and the capture. -/
def olCapture (l : List Char) : Option (List Char × List Char) :=
  let ds := l.takeWhile Char.isDigit
  if ds = [] then none else
  match l.dropWhile Char.isDigit with
  | '.' :: r2 =>
    let w := r2.takeWhile Char.isWhitespace
    let r := r2.dropWhile Char.isWhitespace
    if w = [] then none
    else if r ≠ [] then some (ds, r)
    else if 2 ≤ w.length then some (ds, w.drop (w.length - 1))
    else none
  | _ => none

/-- The horizontal-rule pattern: three or more characters, all dashes, stars
or underscores. -/
def isHr (l : List Char) : Bool :=
  3 ≤ l.length ∧ l.all (fun c => c = '-' ∨ c = '*' ∨ c = '_')

/-- The table separator row pattern: nonempty, only whitespace, dashes, pipes
and colons. -/
def isSepRow (l : List Char) : Bool :=
  l ≠ [] ∧ l.all (fun c => c.isWhitespace ∨ c = '-' ∨ c = '|' ∨ c = ':')

/-- Fence test on the trimmed form of a line. -/
def isFenceTrim (l : List Char) : Bool := (str "```").isPrefixOf (jsTrim l)

/-- The payload lines of a fence opened at line `i`: every following line up
to the first whose trimmed form starts with a fence. -/
def fenceScan (lines : List (List Char)) (i : Nat) : List (List Char) :=
  (lines.drop (i + 1)).takeWhile (fun l => ¬ isFenceTrim l)

/-- The raw payload of a fence opened at line `i`. -/
def fenceRaw (lines : List (List Char)) (i : Nat) : List Char :=
  jsTrim (List.intercalate ['\n'] (fenceScan lines i))

/-- The lowercased language tag of a fence opened at line `i`. -/
def fenceTag (lines : List (List Char)) (i : Nat) : List Char :=
  jsLower (jsTrim (removeTicks (jsTrim (lines.getD i []))))

/-- One pause item of the email converter: the sequence of pushes of the
`forEach` body, stopping with `false` at the first thrown access (a property
read on `null` or `toFixed` on a non-number), keeping the pushes already
made.  `n` is the interpolation depth fuel (the payload length). -/
def emailPauseItem (n : Nat) (idx : Nat) (j : Json) (out : List (List Char)) :
    List (List Char) × Bool :=
  match jsGet j (str "cpl_30d") with
  | none => (out, false)
  | some cplv =>
    let cplRes : Option (List Char) :=
      if truthy cplv then
        match cplv with
        | some (.num q) => some (str "  CPL: $" ++ toFixed2 q)
        | _ => none
      else some []
    match cplRes with
    | none => (out, false)
    | some cpl =>
      match jsGet j (str "days_running") with
      | none => (out, false)
      | some dayv =>
        let age := if ¬ isNullV dayv then str "  Running: " ++ jsValStrF n dayv ++ str "d" else []
        match jsGet j (str "ad_name"), jsGet j (str "campaign"), jsGet j (str "adset") with
        | some namev, some campv, some adsv =>
          let out1 := out ++ [natStr (idx + 1) ++ str ". " ++ jsValStrF n namev,
            str "   Campaign: " ++ jsValStrF n campv,
            str "   Ad Set: " ++ jsValStrF n adsv]
          match jsGet j (str "spend_30d") with
          | some (some (.num sp)) =>
            match jsGet j (str "leads_30d"), jsGet j (str "reason") with
            | some leadsv, some reasonv =>
              (out1 ++ [str "   Spend: $" ++ toFixed2 sp ++ str "  Leads: " ++
                  jsValStrF n leadsv ++ cpl ++ age,
                str "   Reason: " ++ jsValStrF n reasonv, []], true)
            | _, _ => (out1, false)
          | _ => (out1, false)
        | _, _, _ => (out, false)

/-- The `items.forEach` loop of the pause branch. -/
def emailPauseItems (n : Nat) : List Json → Nat → List (List Char) → List (List Char) × Bool
  | [], _, out => (out, true)
  | j :: rest, idx, out =>
    match emailPauseItem n idx j out with
    | (out2, false) => (out2, false)
    | (out2, true) => emailPauseItems n rest (idx + 1) out2

/-- The `try` body of the pause branch: parse, push the header and rule, run
the loop; any throw is caught by the branch and leaves the pushes made. -/
def emailTryPause (raw : List Char) (out : List (List Char)) : List (List Char) × Bool :=
  match parseJson raw with
  | none => (out, false)
  | some v =>
    let out2 := out ++ [str "PAUSE RECOMMENDATIONS", repChar '─' 50]
    match v with
    | .arr items => emailPauseItems raw.length items 0 out2
    | _ => (out2, false)

/-- One budget row of the email converter. -/
def emailBudgetRow (n : Nat) (row : Json) (out : List (List Char)) :
    List (List Char) × Bool :=
  match jsGet row (str "Campaign/Tactic") with
  | none => (out, false)
  | some ctv =>
    match jsGet row (str "Platform"), jsGet row (str "Current Spend"),
      jsGet row (str "Recommended Spend"), jsGet row (str "Delta (%)"),
      jsGet row (str "Reasoning") with
    | some pfv, some curv, some recv, some delv, some reav =>
      (out ++ [str "• " ++ jsValStrF n ctv ++ str " (" ++ jsValStrF n pfv ++ str ")",
        str "  Current: " ++ jsValStrF n curv ++ str "  →  Recommended: " ++
          jsValStrF n recv ++ str "  (" ++ jsValStrF n delv ++ str ")",
        str "  " ++ jsValStrF n reav, []], true)
    | _, _, _, _, _ => (out, false)

/-- The `rows.forEach` loop of the budget branch. -/
def emailBudgetRows (n : Nat) : List Json → List (List Char) → List (List Char) × Bool
  | [], out => (out, true)
  | row :: rest, out =>
    match emailBudgetRow n row out with
    | (out2, false) => (out2, false)
    | (out2, true) => emailBudgetRows n rest out2

/-- The `try` body of the budget branch. -/
def emailTryBudget (raw : List Char) (out : List (List Char)) : List (List Char) × Bool :=
  match parseJson raw with
  | none => (out, false)
  | some v =>
    let out2 := out ++ [str "BUDGET ALLOCATION", repChar '─' 50]
    match v with
    | .arr rows => emailBudgetRows raw.length rows out2
    | _ => (out2, false)

/-- One iteration of the `convertToEmailText` while-loop: the new `out` and
the next line index. -/
def emailIter (lines : List (List Char)) (i : Nat) (out : List (List Char)) :
    List (List Char) × Nat :=
  let trimmed := jsTrim (lines.getD i [])
  if (str "```").isPrefixOf trimmed then
    let blockType := fenceTag lines i
    let j := i + 1 + (fenceScan lines i).length
    let raw := fenceRaw lines i
    if blockType = str "email_report" then (out ++ [raw], j + 1)
    else if blockType = str "pause_list" then ((emailTryPause raw out).1, j + 1)
    else if blockType = str "budget_table" then ((emailTryBudget raw out).1, j + 1)
    else (out, j + 1)
  else if (str "## ").isPrefixOf trimmed then
    let text := removeStars2 (trimmed.drop 3)
    (out ++ [[], jsUpper text, repChar '─' (min (text.length + 4) 50)], i + 1)
  else if (str "### ").isPrefixOf trimmed then
    (out ++ [[], removeStars2 (trimmed.drop 4)], i + 1)
  else if (str "# ").isPrefixOf trimmed then
    let text := removeStars2 (trimmed.drop 2)
    (out ++ [jsUpper text, repChar '═' (min (text.length + 4) 60)], i + 1)
  else
    match ulCapture trimmed with
    | some cap => (out ++ [str "• " ++ stripInlineMarkdown cap], i + 1)
    | none =>
      match olCapture trimmed with
      | some (ds, cap) => (out ++ [ds ++ str ". " ++ stripInlineMarkdown cap], i + 1)
      | none =>
        if isHr trimmed then (out ++ [[]], i + 1)
        else if trimmed ≠ [] then (out ++ [stripInlineMarkdown trimmed], i + 1)
        else (out ++ [[]], i + 1)

/-- The fueled `convertToEmailText` while-loop. -/
def emailGoF : Nat → List (List Char) → Nat → List (List Char) → List (List Char)
  | 0, _, _, out => out
  | f + 1, lines, i, out =>
    if i < lines.length then
      let r := emailIter lines i out
      emailGoF f lines r.2 r.1
    else out

/-- Collapse every run of three or more newlines to exactly two, scanning
left to right with a pending-newline counter. -/
def collapseNlGo (run : Nat) : List Char → List Char
  | [] => List.replicate (min run 2) '\n'
  | c :: rest =>
    if c = '\n' then collapseNlGo (run + 1) rest
    else List.replicate (min run 2) '\n' ++ c :: collapseNlGo 0 rest

/-- The newline-collapsing post-pass of `convertToEmailText`. -/
def collapseNl (l : List Char) : List Char := collapseNlGo 0 l

/-- `convertToEmailText(content)`: the full plain-text email conversion. -/
def convertToEmailText (s : String) : String :=
  let lines := splitLines s.data
  let out := emailGoF (lines.length + 1) lines 0 []
  String.mk (jsTrim (collapseNl (List.intercalate ['\n'] out)))

-- ───────────────────────────────────────────────────────────────────────────
-- formatMessage: the typed block sequence the renderer produces.  Each
-- element carries its React key, which the blank-line branch inspects.
-- ───────────────────────────────────────────────────────────────────────────

/-- A typed output block of `formatMessage`. -/
inductive Block where
  | Heading (level : Nat) (spans : List Span)
  | Para (spans : List Span)
  | ListB (ordered : Bool) (items : List (List Span))
  | HRule
  | TableB (headers : List (List Char)) (rows : List (List (List Span)))
  | CodeB (language : List Char) (codeLines : List (List Char))
  | EmailReport (content : List Char)
  | PauseCard (payload : Json)
  | BudgetCard (payload : Json)
  | Spacer
deriving Repr

/-- The mutable state of the `formatMessage` loop: emitted keyed elements,
the pending list-item buffer and the pending list kind (`some true` is an
ordered list, `some false` unordered). -/
structure FmtSt where
  els : List (List Char × Block)
  items : List (List Span)
  lt : Option Bool
deriving Repr

/-- `flushList`: emit the pending list items as one list block; a no-op when
the buffer is empty (in that case the list kind is kept, as in the source). -/
def flushList (st : FmtSt) : FmtSt :=
  if st.items = [] then st
  else
    { els := st.els ++ [(str "list-" ++ natStr st.els.length,
        Block.ListB (st.lt = some true) st.items)],
      items := [], lt := none }

/-- A line `parseTable` keeps consuming: contains a pipe or is a separator
row. -/
def isTableLine (l : List Char) : Bool := l.contains '|' ∨ isSepRow l

/-- `parseTable(lines, startIndex)`: the table element (`none` when fewer
than two table lines) and the end index. -/
def parseTable (lines : List (List Char)) (i : Nat) :
    Option (List Char × Block) × Nat :=
  let tLines := (lines.drop i).takeWhile isTableLine
  if tLines.length < 2 then (none, i)
  else
    let headers := ((splitOnCh '|' (tLines.getD 0 [])).map jsTrim).filter (· ≠ [])
    let rows := ((tLines.drop 2).map
        (fun ln => ((splitOnCh '|' ln).map jsTrim).filter (· ≠ []))).filter (· ≠ [])
    ((some (str "table-" ++ natStr i,
        Block.TableB headers (rows.map (fun row => row.map parseInlineFormatting)))),
      i + tLines.length - 1)

/-- The code lines collected by `parseCodeBlock`: unlike the fence pre-scan
this scan tests the raw (untrimmed) line for the closing fence, as the
source does. -/
def codeScan (lines : List (List Char)) (i : Nat) : List (List Char) :=
  (lines.drop (i + 1)).takeWhile (fun l => ¬ (str "```").isPrefixOf l)

/-- `parseCodeBlock(lines, startIndex)`: the fallback code block element and
its end index. -/
def parseCodeBlock (lines : List (List Char)) (i : Nat) : (List Char × Block) × Nat :=
  let language := jsTrim (removeTicks (lines.getD i []))
  let codeLines := codeScan lines i
  ((str "code-" ++ natStr i, Block.CodeB language codeLines), i + 1 + codeLines.length)

/-- The unordered-list-item test of `formatMessage` (marker then whitespace). -/
def ulTest (l : List Char) : Bool :=
  match l with
  | c :: d :: _ => (c = '-' ∨ c = '*' ∨ c = '•') ∧ d.isWhitespace
  | _ => false

/-- `replace` of the unordered marker and following whitespace. -/
def ulStripped (l : List Char) : List Char := l.tail.dropWhile Char.isWhitespace

/-- The ordered-list-item test of `formatMessage` (digits, dot, whitespace). -/
def olTest (l : List Char) : Bool :=
  decide (l.takeWhile Char.isDigit ≠ []) &&
    (match l.dropWhile Char.isDigit with
     | '.' :: c :: _ => c.isWhitespace
     | _ => false)

/-- `replace` of the ordered marker and following whitespace. -/
def olStripped (l : List Char) : List Char :=
  match l.dropWhile Char.isDigit with
  | '.' :: r => r.dropWhile Char.isWhitespace
  | _ => l

/-- The non-fence, non-table part of one `formatMessage` iteration: headers,
horizontal rule, list items, blank line (Spacer) and paragraph. -/
def fmtRest (lines : List (List Char)) (i : Nat) (st : FmtSt) : FmtSt × Nat :=
  let trimmed := jsTrim (lines.getD i [])
  if (str "### ").isPrefixOf trimmed then
    let st := flushList st
    ({ st with els := st.els ++
        [(natStr i, Block.Heading 3 (parseInlineFormatting (trimmed.drop 4)))] }, i + 1)
  else if (str "## ").isPrefixOf trimmed then
    let st := flushList st
    ({ st with els := st.els ++
        [(natStr i, Block.Heading 2 (parseInlineFormatting (trimmed.drop 3)))] }, i + 1)
  else if (str "# ").isPrefixOf trimmed then
    let st := flushList st
    ({ st with els := st.els ++
        [(natStr i, Block.Heading 1 (parseInlineFormatting (trimmed.drop 2)))] }, i + 1)
  else if isHr trimmed then
    let st := flushList st
    ({ st with els := st.els ++ [(natStr i, Block.HRule)] }, i + 1)
  else if ulTest trimmed then
    let st := if st.lt = some false then st else { flushList st with lt := some false }
    ({ st with items := st.items ++ [parseInlineFormatting (ulStripped trimmed)] }, i + 1)
  else if olTest trimmed then
    let st := if st.lt = some true then st else { flushList st with lt := some true }
    ({ st with items := st.items ++ [parseInlineFormatting (olStripped trimmed)] }, i + 1)
  else if trimmed = [] then
    let st := flushList st
    if st.els.length ≠ 0 ∧
        (st.els.getLast?.map (fun p => p.1)) ≠ some (str "space-" ++ natStr (i - 1)) then
      ({ st with els := st.els ++ [(str "space-" ++ natStr i, Block.Spacer)] }, i + 1)
    else (st, i + 1)
  else
    let st := flushList st
    ({ st with els := st.els ++
        [(natStr i, Block.Para (parseInlineFormatting trimmed))] }, i + 1)

/-- One iteration of the `formatMessage` while-loop. -/
def fmtIter (lines : List (List Char)) (i : Nat) (st : FmtSt) : FmtSt × Nat :=
  let trimmed := jsTrim (lines.getD i [])
  if (str "```").isPrefixOf trimmed then
    let st := flushList st
    let blockType := fenceTag lines i
    let j := i + 1 + (fenceScan lines i).length
    let raw := fenceRaw lines i
    let fallback : FmtSt × Nat :=
      let r := parseCodeBlock lines i
      ({ st with els := st.els ++ [r.1] }, r.2 + 1)
    if blockType = str "email_report" then
      ({ st with els := st.els ++ [(str "email-" ++ natStr i, Block.EmailReport raw)] }, j + 1)
    else if blockType = str "pause_list" then
      match parseJson raw with
      | some v =>
        ({ st with els := st.els ++ [(str "pause-" ++ natStr i, Block.PauseCard v)] }, j + 1)
      | none => fallback
    else if blockType = str "budget_table" then
      match parseJson raw with
      | some v =>
        ({ st with els := st.els ++ [(str "budget-" ++ natStr i, Block.BudgetCard v)] }, j + 1)
      | none => fallback
    else fallback
  else if trimmed.contains '|' ∧ i + 1 < lines.length ∧ isSepRow (lines.getD (i + 1) []) then
    let st := flushList st
    match parseTable lines i with
    | (some el, endIdx) => ({ st with els := st.els ++ [el] }, endIdx + 1)
    | (none, _) => fmtRest lines i st
  else fmtRest lines i st

/-- The fueled `formatMessage` while-loop; the terminal step flushes any
pending list. -/
def fmtGoF : Nat → List (List Char) → Nat → FmtSt → List (List Char × Block)
  | 0, _, _, st => (flushList st).els
  | f + 1, lines, i, st =>
    if i < lines.length then
      let r := fmtIter lines i st
      fmtGoF f lines r.2 r.1
    else (flushList st).els

/-- `formatMessage(content)`: the keyed block sequence of the rendered
message. -/
def formatMessage (s : String) : List (List Char × Block) :=
  let lines := splitLines s.data
  fmtGoF (lines.length + 1) lines 0 ⟨[], [], none⟩

-- ───────────────────────────────────────────────────────────────────────────
-- PauseListBlock: the visible content of the rendered pause card, for items
-- of the documented shape.  (The unused optional `ad_id` field is omitted.)
-- ───────────────────────────────────────────────────────────────────────────

/-- A well-formed pause recommendation record. -/
structure PauseItem where
  ad_name : List Char
  campaign : List Char
  adset : List Char
  days_running : Option Int
  spend_30d : JNum
  leads_30d : JNum
  cpl_30d : Option JNum
  reason : List Char
deriving Repr, DecidableEq

/-- The user-visible fields of one card of `PauseListBlock`: the index badge,
the name and labels, and the optional metric spans. -/
structure PauseCardEntry where
  badge : List Char
  adName : List Char
  campaign : List Char
  adset : List Char
  running : Option (List Char)
  spend : List Char
  leads : List Char
  cpl : Option (List Char)
  zeroActivity : Bool
  reason : List Char
deriving Repr, DecidableEq

/-- One card of `PauseListBlock` for the item at position `idx`. -/
def pauseEntry (idx : Nat) (it : PauseItem) : PauseCardEntry :=
  { badge := natStr (idx + 1)
    adName := it.ad_name
    campaign := it.campaign
    adset := it.adset
    running := it.days_running.map (fun d => jnumToStr ⟨d, 0⟩ ++ str "d")
    spend := str "$" ++ toLocale2 it.spend_30d
    leads := jnumToStr it.leads_30d
    cpl := match it.cpl_30d with
      | some q => if 0 < q.m then some (str "$" ++ toFixed2 q) else none
      | none => none
    zeroActivity := ¬ 0 < it.spend_30d.m ∧ ¬ 0 < it.leads_30d.m
    reason := it.reason }

/-- The rendered pause card: header line and one entry per item, in array
order. -/
structure PauseListRender where
  header : List Char
  entries : List PauseCardEntry
deriving Repr, DecidableEq

/-- `PauseListBlock(items)`. -/
def PauseListBlock (items : List PauseItem) : PauseListRender :=
  { header := str "Pause Recommendations — " ++ natStr items.length ++ str " ad" ++
      (if items.length ≠ 1 then str "s" else [])
    entries := items.enum.map (fun p => pauseEntry p.1 p.2) }

/-- The JSON encoding of a well-formed pause item, with explicit nulls for
the two nullable fields. -/
def encodePauseItem (it : PauseItem) : Json :=
  .obj [(str "ad_name", .jstr it.ad_name),
    (str "campaign", .jstr it.campaign),
    (str "adset", .jstr it.adset),
    (str "days_running", match it.days_running with | some d => .num ⟨d, 0⟩ | none => .null),
    (str "spend_30d", .num it.spend_30d),
    (str "leads_30d", .num it.leads_30d),
    (str "cpl_30d", match it.cpl_30d with | some q => .num q | none => .null),
    (str "reason", .jstr it.reason)]

/-- The email lines of one well-formed pause item (what `emailPauseItem`
produces on its encoding). -/
def typedPauseLines (idx : Nat) (it : PauseItem) : List (List Char) :=
  let cpl := match it.cpl_30d with
    | some q => if q.m ≠ 0 then str "  CPL: $" ++ toFixed2 q else []
    | none => []
  let age := match it.days_running with
    | some d => str "  Running: " ++ jnumToStr ⟨d, 0⟩ ++ str "d"
    | none => []
  [natStr (idx + 1) ++ str ". " ++ it.ad_name,
   str "   Campaign: " ++ it.campaign,
   str "   Ad Set: " ++ it.adset,
   str "   Spend: $" ++ toFixed2 it.spend_30d ++ str "  Leads: " ++
     jnumToStr it.leads_30d ++ cpl ++ age,
   str "   Reason: " ++ it.reason, []]

-- ───────────────────────────────────────────────────────────────────────────
-- Chat session controller: the synchronous phase of `sendMessage` (up to
-- and including the dispatch of the network request).
-- ───────────────────────────────────────────────────────────────────────────

/-- A conversation message. -/
structure Msg where
  id : List Char
  isUser : Bool
  content : List Char
  timestamp : Nat
deriving Repr, DecidableEq

/-- The body of the one network request `sendMessage` can issue. -/
structure ChatReq where
  message : List Char
  session_id : List Char
deriving Repr, DecidableEq

/-- The controller state `sendMessage` reads and writes. -/
structure ChatSt where
  messages : List Msg
  input : List Char
  isLoading : Bool
  sessionId : List Char
deriving Repr, DecidableEq

/-- `sendMessage(overrideText?)`, synchronous phase: the updated state and
the list of issued requests (`now` stands for `Date.now()`). -/
def sendMessage (st : ChatSt) (overrideText : Option (List Char)) (now : Nat) :
    ChatSt × List ChatReq :=
  let text := jsTrim (overrideText.getD st.input)
  if text = [] ∨ st.isLoading then (st, [])
  else
    ({ st with
        messages := st.messages ++ [⟨str "user-" ++ natStr now, true, text, now⟩],
        input := [], isLoading := true },
      [⟨text, st.sessionId⟩])

-- ───────────────────────────────────────────────────────────────────────────
-- Concrete inputs used by the claims
-- ───────────────────────────────────────────────────────────────────────────

/-- The budget-table message of the round-trip email example. -/
def msgBudget : String :=
  "```budget_table\n[\x7b\"Platform\":\"Meta\",\"Campaign/Tactic\":\"Retargeting\",\"Current Spend\":\"$500\",\"Recommended Spend\":\"$750\",\"Delta (%)\":\"+50%\",\"Reasoning\":\"High ROAS\"\x7d]\n```"

/-- A pause-list message whose payload is not valid JSON. -/
def msgBadPause : String := "```pause_list\n\x7bnot valid json\n```"

/-- A pause-list message whose payload is valid JSON but not an array. -/
def msgNumPause : String := "```pause_list\n5\n```"

/-- Spacer test: a Block predicate used to count spacers. -/
def isSpacer : Block → Bool
  | .Spacer => true
  | _ => false

/-- The non-cpl fields of the pause item used as the concrete witness of the
zero-cpl claim. -/
def cplWitnessRest : List (List Char × Json) :=
  [(str "ad_name", .jstr (str "Ad A")), (str "campaign", .jstr (str "C1")),
   (str "adset", .jstr (str "S1")), (str "days_running", .null),
   (str "spend_30d", .num ⟨10, 0⟩), (str "leads_30d", .num ⟨2, 0⟩),
   (str "reason", .jstr (str "no leads"))]

/-- The pause item used as the concrete witness of the pause-numbering and
zero-cpl claims. -/
def pauseWitnessItem : PauseItem :=
  ⟨str "Ad A", str "C1", str "S1", some 12, ⟨100, 0⟩, ⟨0, 0⟩, none, str "no leads"⟩

/-- The JSON text of the witness pause item. -/
def pauseItemJson : String :=
  "\x7b\"ad_name\":\"Ad A\",\"campaign\":\"C1\",\"adset\":\"S1\",\"days_running\":12,\"spend_30d\":100,\"leads_30d\":0,\"cpl_30d\":null,\"reason\":\"no leads\"\x7d"

/-- A three-item pause payload built from the witness item. -/
def pauseJson3 : List Char :=
  str ("[" ++ pauseItemJson ++ "," ++ pauseItemJson ++ "," ++ pauseItemJson ++ "]")

/-- The email lines of a list of well-formed pause items numbered from
`idx`: the concatenation of the per-item line groups with consecutive
indices. -/
def typedPauseList (idx : Nat) : List PauseItem → List (List Char)
  | [] => []
  | it :: rest => typedPauseLines idx it ++ typedPauseList (idx + 1) rest

-- ───────────────────────────────────────────────────────────────────────────
-- Supporting definitions for the blank-line-collapse claim
-- ───────────────────────────────────────────────────────────────────────────

/-- Decimal digits of a natural number, most significant first: the
specification of `Nat.repr` used to prove the keys distinct. -/
def decDigits (n : Nat) : List Char :=
  if n < 10 then [Nat.digitChar n]
  else decDigits (n / 10) ++ [Nat.digitChar (n % 10)]
decreasing_by exact Nat.div_lt_self (by omega) (by omega)

/-- The keyed spacer elements a run of blank lines produces: one for each
odd position of the run (the guard suppresses a spacer only directly after
one was emitted). -/
def spacerRun (i : Nat) : Nat → List (List Char × Block)
  | 0 => []
  | 1 => [(str "space-" ++ natStr i, Block.Spacer)]
  | k + 2 => (str "space-" ++ natStr i, Block.Spacer) :: spacerRun (i + 2) k

/-- The message family of the blank-line-collapse claim: the letter A, then
`n + 1` newline characters (`n` blank lines), then the letter B. -/
def msgBlank (n : Nat) : String := "A" ++ String.mk (List.replicate (n + 1) '\n') ++ "B"

/-- The character just before the scan position after passing over `p`. -/
def prevAfter (prev : Option Char) : List Char → Option Char
  | [] => prev
  | c :: rest => prevAfter (some c) rest


-- ───────────────────────── C6 machinery ─────────────────────────

/-- A markup fragment: the shapes of well-formed inline markdown that
`stripInlineMarkdown`'s four patterns recognise, plus plain text. -/
inductive Seg where
  | plain (t : List Char)
  | bold (t : List Char)
  | ital (t : List Char)
  | code (t : List Char)
  | link (t u : List Char)
deriving DecidableEq, Repr

/-- Render a fragment to its markdown source text. -/
def renderSeg : Seg → List Char
  | Seg.plain t => t
  | Seg.bold t => '*' :: '*' :: (t ++ ['*', '*'])
  | Seg.ital t => '*' :: (t ++ ['*'])
  | Seg.code t => '`' :: (t ++ ['`'])
  | Seg.link t u => '[' :: (t ++ ']' :: '(' :: (u ++ [')']))

/-- Render a fragment list. -/
def renderSegs : List Seg → List Char
  | [] => []
  | s :: rest => renderSeg s ++ renderSegs rest

/-- A content character: not one of the delimiter characters of the four
patterns, and not a newline (which bounds their groups). -/
def goodCh (c : Char) : Prop :=
  c ≠ '*' ∧ c ≠ '`' ∧ c ≠ '[' ∧ c ≠ ']' ∧ c ≠ '(' ∧ c ≠ ')' ∧ c ≠ '\n'

instance goodCh.dec : DecidablePred goodCh := fun c =>
  inferInstanceAs (Decidable
    (c ≠ '*' ∧ c ≠ '`' ∧ c ≠ '[' ∧ c ≠ ']' ∧ c ≠ '(' ∧ c ≠ ')' ∧ c ≠ '\n'))

/-- Fragment contents are nonempty and delimiter-free. -/
def goodSeg : Seg → Prop
  | Seg.plain t => t ≠ [] ∧ ∀ c ∈ t, goodCh c
  | Seg.bold t => t ≠ [] ∧ ∀ c ∈ t, goodCh c
  | Seg.ital t => t ≠ [] ∧ ∀ c ∈ t, goodCh c
  | Seg.code t => t ≠ [] ∧ ∀ c ∈ t, goodCh c
  | Seg.link t u => (t ≠ [] ∧ ∀ c ∈ t, goodCh c) ∧ (u ≠ [] ∧ ∀ c ∈ u, goodCh c)

instance goodSeg.dec : DecidablePred goodSeg := fun s =>
  match s with
  | Seg.plain t => inferInstanceAs (Decidable (t ≠ [] ∧ ∀ c ∈ t, goodCh c))
  | Seg.bold t => inferInstanceAs (Decidable (t ≠ [] ∧ ∀ c ∈ t, goodCh c))
  | Seg.ital t => inferInstanceAs (Decidable (t ≠ [] ∧ ∀ c ∈ t, goodCh c))
  | Seg.code t => inferInstanceAs (Decidable (t ≠ [] ∧ ∀ c ∈ t, goodCh c))
  | Seg.link t u => inferInstanceAs (Decidable
      ((t ≠ [] ∧ ∀ c ∈ t, goodCh c) ∧ (u ≠ [] ∧ ∀ c ∈ u, goodCh c)))

/-- Plain-text fragment test. -/
def isPlainSeg : Seg → Bool
  | Seg.plain _ => true
  | _ => false

/-- Well-formed, unnested markup: every fragment is good and no two styled
fragments are directly adjacent. -/
def goodSegs (segs : List Seg) : Prop :=
  (∀ s ∈ segs, goodSeg s) ∧
  List.Chain' (fun s1 s2 => isPlainSeg s1 = true ∨ isPlainSeg s2 = true) segs

instance goodSegs.dec : ∀ segs, Decidable (goodSegs segs) := fun segs =>
  inferInstanceAs (Decidable ((∀ s ∈ segs, goodSeg s) ∧
    List.Chain' (fun s1 s2 => isPlainSeg s1 = true ∨ isPlainSeg s2 = true) segs))

/-- Locate the first bold fragment: the fragments before it, its content and
the fragments after it. -/
def firstBoldSplit : List Seg → Option (List Seg × List Char × List Seg)
  | [] => none
  | Seg.bold t :: rest => some ([], t, rest)
  | s :: rest => (firstBoldSplit rest).map (fun q => (s :: q.1, q.2.1, q.2.2))

/-- Locate the first italic fragment. -/
def firstItalSplit : List Seg → Option (List Seg × List Char × List Seg)
  | [] => none
  | Seg.ital t :: rest => some ([], t, rest)
  | s :: rest => (firstItalSplit rest).map (fun q => (s :: q.1, q.2.1, q.2.2))

/-- Locate the first code fragment. -/
def firstCodeSplit : List Seg → Option (List Seg × List Char × List Seg)
  | [] => none
  | Seg.code t :: rest => some ([], t, rest)
  | s :: rest => (firstCodeSplit rest).map (fun q => (s :: q.1, q.2.1, q.2.2))

/-- Locate the first link fragment. -/
def firstLinkSplit : List Seg → Option (List Seg × List Char × List Char × List Seg)
  | [] => none
  | Seg.link t u :: rest => some ([], t, u, rest)
  | s :: rest => (firstLinkSplit rest).map (fun q => (s :: q.1, q.2.1, q.2.2.1, q.2.2.2))

/-- Effect of the bold pass on fragments. -/
def deBold (segs : List Seg) : List Seg :=
  segs.map (fun s => match s with | Seg.bold t => Seg.plain t | s => s)

/-- Effect of the italic pass on fragments. -/
def deItal (segs : List Seg) : List Seg :=
  segs.map (fun s => match s with | Seg.ital t => Seg.plain t | s => s)

/-- Effect of the code pass on fragments. -/
def deCode (segs : List Seg) : List Seg :=
  segs.map (fun s => match s with | Seg.code t => Seg.plain t | s => s)

/-- Effect of the link pass on fragments: the text is kept, the url dropped. -/
def deLink (segs : List Seg) : List Seg :=
  segs.map (fun s => match s with | Seg.link t _ => Seg.plain t | s => s)

/-- Number of bold fragments. -/
def countBold (segs : List Seg) : Nat :=
  segs.countP (fun s => match s with | Seg.bold _ => true | _ => false)

/-- Number of italic fragments. -/
def countItal (segs : List Seg) : Nat :=
  segs.countP (fun s => match s with | Seg.ital _ => true | _ => false)

/-- Number of code fragments. -/
def countCode (segs : List Seg) : Nat :=
  segs.countP (fun s => match s with | Seg.code _ => true | _ => false)

/-- Number of link fragments. -/
def countLink (segs : List Seg) : Nat :=
  segs.countP (fun s => match s with | Seg.link _ _ => true | _ => false)


end Jarvis

namespace Jarvis

-- ═══════════════════════════════════════════════════════════════════════════
-- Theorems
-- ═══════════════════════════════════════════════════════════════════════════

/-- Claim C7: for the budget-table message with the Meta/Retargeting row, the
email conversion yields the header `BUDGET ALLOCATION`, the 50-dash rule, the
line `• Retargeting (Meta)`, and immediately after it a line containing
`$500`, `$750` and `+50%`. -/
theorem email_budget_roundtrip :
    splitLines (convertToEmailText msgBudget).data =
      [str "BUDGET ALLOCATION", repChar '─' 50, str "• Retargeting (Meta)",
       str "  Current: " ++ str "$500" ++ str "  →  Recommended: " ++ str "$750" ++
         str "  (" ++ str "+50%" ++ str ")",
       str "  " ++ str "High ROAS"] := by decide

/-- Claim C9: `sendMessage` is a complete no-op (state unchanged, no request)
when the text trims to empty or a request is in flight; otherwise it appends
exactly one user message, clears the input, enters the loading state, and
issues exactly one request carrying the message and session id. -/
theorem sendMessage_spec (st : ChatSt) (overrideText : Option (List Char)) (now : Nat) :
    (jsTrim (overrideText.getD st.input) = [] ∨ st.isLoading = true →
      sendMessage st overrideText now = (st, [])) ∧
    (¬ (jsTrim (overrideText.getD st.input) = [] ∨ st.isLoading = true) →
      sendMessage st overrideText now =
        ({ st with
            messages := st.messages ++
              [⟨str "user-" ++ natStr now, true, jsTrim (overrideText.getD st.input), now⟩],
            input := [], isLoading := true },
          [⟨jsTrim (overrideText.getD st.input), st.sessionId⟩])) := by
  constructor <;> intro h
  · rcases h with h | h <;> simp [sendMessage, h]
  · push_neg at h
    simp [sendMessage, h.1, h.2]

/-- Witness for C9: a concrete accepted send from an idle state. -/
theorem sendMessage_spec_witness :
    ¬ (jsTrim ((none : Option (List Char)).getD (str " hi ")) = [] ∨ false = true) ∧
    sendMessage ⟨[], str " hi ", false, str "web-1"⟩ none 5 =
      ({ (⟨[], str " hi ", false, str "web-1"⟩ : ChatSt) with
          messages := [] ++ [⟨str "user-" ++ natStr 5, true,
            jsTrim ((none : Option (List Char)).getD (str " hi ")), 5⟩],
          input := [], isLoading := true },
        [⟨jsTrim ((none : Option (List Char)).getD (str " hi ")), str "web-1"⟩]) :=
  ⟨by decide, (sendMessage_spec ⟨[], str " hi ", false, str "web-1"⟩ none 5).2 (by decide)⟩

/-- Claim C10: a pause item whose `cpl_30d` is exactly `0` is treated exactly
like one whose `cpl_30d` is `null`: the email converter produces the same
lines for the item (the CPL segment is suppressed because the code tests
truthiness, and `0` is falsy), and the rendered card is the same with no CPL
span (the code requires `cpl_30d` to be positive). -/
theorem cpl_zero_indistinguishable (n idx : Nat) (f1 f2 : List (List Char × Json))
    (out : List (List Char)) (it : PauseItem)
    (hag : ∀ k, k ≠ str "cpl_30d" → jlookup f1 k = jlookup f2 k)
    (h1 : jlookup f1 (str "cpl_30d") = some (Json.num ⟨0, 0⟩))
    (h2 : jlookup f2 (str "cpl_30d") = some Json.null) :
    emailPauseItem n idx (.obj f1) out = emailPauseItem n idx (.obj f2) out ∧
    pauseEntry idx { it with cpl_30d := some ⟨0, 0⟩ } =
      pauseEntry idx { it with cpl_30d := none } ∧
    (pauseEntry idx { it with cpl_30d := some ⟨0, 0⟩ }).cpl = none ∧
    truthy (some (Json.num ⟨0, 0⟩)) = false := by
  refine ⟨?_, by simp [pauseEntry], by simp [pauseEntry], by simp [truthy]⟩
  have d := hag (str "days_running") (by decide)
  have a1 := hag (str "ad_name") (by decide)
  have a2 := hag (str "campaign") (by decide)
  have a3 := hag (str "adset") (by decide)
  have a4 := hag (str "spend_30d") (by decide)
  have a5 := hag (str "leads_30d") (by decide)
  have a6 := hag (str "reason") (by decide)
  simp only [emailPauseItem, jsGet, h1, h2, d, a1, a2, a3, a4, a5, a6, truthy]
  norm_num

/-- Unfolding equation of `decDigits`. -/
theorem decDigits_eq (n : Nat) : decDigits n =
    if n < 10 then [Nat.digitChar n]
    else decDigits (n / 10) ++ [Nat.digitChar (n % 10)] := by
  rw [decDigits]

/-- A digit string is never empty. -/
theorem decDigits_ne_nil (n : Nat) : decDigits n ≠ [] := by
  rw [decDigits_eq]
  split_ifs <;> simp

/-- The core of `Nat.repr` computes `decDigits` when fueled. -/
theorem toDigitsCore_eq (fuel : Nat) : ∀ (n : Nat) (ds : List Char), n < fuel →
    Nat.toDigitsCore 10 fuel n ds = decDigits n ++ ds := by
  induction fuel with
  | zero => omega
  | succ fuel ih =>
    intro n ds hn
    rw [Nat.toDigitsCore]
    by_cases h10 : n < 10
    · rw [if_pos (by omega)]
      rw [decDigits_eq, if_pos h10, Nat.mod_eq_of_lt h10]
      simp
    · rw [if_neg (by omega)]
      rw [ih (n / 10) _ (by omega)]
      rw [decDigits_eq n, if_neg h10]
      simp

/-- `natStr` is `decDigits`. -/
theorem natStr_eq_decDigits (n : Nat) : natStr n = decDigits n := by
  show (Nat.repr n).data = decDigits n
  rw [Nat.repr]
  show (Nat.toDigits 10 n).asString.data = _
  rw [Nat.toDigits, toDigitsCore_eq (n + 1) n [] (by omega)]
  simp [List.asString]

/-- Digit characters of digits below ten are distinct. -/
theorem digitChar_inj (a b : Nat) (ha : a < 10) (hb : b < 10)
    (h : Nat.digitChar a = Nat.digitChar b) : a = b := by
  interval_cases a <;> interval_cases b <;> simp_all [Nat.digitChar]

/-- Decimal digit strings identify the number. -/
theorem decDigits_inj : ∀ (a b : Nat), decDigits a = decDigits b → a = b := by
  intro a
  induction a using Nat.strong_induction_on with
  | _ a ih =>
    intro b h
    by_cases ha : a < 10 <;> by_cases hb : b < 10
    · rw [decDigits_eq a, if_pos ha, decDigits_eq b, if_pos hb] at h
      simp at h
      exact digitChar_inj a b ha hb h
    · rw [decDigits_eq a, if_pos ha, decDigits_eq b, if_neg hb] at h
      have hlen := congrArg List.length h
      simp only [List.length_singleton, List.length_append] at hlen
      have h0 := decDigits_ne_nil (b / 10)
      have h1 : 1 ≤ (decDigits (b / 10)).length := by
        rcases hcons : decDigits (b / 10) with _ | ⟨c, cs⟩
        · exact absurd hcons h0
        · simp
      omega
    · rw [decDigits_eq a, if_neg ha, decDigits_eq b, if_pos hb] at h
      have hlen := congrArg List.length h
      simp only [List.length_singleton, List.length_append] at hlen
      have h0 := decDigits_ne_nil (a / 10)
      have h1 : 1 ≤ (decDigits (a / 10)).length := by
        rcases hcons : decDigits (a / 10) with _ | ⟨c, cs⟩
        · exact absurd hcons h0
        · simp
      omega
    · rw [decDigits_eq a, if_neg ha, decDigits_eq b, if_neg hb] at h
      have h2 := List.append_inj' h (by simp)
      have hdiv := ih (a / 10) (Nat.div_lt_self (by omega) (by omega)) (b / 10) h2.1
      have hmod : a % 10 = b % 10 := by
        have := h2.2
        simp at this
        exact digitChar_inj _ _ (Nat.mod_lt a (by omega)) (Nat.mod_lt b (by omega)) this
      omega

/-- The decimal rendering of naturals is injective, so the spacer keys of
distinct line indices differ. -/
theorem natStr_inj (a b : Nat) (h : natStr a = natStr b) : a = b := by
  rw [natStr_eq_decDigits, natStr_eq_decDigits] at h
  exact decDigits_inj a b h

/-- Every branch of the non-fence, non-table part of a `formatMessage`
iteration advances the line index by exactly one. -/
theorem fmtRest_snd (lines : List (List Char)) (i : Nat) (st : FmtSt) :
    (fmtRest lines i st).2 = i + 1 := by
  unfold fmtRest
  dsimp only
  split_ifs <;> rfl

/-- Every iteration of the `formatMessage` loop strictly advances the line
index: the termination argument of the source loop. -/
theorem fmtIter_progress (lines : List (List Char)) (i : Nat) (st : FmtSt) :
    i < (fmtIter lines i st).2 := by
  unfold fmtIter
  dsimp only
  split_ifs
  all_goals try omega
  all_goals try (rcases hp : parseJson (fenceRaw lines i) with _ | v <;>
    simp only [hp, parseCodeBlock] <;> omega)
  all_goals try (rw [fmtRest_snd]; omega)
  all_goals rcases hpt : parseTable lines i with ⟨el?, e⟩
  all_goals rcases el? with _ | el
  all_goals simp only [hpt]
  · rw [fmtRest_snd]; omega
  · unfold parseTable at hpt
    dsimp only at hpt
    by_cases hlen : (List.takeWhile isTableLine (List.drop i lines)).length < 2
    · rw [if_pos hlen] at hpt
      simp at hpt
    · rw [if_neg hlen] at hpt
      simp only [Prod.mk.injEq] at hpt
      have := hpt.2
      omega

/-- Every iteration of the `convertToEmailText` loop strictly advances the
line index. -/
theorem emailIter_progress (lines : List (List Char)) (i : Nat) (out : List (List Char)) :
    i < (emailIter lines i out).2 := by
  unfold emailIter
  dsimp only
  split_ifs
  all_goals try omega
  all_goals (rcases ulCapture (jsTrim (lines.getD i [])) with _ | cap)
  all_goals dsimp only
  all_goals try omega
  all_goals try rcases olCapture (jsTrim (lines.getD i [])) with _ | ⟨ds, cap2⟩
  all_goals dsimp only
  all_goals omega

/-- The `formatMessage` loop result does not depend on the fuel once it
exceeds the number of remaining lines (`k` bounds the recursion). -/
theorem fmtGoF_stable (lines : List (List Char)) :
    ∀ (k f1 f2 i : Nat) (st : FmtSt), lines.length - i ≤ k →
      lines.length - i < f1 → lines.length - i < f2 →
      fmtGoF f1 lines i st = fmtGoF f2 lines i st := by
  intro k
  induction k with
  | zero =>
    intro f1 f2 i st hk h1 h2
    rcases f1 with _ | g1; · omega
    rcases f2 with _ | g2; · omega
    have hi : ¬ i < lines.length := by omega
    simp [fmtGoF, hi]
  | succ k ih =>
    intro f1 f2 i st hk h1 h2
    rcases f1 with _ | g1; · omega
    rcases f2 with _ | g2; · omega
    by_cases hi : i < lines.length
    · have hp := fmtIter_progress lines i st
      simp only [fmtGoF, hi, if_true]
      exact ih g1 g2 (fmtIter lines i st).2 (fmtIter lines i st).1
        (by omega) (by omega) (by omega)
    · simp [fmtGoF, hi]

/-- The `convertToEmailText` loop result does not depend on the fuel once it
exceeds the number of remaining lines. -/
theorem emailGoF_stable (lines : List (List Char)) :
    ∀ (k f1 f2 i : Nat) (out : List (List Char)), lines.length - i ≤ k →
      lines.length - i < f1 → lines.length - i < f2 →
      emailGoF f1 lines i out = emailGoF f2 lines i out := by
  intro k
  induction k with
  | zero =>
    intro f1 f2 i out hk h1 h2
    rcases f1 with _ | g1; · omega
    rcases f2 with _ | g2; · omega
    have hi : ¬ i < lines.length := by omega
    simp [emailGoF, hi]
  | succ k ih =>
    intro f1 f2 i out hk h1 h2
    rcases f1 with _ | g1; · omega
    rcases f2 with _ | g2; · omega
    by_cases hi : i < lines.length
    · have hp := emailIter_progress lines i out
      simp only [emailGoF, hi, if_true]
      exact ih g1 g2 (emailIter lines i out).2 (emailIter lines i out).1
        (by omega) (by omega) (by omega)
    · simp [emailGoF, hi]

/-- A line claimed by no detector becomes a stripped text line in the email
conversion. -/
theorem emailIter_plain (lines : List (List Char)) (i : Nat) (out : List (List Char))
    (h1 : ¬ (str "```").isPrefixOf (jsTrim (lines.getD i [])))
    (h2 : ¬ (str "## ").isPrefixOf (jsTrim (lines.getD i [])))
    (h3 : ¬ (str "### ").isPrefixOf (jsTrim (lines.getD i [])))
    (h4 : ¬ (str "# ").isPrefixOf (jsTrim (lines.getD i [])))
    (h5 : ulCapture (jsTrim (lines.getD i [])) = none)
    (h6 : olCapture (jsTrim (lines.getD i [])) = none)
    (h7 : ¬ isHr (jsTrim (lines.getD i [])))
    (h8 : jsTrim (lines.getD i []) ≠ []) :
    emailIter lines i out =
      (out ++ [stripInlineMarkdown (jsTrim (lines.getD i []))], i + 1) := by
  unfold emailIter
  dsimp only
  rw [if_neg h1, if_neg h2, if_neg h3, if_neg h4, h5, h6, if_neg h7, if_pos h8]

/-- A line claimed by no detector becomes a literal paragraph in the
formatter. -/
theorem fmtIter_plain (lines : List (List Char)) (i : Nat) (st : FmtSt)
    (h1 : ¬ (str "```").isPrefixOf (jsTrim (lines.getD i [])))
    (ht : ¬ ((jsTrim (lines.getD i [])).contains '|' ∧ i + 1 < lines.length ∧
      isSepRow (lines.getD (i + 1) [])))
    (h2 : ¬ (str "### ").isPrefixOf (jsTrim (lines.getD i [])))
    (h3 : ¬ (str "## ").isPrefixOf (jsTrim (lines.getD i [])))
    (h4 : ¬ (str "# ").isPrefixOf (jsTrim (lines.getD i [])))
    (h7 : ¬ isHr (jsTrim (lines.getD i [])))
    (h5 : ¬ ulTest (jsTrim (lines.getD i [])))
    (h6 : ¬ olTest (jsTrim (lines.getD i [])))
    (h8 : jsTrim (lines.getD i []) ≠ []) :
    fmtIter lines i st =
      ({ flushList st with els := (flushList st).els ++
          [(natStr i, Block.Para (parseInlineFormatting (jsTrim (lines.getD i []))))] },
        i + 1) := by
  unfold fmtIter fmtRest
  dsimp only
  rw [if_neg h1, if_neg ht, if_neg h2, if_neg h3, if_neg h4, if_neg h7, if_neg h5,
    if_neg h6, if_neg (by simpa using h8)]

/-- Claim C4: both pipelines are total and deterministic.  Totality is
witnessed by the definitions themselves (every loop is a total function whose
progress lemma is proved above) and by fuel stability: the wrappers pick fuel
`lines.length + 1`, and any fuel exceeding the remaining line count yields
the same value, so the functions compute the unique value of the source
loop.  Determinism is function application.  The worst-case conjuncts show an
arbitrary unclaimed line degrades to a literal paragraph (render path) and to
an inline-stripped text line (email path). -/
theorem total_deterministic :
    (∀ (lines : List (List Char)) (f1 f2 i : Nat) (st : FmtSt),
      lines.length - i < f1 → lines.length - i < f2 →
      fmtGoF f1 lines i st = fmtGoF f2 lines i st) ∧
    (∀ (lines : List (List Char)) (f1 f2 i : Nat) (out : List (List Char)),
      lines.length - i < f1 → lines.length - i < f2 →
      emailGoF f1 lines i out = emailGoF f2 lines i out) ∧
    (∀ (lines : List (List Char)) (i : Nat) (st : FmtSt),
      ¬ (str "```").isPrefixOf (jsTrim (lines.getD i [])) →
      ¬ ((jsTrim (lines.getD i [])).contains '|' ∧ i + 1 < lines.length ∧
        isSepRow (lines.getD (i + 1) [])) →
      ¬ (str "### ").isPrefixOf (jsTrim (lines.getD i [])) →
      ¬ (str "## ").isPrefixOf (jsTrim (lines.getD i [])) →
      ¬ (str "# ").isPrefixOf (jsTrim (lines.getD i [])) →
      ¬ isHr (jsTrim (lines.getD i [])) →
      ¬ ulTest (jsTrim (lines.getD i [])) →
      ¬ olTest (jsTrim (lines.getD i [])) →
      jsTrim (lines.getD i []) ≠ [] →
      fmtIter lines i st =
        ({ flushList st with els := (flushList st).els ++
            [(natStr i, Block.Para (parseInlineFormatting (jsTrim (lines.getD i []))))] },
          i + 1)) ∧
    (∀ (lines : List (List Char)) (i : Nat) (out : List (List Char)),
      ¬ (str "```").isPrefixOf (jsTrim (lines.getD i [])) →
      ¬ (str "## ").isPrefixOf (jsTrim (lines.getD i [])) →
      ¬ (str "### ").isPrefixOf (jsTrim (lines.getD i [])) →
      ¬ (str "# ").isPrefixOf (jsTrim (lines.getD i [])) →
      ulCapture (jsTrim (lines.getD i [])) = none →
      olCapture (jsTrim (lines.getD i [])) = none →
      ¬ isHr (jsTrim (lines.getD i [])) →
      jsTrim (lines.getD i []) ≠ [] →
      emailIter lines i out =
        (out ++ [stripInlineMarkdown (jsTrim (lines.getD i []))], i + 1)) := by
  refine ⟨?_, ?_, ?_, ?_⟩
  · intro lines f1 f2 i st h1 h2
    exact fmtGoF_stable lines (lines.length - i) f1 f2 i st le_rfl h1 h2
  · intro lines f1 f2 i out h1 h2
    exact emailGoF_stable lines (lines.length - i) f1 f2 i out le_rfl h1 h2
  · intro lines i st h1 ht h2 h3 h4 h7 h5 h6 h8
    exact fmtIter_plain lines i st h1 ht h2 h3 h4 h7 h5 h6 h8
  · intro lines i out h1 h2 h3 h4 h5 h6 h7 h8
    exact emailIter_plain lines i out h1 h2 h3 h4 h5 h6 h7 h8

/-- Witness for C4: two different sufficient fuels agree on a concrete
message, and a concrete plain line becomes a stripped text line. -/
theorem total_deterministic_witness :
    fmtGoF 2 [str "plain **line**"] 0 ⟨[], [], none⟩ =
      fmtGoF 9 [str "plain **line**"] 0 ⟨[], [], none⟩ ∧
    emailIter [str "plain **line**"] 0 [] =
      ([] ++ [stripInlineMarkdown (jsTrim (([str "plain **line**"] :
        List (List Char)).getD 0 []))], 0 + 1) :=
  ⟨total_deterministic.1 [str "plain **line**"] 2 9 0 ⟨[], [], none⟩ (by decide) (by decide),
   total_deterministic.2.2.2 [str "plain **line**"] 0 [] (by decide) (by decide) (by decide)
     (by decide) (by decide) (by decide) (by decide) (by decide)⟩

/-- A blank line takes the spacer branch: emit one spacer unless the last
emitted element is the spacer of the directly preceding line. -/
theorem fmtIter_blank (lines : List (List Char)) (i : Nat) (st : FmtSt)
    (h : jsTrim (lines.getD i []) = []) :
    fmtIter lines i st =
      (if (flushList st).els.length ≠ 0 ∧
          ((flushList st).els.getLast?.map (fun p => p.1)) ≠
            some (str "space-" ++ natStr (i - 1)) then
        ({ flushList st with els := (flushList st).els ++
            [(str "space-" ++ natStr i, Block.Spacer)] }, i + 1)
       else (flushList st, i + 1)) := by
  unfold fmtIter fmtRest
  dsimp only
  rw [h]
  rw [if_neg (by decide), if_neg (by simp), if_neg (by decide), if_neg (by decide),
    if_neg (by decide), if_neg (by decide), if_neg (by decide), if_neg (by decide),
    if_pos rfl]

/-- Flushing with an empty item buffer changes nothing. -/
theorem flushList_nil (els : List (List Char × Block)) (lt : Option Bool) :
    flushList ⟨els, [], lt⟩ = ⟨els, [], lt⟩ := by
  simp [flushList]

/-- Spacer keys of distinct indices are distinct. -/
theorem spaceKey_ne (a b : Nat) (h : a ≠ b) :
    str "space-" ++ natStr a ≠ str "space-" ++ natStr b := by
  intro he
  exact h (natStr_inj a b (List.append_cancel_left he))

/-- One unfolding of the fueled formatter loop below the end of input. -/
theorem fmtGoF_step (f : Nat) (lines : List (List Char)) (i : Nat) (st : FmtSt)
    (hi : i < lines.length) :
    fmtGoF (f + 1) lines i st = fmtGoF f lines (fmtIter lines i st).2 (fmtIter lines i st).1 := by
  rw [fmtGoF]
  rw [if_pos hi]

/-- A blank line whose guard passes appends one spacer element. -/
theorem fmtGoF_blank_emit (f : Nat) (lines : List (List Char)) (i : Nat)
    (els : List (List Char × Block)) (lt : Option Bool)
    (hi : i < lines.length)
    (hb : jsTrim (lines.getD i []) = [])
    (hne : els ≠ [])
    (hlast : (els.getLast?.map (fun p => p.1)) ≠ some (str "space-" ++ natStr (i - 1))) :
    fmtGoF (f + 1) lines i ⟨els, [], lt⟩ =
      fmtGoF f lines (i + 1) ⟨els ++ [(str "space-" ++ natStr i, Block.Spacer)], [], lt⟩ := by
  rw [fmtGoF_step f lines i _ hi, fmtIter_blank lines i _ hb, flushList_nil]
  rw [if_pos ⟨by simpa using hne, hlast⟩]

/-- A blank line directly after an emitted spacer appends nothing. -/
theorem fmtGoF_blank_skip (f : Nat) (lines : List (List Char)) (i : Nat)
    (els : List (List Char × Block)) (lt : Option Bool)
    (hi : i < lines.length)
    (hb : jsTrim (lines.getD i []) = [])
    (hlast : (els.getLast?.map (fun p => p.1)) = some (str "space-" ++ natStr (i - 1))) :
    fmtGoF (f + 1) lines i ⟨els, [], lt⟩ = fmtGoF f lines (i + 1) ⟨els, [], lt⟩ := by
  rw [fmtGoF_step f lines i _ hi, fmtIter_blank lines i _ hb, flushList_nil]
  rw [if_neg (by simp [hlast])]

/-- A run of `k` blank lines starting at line `i ≥ 1` (with a non-spacer
last element) appends exactly the `⌈k/2⌉` spacer elements of `spacerRun`:
the guard alternates between emitting and skipping along the run. -/
theorem blankRun (lines : List (List Char)) :
    ∀ (k i f : Nat) (els : List (List Char × Block)) (lt : Option Bool),
      (∀ j, i ≤ j → j < i + k → jsTrim (lines.getD j []) = []) →
      i + k ≤ lines.length →
      1 ≤ i →
      els ≠ [] →
      (els.getLast?.map (fun p => p.1)) ≠ some (str "space-" ++ natStr (i - 1)) →
      lines.length - i < f →
      fmtGoF f lines i ⟨els, [], lt⟩ =
        fmtGoF (f - k) lines (i + k) ⟨els ++ spacerRun i k, [], lt⟩ := by
  intro k
  induction k using Nat.strong_induction_on with
  | _ k ih =>
    rcases k with _ | _ | k
    · intro i f els lt hb hik hi1 hne hlast hf
      simp [spacerRun]
    · intro i f els lt hb hik hi1 hne hlast hf
      rcases f with _ | g
      · omega
      have hi : i < lines.length := by omega
      rw [fmtGoF_blank_emit g lines i els lt hi (hb i le_rfl (by omega)) hne hlast]
      have hg : g + 1 - 1 = g := by omega
      rw [hg]
      rfl
    · intro i f els lt hb hik hi1 hne hlast hf
      rcases f with _ | g
      · omega
      rcases g with _ | g2
      · omega
      have hi : i < lines.length := by omega
      have hi2 : i + 1 < lines.length := by omega
      rw [fmtGoF_blank_emit _ lines i els lt hi (hb i le_rfl (by omega)) hne hlast]
      rw [fmtGoF_blank_skip _ lines (i + 1) _ lt hi2 (hb (i + 1) (by omega) (by omega)) (by
        rw [List.getLast?_concat]
        show some (str "space-" ++ natStr i) = some (str "space-" ++ natStr (i + 1 - 1))
        have h11 : i + 1 - 1 = i := by omega
        rw [h11])]
      rw [ih k (by omega) (i + 2) g2 (els ++ [(str "space-" ++ natStr i, Block.Spacer)]) lt
        (fun j hj1 hj2 => hb j (by omega) (by omega))
        (by omega) (by omega)
        (by exact fun hh => by simpa using congrArg List.length hh)
        (by
          rw [List.getLast?_concat]
          have h12 : i + 2 - 1 = i + 1 := by omega
          rw [h12]
          intro hcon
          exact spaceKey_ne i (i + 1) (by omega) (Option.some.inj hcon))
        (by omega)]
      have h1 : g2 - k = g2 + 1 + 1 - (k + 1 + 1) := by omega
      have h2 : i + 2 + k = i + (k + 1 + 1) := by omega
      rw [← h1, ← h2]
      congr 1
      simp only [spacerRun, List.append_assoc, List.cons_append, List.nil_append]

/-- Indexing a replicated list below its length. -/
theorem getD_replicate_lt (a d : List Char) (n m : Nat) (h : m < n) :
    (List.replicate n a).getD m d = a := by
  induction n generalizing m with
  | zero => omega
  | succ n ih =>
    rcases m with _ | m
    · rfl
    · exact ih m (by omega)

/-- Splitting a newline run followed by one other character. -/
theorem splitOnCh_blanks (c : Char) (hc : c ≠ '\n') :
    ∀ k, splitOnCh '\n' (List.replicate k '\n' ++ [c]) =
      List.replicate k ([] : List Char) ++ [[c]] := by
  intro k
  induction k with
  | zero =>
    simp only [List.replicate, List.nil_append]
    unfold splitOnCh
    rw [if_neg hc]
    rfl
  | succ k ih =>
    simp only [List.replicate, List.cons_append]
    unfold splitOnCh
    rw [ih]
    simp

/-- The line decomposition of the blank-run message family. -/
theorem splitLines_msgBlank (n : Nat) :
    splitLines (msgBlank n).data = str "A" :: (List.replicate n ([] : List Char) ++ [str "B"]) := by
  have hd : (msgBlank n).data = 'A' :: (List.replicate (n + 1) '\n' ++ ['B']) := by
    show (("A" ++ String.mk (List.replicate (n + 1) '\n')) ++ "B").data = _
    rw [String.data_append, String.data_append]
    rfl
  rw [splitLines, hd]
  unfold splitOnCh
  rw [splitOnCh_blanks 'B' (by decide) (n + 1)]
  simp only [List.replicate, List.cons_append]
  rfl

/-- A blank run of length `k` carries `⌈k/2⌉` spacer blocks. -/
theorem spacerRun_map (i k : Nat) :
    (spacerRun i k).map Prod.snd = List.replicate ((k + 1) / 2) Block.Spacer := by
  induction k using Nat.strong_induction_on generalizing i with
  | _ k ih =>
    rcases k with _ | _ | k
    · rfl
    · rfl
    · rw [spacerRun]
      simp only [List.map_cons, ih k (by omega) (i + 2)]
      have : (k + 1 + 1 + 1) / 2 = (k + 1) / 2 + 1 := by omega
      rw [this]
      rfl

/-- The full block sequence of the blank-run message family: paragraph A,
the spacers of the run, paragraph B. -/
theorem blank_collapse_main (n : Nat) (hn : 1 ≤ n) :
    formatMessage (msgBlank n) =
      (natStr 0, Block.Para (parseInlineFormatting (str "A"))) ::
        (spacerRun 1 n ++ [(natStr (n + 1), Block.Para (parseInlineFormatting (str "B")))]) := by
  have hL := splitLines_msgBlank n
  unfold formatMessage
  dsimp only
  rw [hL]
  have hlen2 : (str "A" :: (List.replicate n ([] : List Char) ++ [str "B"])).length = n + 2 := by
    simp
  rw [hlen2]
  set L := str "A" :: (List.replicate n ([] : List Char) ++ [str "B"]) with hLdef
  have hlen : L.length = n + 2 := by simp [hLdef]
  have h0 : jsTrim (L.getD 0 []) = str "A" := rfl
  rw [fmtGoF_step (n + 2) L 0 _ (by omega)]
  rw [fmtIter_plain L 0 _ (by rw [h0]; decide)
    (by intro hcontra; rw [h0] at hcontra; exact absurd hcontra.1 (by decide))
    (by rw [h0]; decide) (by rw [h0]; decide)
    (by rw [h0]; decide) (by rw [h0]; decide) (by rw [h0]; decide)
    (by rw [h0]; decide) (by rw [h0]; decide)]
  rw [h0]
  dsimp only
  rw [flushList_nil]
  simp only [List.nil_append]
  have hblank : forall j, 1 <= j -> j < 1 + n -> jsTrim (L.getD j []) = [] := by
    intro j hj1 hj2
    rcases j with _ | j2
    · omega
    · show jsTrim ((List.replicate n ([] : List Char) ++ [str "B"]).getD j2 []) = []
      rw [List.getD_append _ _ _ _ (by simp; omega), getD_replicate_lt _ _ _ _ (by omega)]
      rfl
  rw [blankRun L n 1 (n + 2) [(natStr 0, Block.Para (parseInlineFormatting (str "A")))] none
    hblank (by omega) le_rfl (by simp) (by decide) (by omega)]
  have hn2 : n + 2 - n = 2 := by omega
  rw [hn2]
  have hB : jsTrim (L.getD (1 + n) []) = str "B" := by
    have h1n0 : 1 + n = Nat.succ n := by omega
    rw [h1n0]
    show jsTrim ((List.replicate n ([] : List Char) ++ [str "B"]).getD n []) = str "B"
    rw [List.getD_append_right _ _ _ _ (by simp)]
    simp
    rfl
  rw [fmtGoF_step 1 L (1 + n) _ (by omega)]
  rw [fmtIter_plain L (1 + n) _ (by rw [hB]; decide)
    (by intro hcontra; rw [hB] at hcontra; exact absurd hcontra.1 (by decide))
    (by rw [hB]; decide) (by rw [hB]; decide)
    (by rw [hB]; decide) (by rw [hB]; decide) (by rw [hB]; decide)
    (by rw [hB]; decide) (by rw [hB]; decide)]
  rw [hB]
  dsimp only
  rw [flushList_nil]
  rw [fmtGoF]
  rw [if_neg (by omega)]
  rw [flushList_nil]
  have h1n : 1 + n = n + 1 := by omega
  rw [h1n]
  simp [List.append_assoc]

/-- Claim C1 (amended): in `formatMessage`, a run of `n ≥ 1` consecutive
blank lines between two paragraphs produces `⌈n/2⌉` Spacer blocks, not at
most one: the guard only suppresses a Spacer directly after one was emitted,
so it alternates along the run.  In particular three blank lines yield two
Spacers and exactly two blank lines yield one. -/
theorem blank_collapse_amended (n : Nat) (hn : 1 ≤ n) :
    formatMessage (msgBlank n) =
      (natStr 0, Block.Para (parseInlineFormatting (str "A"))) ::
        (spacerRun 1 n ++ [(natStr (n + 1), Block.Para (parseInlineFormatting (str "B")))]) ∧
    (formatMessage (msgBlank n)).map Prod.snd =
      Block.Para (parseInlineFormatting (str "A")) ::
        (List.replicate ((n + 1) / 2) Block.Spacer ++
          [Block.Para (parseInlineFormatting (str "B"))]) := by
  refine ⟨blank_collapse_main n hn, ?_⟩
  rw [blank_collapse_main n hn]
  simp [spacerRun_map]

/-- Witness for C1: the three-blank-line instance, which produces two
Spacers. -/
theorem blank_collapse_amended_witness :
    (formatMessage (msgBlank 3)).map Prod.snd =
      Block.Para (parseInlineFormatting (str "A")) ::
        (List.replicate ((3 + 1) / 2) Block.Spacer ++
          [Block.Para (parseInlineFormatting (str "B"))]) :=
  (blank_collapse_amended 3 (by decide)).2

/-- Counterexample for C1 as stated: the input with three blank lines
between A and B yields two Spacers, not one. -/
theorem blank_collapse_counterexample :
    (formatMessage "A\n\n\n\nB").map Prod.snd =
      [Block.Para [Span.plain (str "A")], Block.Spacer, Block.Spacer,
        Block.Para [Span.plain (str "B")]] ∧
    (formatMessage "A\n\n\n\nB").countP (fun p => isSpacer p.2) ≠ 1 := by
  exact ⟨rfl, by decide⟩

/-- On the encoding of a well-formed pause item the email item body runs to
completion and produces exactly the typed line group. -/
theorem emailPauseItem_encode (n idx : Nat) (it : PauseItem) (out : List (List Char)) :
    emailPauseItem n idx (encodePauseItem it) out = (out ++ typedPauseLines idx it, true) := by
  have h1 : jsGet (encodePauseItem it) (str "cpl_30d") =
      some (some (match it.cpl_30d with | some q => Json.num q | none => Json.null)) := rfl
  have h2 : jsGet (encodePauseItem it) (str "days_running") =
      some (some (match it.days_running with
        | some d => Json.num ⟨d, 0⟩ | none => Json.null)) := rfl
  have h3 : jsGet (encodePauseItem it) (str "ad_name") = some (some (.jstr it.ad_name)) := rfl
  have h4 : jsGet (encodePauseItem it) (str "campaign") = some (some (.jstr it.campaign)) := rfl
  have h5 : jsGet (encodePauseItem it) (str "adset") = some (some (.jstr it.adset)) := rfl
  have h6 : jsGet (encodePauseItem it) (str "spend_30d") = some (some (.num it.spend_30d)) := rfl
  have h7 : jsGet (encodePauseItem it) (str "leads_30d") = some (some (.num it.leads_30d)) := rfl
  have h8 : jsGet (encodePauseItem it) (str "reason") = some (some (.jstr it.reason)) := rfl
  simp only [emailPauseItem, h1, h2, h3, h4, h5, h6, h7, h8]
  cases hc : it.cpl_30d with
  | none =>
    cases hd : it.days_running <;>
      simp [truthy, typedPauseLines, isNullV, hc, hd, jsValStrF, jsonToStrF, List.append_assoc]
  | some q =>
    cases hd : it.days_running <;> by_cases hq : q.m = 0 <;>
      simp [truthy, typedPauseLines, isNullV, hc, hd, hq, jsValStrF, jsonToStrF,
        List.append_assoc]

/-- The `forEach` over encoded well-formed items runs to completion,
appending the typed line groups with consecutive indices. -/
theorem emailPauseItems_encode (n : Nat) (items : List PauseItem) :
    ∀ idx out, emailPauseItems n (items.map encodePauseItem) idx out =
      (out ++ typedPauseList idx items, true) := by
  induction items with
  | nil => intro idx out; simp [emailPauseItems, typedPauseList]
  | cons it rest ih =>
    intro idx out
    simp only [List.map, emailPauseItems, emailPauseItem_encode, typedPauseList, ih,
      List.append_assoc]

/-- Claim C8: for a pause payload parsing to an array of `n` well-formed
items, the email conversion emits the header, the rule, and the per-item
line groups in array order; the first line of the group at position `idx`
starts with the 1-based index `idx + 1`; and the rendered card shows the
badges `1 … n` in array order (for a three-item array, exactly 1, 2, 3). -/
theorem pause_numbering (raw : List Char) (out : List (List Char)) (items : List PauseItem)
    (hpar : parseJson raw = some (.arr (items.map encodePauseItem))) :
    emailTryPause raw out =
      (out ++ str "PAUSE RECOMMENDATIONS" :: repChar '─' 50 :: typedPauseList 0 items,
        true) ∧
    (∀ idx it, (typedPauseLines idx it).head? =
      some (natStr (idx + 1) ++ str ". " ++ it.ad_name)) ∧
    (PauseListBlock items).entries.map (fun e => e.badge) =
      (List.range items.length).map (fun k => natStr (k + 1)) ∧
    (PauseListBlock [pauseWitnessItem, pauseWitnessItem, pauseWitnessItem]).entries.map
      (fun e => e.badge) = [str "1", str "2", str "3"] := by
  refine ⟨?_, ?_, ?_, by decide⟩
  · simp only [emailTryPause, hpar, emailPauseItems_encode, List.append_assoc,
      List.cons_append, List.singleton_append, List.nil_append]
  · intro idx it; simp [typedPauseLines]
  · simp only [PauseListBlock, List.map_map]
    have : ((fun e : PauseCardEntry => e.badge) ∘ fun p : Nat × PauseItem => pauseEntry p.1 p.2)
        = (fun k => natStr (k + 1)) ∘ Prod.fst := rfl
    rw [this, ← List.map_map, List.enum_map_fst]

/-- Witness for C8: the three-copy witness payload. -/
theorem pause_numbering_witness :
    emailTryPause pauseJson3 [] =
      ([] ++ str "PAUSE RECOMMENDATIONS" :: repChar '─' 50 ::
        typedPauseList 0 [pauseWitnessItem, pauseWitnessItem, pauseWitnessItem], true) :=
  (pause_numbering pauseJson3 []
    [pauseWitnessItem, pauseWitnessItem, pauseWitnessItem] rfl).1

/-- Claim C2: whenever the formatter meets a fence whose tag is `pause_list`
or `budget_table` and whose payload does not parse as JSON, the iteration
falls back to `parseCodeBlock` — the region becomes a generic code block
whose language label is the fence line with backticks removed and trimmed
(the fence tag) — and the loop continues past the block; no error state
exists (the formatter is a total function).  Concretely, the message with
payload `{not valid json` renders as one code block labelled `pause_list`. -/
theorem pause_badjson_renders_codeblock (f : Nat) (lines : List (List Char)) (i : Nat)
    (st : FmtSt) (hi : i < lines.length)
    (hfence : (str "```").isPrefixOf (jsTrim (lines.getD i [])))
    (htag : fenceTag lines i = str "pause_list" ∨ fenceTag lines i = str "budget_table")
    (hbad : parseJson (fenceRaw lines i) = none) :
    fmtGoF (f + 1) lines i st =
      fmtGoF f lines ((parseCodeBlock lines i).2 + 1)
        { flushList st with els := (flushList st).els ++ [(parseCodeBlock lines i).1] } ∧
    (parseCodeBlock lines i).1.2 =
      Block.CodeB (jsTrim (removeTicks (lines.getD i []))) (codeScan lines i) ∧
    formatMessage msgBadPause =
      [(str "code-0", Block.CodeB (str "pause_list") [str "\x7bnot valid json"])] := by
  refine ⟨?_, by simp [parseCodeBlock], rfl⟩
  rcases htag with htag | htag
  · simp only [fmtGoF, hi, if_true, fmtIter, hfence, htag, hbad]
    rw [if_neg (by decide)]
  · simp only [fmtGoF, hi, if_true, fmtIter, hfence, htag, hbad]
    rw [if_neg (by decide), if_neg (by decide)]

/-- Witness for C2: the fallback step on the concrete bad-payload message. -/
theorem pause_badjson_renders_codeblock_witness :
    formatMessage msgBadPause =
      [(str "code-0", Block.CodeB (str "pause_list") [str "\x7bnot valid json"])] :=
  (pause_badjson_renders_codeblock 3 (splitLines msgBadPause.data) 0 ⟨[], [], none⟩
    (by decide) (by decide) (Or.inl (by decide)) rfl).2.2

/-- Claim C3 (amended): when a `pause_list` or `budget_table` payload fails
`JSON.parse`, the email converter contributes no lines for the block and
skips past it; but when the payload parses to a value that is not a
well-formed array the degradation is not atomic — the branch has already
pushed the block header and the dash rule before the failure is caught, as
the payload `5` shows. -/
theorem email_malformed_fence (f : Nat) (lines : List (List Char)) (i : Nat)
    (out : List (List Char)) (hi : i < lines.length)
    (hfence : (str "```").isPrefixOf (jsTrim (lines.getD i [])))
    (htag : fenceTag lines i = str "pause_list" ∨ fenceTag lines i = str "budget_table")
    (hbad : parseJson (fenceRaw lines i) = none) :
    emailGoF (f + 1) lines i out =
      emailGoF f lines (i + 1 + (fenceScan lines i).length + 1) out ∧
    (convertToEmailText msgNumPause).data =
      str "PAUSE RECOMMENDATIONS" ++ '\n' :: repChar '─' 50 := by
  refine ⟨?_, by decide⟩
  rcases htag with htag | htag
  · simp only [emailGoF, hi, if_true, emailIter, hfence, htag, emailTryPause, hbad]
    rw [if_neg (by decide)]
  · simp only [emailGoF, hi, if_true, emailIter, hfence, htag, emailTryBudget, hbad]
    rw [if_neg (by decide), if_neg (by decide)]

/-- Witness for C3: the no-contribution step on the concrete unparsable
payload. -/
theorem email_malformed_fence_witness :
    emailGoF 4 (splitLines msgBadPause.data) 0 [] =
      emailGoF 3 (splitLines msgBadPause.data)
        (0 + 1 + (fenceScan (splitLines msgBadPause.data) 0).length + 1) [] :=
  (email_malformed_fence 3 (splitLines msgBadPause.data) 0 [] (by decide) (by decide)
    (Or.inl (by decide)) rfl).1

/-- Counterexample for C3 as stated: the payload `5` is malformed (it does
not deserialize to an array of pause records) yet the block contributes the
header and rule lines — not nothing. -/
theorem email_malformed_fence_counterexample :
    (convertToEmailText msgNumPause).data =
      str "PAUSE RECOMMENDATIONS" ++ '\n' :: repChar '─' 50 ∧
    convertToEmailText msgNumPause ≠ "" := by
  exact ⟨by decide, by decide⟩

/-- Witness for C10: concrete field lists differing only in the cpl value. -/
theorem cpl_zero_indistinguishable_witness :
    (∀ k, k ≠ str "cpl_30d" →
      jlookup ((str "cpl_30d", Json.num ⟨0, 0⟩) :: cplWitnessRest) k =
      jlookup ((str "cpl_30d", Json.null) :: cplWitnessRest) k) ∧
    emailPauseItem 3 0 (.obj ((str "cpl_30d", Json.num ⟨0, 0⟩) :: cplWitnessRest)) [] =
      emailPauseItem 3 0 (.obj ((str "cpl_30d", Json.null) :: cplWitnessRest)) [] := by
  have hag : ∀ k, k ≠ str "cpl_30d" →
      jlookup ((str "cpl_30d", Json.num ⟨0, 0⟩) :: cplWitnessRest) k =
      jlookup ((str "cpl_30d", Json.null) :: cplWitnessRest) k := by
    intro k hk
    simp only [jlookup, List.filter_cons]
    have : ¬ (str "cpl_30d" = k) := fun h => hk h.symm
    simp [this]
  exact ⟨hag,
    (cpl_zero_indistinguishable 3 0 ((str "cpl_30d", Json.num ⟨0, 0⟩) :: cplWitnessRest)
      ((str "cpl_30d", Json.null) :: cplWitnessRest) [] pauseWitnessItem hag
      (by rfl) (by rfl)).1⟩


theorem boldCloseGo_sound (l : List Char) : ∀ g a, boldCloseGo l = some (g, a) →
    l = g ++ '*' :: '*' :: a := by
  induction l with
  | nil => intro g a h; simp [boldCloseGo] at h
  | cons c rest ih =>
    intro g a h
    rw [boldCloseGo.eq_def] at h
    split at h
    · rename_i r2 heq
      simp only [Option.some.injEq, Prod.mk.injEq] at h
      obtain ⟨rfl, rfl⟩ := h
      simpa using heq
    · rename_i c2 r2 hno heq
      split_ifs at h
      rw [Option.map_eq_some'] at h
      obtain ⟨p, hp, hpe⟩ := h
      injection heq with h1 h2
      subst h1; subst h2
      cases hpe
      simpa using ih p.1 p.2 hp
    · rename_i heq; simp at heq

theorem boldCloseGo_none (l : List Char) (h : ∀ c ∈ l, c ≠ '*') :
    boldCloseGo l = none := by
  induction l with
  | nil => rfl
  | cons c rest ih =>
    rw [boldCloseGo.eq_def]
    split
    · rename_i r2 heq
      exact absurd (by simpa using congrArg List.head? heq) (by simpa using h c (by simp))
    · rename_i c2 r2 hno heq
      injection heq with h1 h2
      subst h1; subst h2
      split_ifs with hn
      · rfl
      · rw [ih (fun x hx => h x (by simp [hx]))]; rfl
    · rfl

theorem boldCloseGo_run (t a : List Char) (hs : ∀ c ∈ t, c ≠ '*')
    (hn : ∀ c ∈ t, c ≠ '\n') :
    boldCloseGo (t ++ '*' :: '*' :: a) = some (t, a) := by
  induction t with
  | nil => rfl
  | cons c t' ih =>
    rw [boldCloseGo.eq_def]
    split
    · rename_i r2 heq
      exact absurd (by simpa using congrArg List.head? heq)
        (by simpa using hs c (by simp))
    · rename_i c2 r2 hno heq
      injection heq with h1 h2
      simp only [List.append_eq] at h2 ⊢
      rw [if_neg (h1 ▸ (by simpa using hn c (by simp)))]
      rw [← h2, ih (fun x hx => hs x (by simp [hx])) (fun x hx => hn x (by simp [hx]))]
      rw [← h1]; rfl
    · rename_i heq; simp at heq

theorem boldClose_sound (l g a : List Char) (h : boldClose l = some (g, a)) :
    l = g ++ '*' :: '*' :: a ∧ g ≠ [] := by
  match l, h with
  | c :: rest, h =>
    rw [boldClose] at h
    split_ifs at h
    rw [Option.map_eq_some'] at h
    obtain ⟨p, hp, hpe⟩ := h
    cases hpe
    exact ⟨by simpa using boldCloseGo_sound rest p.1 p.2 hp, by simp⟩

theorem boldClose_none (l : List Char) (h : ∀ c ∈ l, c ≠ '*') :
    boldClose l = none := by
  match l with
  | [] => rfl
  | c :: rest =>
    rw [boldClose]
    split_ifs
    · rfl
    · rw [boldCloseGo_none rest (fun x hx => h x (by simp [hx]))]; rfl

theorem boldClose_run (t a : List Char) (ht : t ≠ []) (hs : ∀ c ∈ t, c ≠ '*')
    (hn : ∀ c ∈ t, c ≠ '\n') :
    boldClose (t ++ '*' :: '*' :: a) = some (t, a) := by
  match t, ht with
  | c :: t', _ =>
    rw [List.cons_append, boldClose]
    rw [if_neg (by simpa using hn c (by simp))]
    rw [boldCloseGo_run t' a (fun x hx => hs x (by simp [hx]))
      (fun x hx => hn x (by simp [hx]))]
    rfl

theorem findBold_sound (l : List Char) : ∀ b g a, findBold l = some (b, g, a) →
    l = b ++ '*' :: '*' :: (g ++ '*' :: '*' :: a) ∧ g ≠ [] := by
  induction l with
  | nil => intro b g a h; simp [findBold] at h
  | cons c rest ih =>
    intro b g a h
    rw [findBold.eq_def] at h
    dsimp only at h
    by_cases hc : c = '*'
    · subst hc
      rw [if_pos rfl] at h
      rcases rest with _ | ⟨c2, r2⟩
      · simp [findBold] at h
      · by_cases hc2 : c2 = '*'
        · subst hc2
          split at h
          · rename_i s0 r3 heq
            injection heq with h2 h3
            subst h3
            split at h
            · rename_i g0 a0 hbc
              simp only [Option.some.injEq, Prod.mk.injEq] at h
              obtain ⟨rfl, rfl, rfl⟩ := h
              obtain ⟨hd, hg⟩ := boldClose_sound _ _ _ hbc
              exact ⟨by simp [hd], hg⟩
            · rename_i hbc
              rw [Option.map_eq_some'] at h
              obtain ⟨p, hp, hpe⟩ := h
              cases hpe
              obtain ⟨hd, hg⟩ := ih p.1 p.2.1 p.2.2 hp
              exact ⟨by simp [hd], hg⟩
          · rename_i hno heq
            exact absurd rfl (heq r2)
        · split at h
          · rename_i r3 heq
            exact absurd (by simpa using congrArg List.head? heq) hc2
          · rw [Option.map_eq_some'] at h
            obtain ⟨p, hp, hpe⟩ := h
            cases hpe
            obtain ⟨hd, hg⟩ := ih p.1 p.2.1 p.2.2 hp
            exact ⟨by simp [hd], hg⟩
    · rw [if_neg hc] at h
      rw [Option.map_eq_some'] at h
      obtain ⟨p, hp, hpe⟩ := h
      cases hpe
      obtain ⟨hd, hg⟩ := ih p.1 p.2.1 p.2.2 hp
      exact ⟨by simp [hd], hg⟩

theorem findBold_none (l : List Char) (h : ∀ c ∈ l, c ≠ '*') : findBold l = none := by
  induction l with
  | nil => rfl
  | cons c rest ih =>
    rw [findBold.eq_def]
    dsimp only
    rw [if_neg (h c (by simp))]
    rw [ih (fun x hx => h x (by simp [hx]))]
    rfl

theorem findBold_skip (p : List Char) (hp : ∀ c ∈ p, c ≠ '*') (l : List Char) :
    findBold (p ++ l) = (findBold l).map (fun t => (p ++ t.1, t.2.1, t.2.2)) := by
  induction p with
  | nil =>
    cases hf : findBold l with
    | none => simp [hf]
    | some t => simp [hf]
  | cons c p' ih =>
    rw [List.cons_append, findBold.eq_def]
    dsimp only
    rw [if_neg (hp c (by simp))]
    rw [ih (fun x hx => hp x (by simp [hx]))]
    cases hf : findBold l with
    | none => rfl
    | some t => rfl

theorem findBold_run (p t a : List Char) (hp : ∀ c ∈ p, c ≠ '*') (ht : t ≠ [])
    (hs : ∀ c ∈ t, c ≠ '*') (hn : ∀ c ∈ t, c ≠ '\n') :
    findBold (p ++ '*' :: '*' :: (t ++ '*' :: '*' :: a)) = some (p, t, a) := by
  rw [findBold_skip p hp]
  rw [show findBold ('*' :: '*' :: (t ++ '*' :: '*' :: a)) = some ([], t, a) from ?_]
  · simp
  · rw [findBold.eq_def]
    dsimp only
    rw [if_pos rfl]
    split
    · rename_i s0 r3 heq
      injection heq with h2 h3
      subst h3
      rw [boldClose_run t a ht hs hn]
    · rename_i hno heq
      exact absurd rfl (heq _)

theorem findBold_skip_star (w k : List Char) (hw : ∀ c ∈ w, c ≠ '*') (hne : w ≠ [])
    (hk : k.head? ≠ some '*') :
    findBold ('*' :: (w ++ '*' :: k)) =
      (findBold k).map (fun t => ('*' :: (w ++ '*' :: t.1), t.2.1, t.2.2)) := by
  rw [findBold.eq_def]
  dsimp only
  rw [if_pos rfl]
  match w, hne with
  | c :: w', _ =>
    split
    · rename_i r3 heq
      exact absurd (by simpa using congrArg List.head? heq) (hw c (by simp))
    · rename_i hno heq
      rw [List.cons_append, findBold.eq_def]
      dsimp only
      rw [if_neg (hw c (by simp))]
      rw [findBold_skip w' (fun x hx => hw x (by simp [hx]))]
      rw [show findBold ('*' :: k) = (findBold k).map (fun t => ('*' :: t.1, t.2.1, t.2.2)) from ?_]
      · cases hf : findBold k with
        | none => rfl
        | some t => rfl
      · rw [findBold.eq_def]
        dsimp only
        rw [if_pos rfl]
        match k, hk with
        | [], _ => rfl
        | c0 :: k', hk =>
          split
          · rename_i r3 heq
            exact absurd (by simpa using congrArg List.head? heq) (by simpa using hk)
          · rfl

theorem codeCloseGo_sound (l : List Char) : ∀ g a, codeCloseGo l = some (g, a) →
    l = g ++ '`' :: a := by
  induction l with
  | nil => intro g a h; simp [codeCloseGo] at h
  | cons c rest ih =>
    intro g a h
    rw [codeCloseGo.eq_def] at h
    split at h
    · rename_i r2 heq
      simp only [Option.some.injEq, Prod.mk.injEq] at h
      obtain ⟨rfl, rfl⟩ := h
      simpa using heq
    · rename_i c2 r2 hno heq
      rw [Option.map_eq_some'] at h
      obtain ⟨p, hp, hpe⟩ := h
      injection heq with h1 h2
      subst h1; subst h2
      cases hpe
      simpa using ih p.1 p.2 hp
    · rename_i heq; simp at heq

theorem codeCloseGo_none (l : List Char) (h : ∀ c ∈ l, c ≠ '`') :
    codeCloseGo l = none := by
  induction l with
  | nil => rfl
  | cons c rest ih =>
    rw [codeCloseGo.eq_def]
    split
    · rename_i r2 heq
      exact absurd (by simpa using congrArg List.head? heq) (by simpa using h c (by simp))
    · rename_i c2 r2 hno heq
      injection heq with h1 h2
      subst h1; subst h2
      rw [ih (fun x hx => h x (by simp [hx]))]; rfl
    · rfl

theorem codeCloseGo_run (t a : List Char) (hs : ∀ c ∈ t, c ≠ '`') :
    codeCloseGo (t ++ '`' :: a) = some (t, a) := by
  induction t with
  | nil => rfl
  | cons c t' ih =>
    rw [codeCloseGo.eq_def]
    split
    · rename_i r2 heq
      exact absurd (by simpa using congrArg List.head? heq)
        (by simpa using hs c (by simp))
    · rename_i c2 r2 hno heq
      injection heq with h1 h2
      simp only [List.append_eq] at h2 ⊢
      rw [← h2, ih (fun x hx => hs x (by simp [hx]))]
      rw [← h1]; rfl
    · rename_i heq; simp at heq

theorem codeClose_sound (l g a : List Char) (h : codeClose l = some (g, a)) :
    l = g ++ '`' :: a ∧ g ≠ [] := by
  match l, h with
  | c :: rest, h =>
    rw [codeClose] at h
    split_ifs at h
    rw [Option.map_eq_some'] at h
    obtain ⟨p, hp, hpe⟩ := h
    cases hpe
    exact ⟨by simpa using codeCloseGo_sound rest p.1 p.2 hp, by simp⟩

theorem codeClose_none (l : List Char) (h : ∀ c ∈ l, c ≠ '`') :
    codeClose l = none := by
  match l with
  | [] => rfl
  | c :: rest =>
    rw [codeClose]
    split_ifs
    · rfl
    · rw [codeCloseGo_none rest (fun x hx => h x (by simp [hx]))]; rfl

theorem codeClose_run (t a : List Char) (ht : t ≠ []) (hs : ∀ c ∈ t, c ≠ '`') :
    codeClose (t ++ '`' :: a) = some (t, a) := by
  match t, ht with
  | c :: t', _ =>
    rw [List.cons_append, codeClose]
    rw [if_neg (by simpa using hs c (by simp))]
    rw [codeCloseGo_run t' a (fun x hx => hs x (by simp [hx]))]
    rfl

theorem findCode_sound (l : List Char) : ∀ b g a, findCode l = some (b, g, a) →
    l = b ++ '`' :: (g ++ '`' :: a) ∧ g ≠ [] := by
  induction l with
  | nil => intro b g a h; simp [findCode] at h
  | cons c rest ih =>
    intro b g a h
    rw [findCode.eq_def] at h
    dsimp only at h
    split_ifs at h with hc
    · subst hc
      split at h
      · rename_i g0 a0 hcc
        simp only [Option.some.injEq, Prod.mk.injEq] at h
        obtain ⟨rfl, rfl, rfl⟩ := h
        obtain ⟨hd, hg⟩ := codeClose_sound _ _ _ hcc
        exact ⟨by simp [hd], hg⟩
      · rename_i hcc
        rw [Option.map_eq_some'] at h
        obtain ⟨p, hp, hpe⟩ := h
        cases hpe
        obtain ⟨hd, hg⟩ := ih p.1 p.2.1 p.2.2 hp
        exact ⟨by simp [hd], hg⟩
    · rw [Option.map_eq_some'] at h
      obtain ⟨p, hp, hpe⟩ := h
      cases hpe
      obtain ⟨hd, hg⟩ := ih p.1 p.2.1 p.2.2 hp
      exact ⟨by simp [hd], hg⟩

theorem findCode_none (l : List Char) (h : ∀ c ∈ l, c ≠ '`') : findCode l = none := by
  induction l with
  | nil => rfl
  | cons c rest ih =>
    rw [findCode.eq_def]
    dsimp only
    rw [if_neg (h c (by simp))]
    rw [ih (fun x hx => h x (by simp [hx]))]
    rfl

theorem findCode_skip (p : List Char) (hp : ∀ c ∈ p, c ≠ '`') (l : List Char) :
    findCode (p ++ l) = (findCode l).map (fun t => (p ++ t.1, t.2.1, t.2.2)) := by
  induction p with
  | nil =>
    cases hf : findCode l with
    | none => simp [hf]
    | some t => simp [hf]
  | cons c p' ih =>
    rw [List.cons_append, findCode.eq_def]
    dsimp only
    rw [if_neg (hp c (by simp))]
    rw [ih (fun x hx => hp x (by simp [hx]))]
    cases hf : findCode l with
    | none => rfl
    | some t => rfl

theorem findCode_run (p t a : List Char) (hp : ∀ c ∈ p, c ≠ '`') (ht : t ≠ [])
    (hs : ∀ c ∈ t, c ≠ '`') :
    findCode (p ++ '`' :: (t ++ '`' :: a)) = some (p, t, a) := by
  rw [findCode_skip p hp]
  rw [show findCode ('`' :: (t ++ '`' :: a)) = some ([], t, a) from ?_]
  · simp
  · rw [findCode.eq_def]
    dsimp only
    rw [if_pos rfl]
    rw [codeClose_run t a ht hs]

theorem italPlainCloseGo_sound (l : List Char) : ∀ g a,
    italPlainCloseGo l = some (g, a) → l = g ++ '*' :: a := by
  induction l with
  | nil => intro g a h; simp [italPlainCloseGo] at h
  | cons c rest ih =>
    intro g a h
    rw [italPlainCloseGo.eq_def] at h
    split at h
    · rename_i r2 heq
      simp only [Option.some.injEq, Prod.mk.injEq] at h
      obtain ⟨rfl, rfl⟩ := h
      simpa using heq
    · rename_i c2 r2 hno heq
      split_ifs at h
      rw [Option.map_eq_some'] at h
      obtain ⟨p, hp, hpe⟩ := h
      injection heq with h1 h2
      subst h1; subst h2
      cases hpe
      simpa using ih p.1 p.2 hp
    · rename_i heq; simp at heq

theorem italPlainCloseGo_none (l : List Char) (h : ∀ c ∈ l, c ≠ '*') :
    italPlainCloseGo l = none := by
  induction l with
  | nil => rfl
  | cons c rest ih =>
    rw [italPlainCloseGo.eq_def]
    split
    · rename_i r2 heq
      exact absurd (by simpa using congrArg List.head? heq) (by simpa using h c (by simp))
    · rename_i c2 r2 hno heq
      injection heq with h1 h2
      subst h1; subst h2
      split_ifs with hn
      · rfl
      · rw [ih (fun x hx => h x (by simp [hx]))]; rfl
    · rfl

theorem italPlainCloseGo_run (t a : List Char) (hs : ∀ c ∈ t, c ≠ '*')
    (hn : ∀ c ∈ t, c ≠ '\n') :
    italPlainCloseGo (t ++ '*' :: a) = some (t, a) := by
  induction t with
  | nil => rfl
  | cons c t' ih =>
    rw [italPlainCloseGo.eq_def]
    split
    · rename_i r2 heq
      exact absurd (by simpa using congrArg List.head? heq)
        (by simpa using hs c (by simp))
    · rename_i c2 r2 hno heq
      injection heq with h1 h2
      simp only [List.append_eq] at h2 ⊢
      rw [if_neg (h1 ▸ (by simpa using hn c (by simp)))]
      rw [← h2, ih (fun x hx => hs x (by simp [hx])) (fun x hx => hn x (by simp [hx]))]
      rw [← h1]; rfl
    · rename_i heq; simp at heq

theorem italPlainClose_sound (l g a : List Char) (h : italPlainClose l = some (g, a)) :
    l = g ++ '*' :: a ∧ g ≠ [] := by
  match l, h with
  | c :: rest, h =>
    rw [italPlainClose] at h
    split_ifs at h
    rw [Option.map_eq_some'] at h
    obtain ⟨p, hp, hpe⟩ := h
    cases hpe
    exact ⟨by simpa using italPlainCloseGo_sound rest p.1 p.2 hp, by simp⟩

theorem italPlainClose_none (l : List Char) (h : ∀ c ∈ l, c ≠ '*') :
    italPlainClose l = none := by
  match l with
  | [] => rfl
  | c :: rest =>
    rw [italPlainClose]
    split_ifs
    · rfl
    · rw [italPlainCloseGo_none rest (fun x hx => h x (by simp [hx]))]; rfl

theorem italPlainClose_run (t a : List Char) (ht : t ≠ []) (hs : ∀ c ∈ t, c ≠ '*')
    (hn : ∀ c ∈ t, c ≠ '\n') :
    italPlainClose (t ++ '*' :: a) = some (t, a) := by
  match t, ht with
  | c :: t', _ =>
    rw [List.cons_append, italPlainClose]
    rw [if_neg (by simpa using hn c (by simp))]
    rw [italPlainCloseGo_run t' a (fun x hx => hs x (by simp [hx]))
      (fun x hx => hn x (by simp [hx]))]
    rfl

theorem findItalPlain_sound (l : List Char) : ∀ b g a, findItalPlain l = some (b, g, a) →
    l = b ++ '*' :: (g ++ '*' :: a) ∧ g ≠ [] := by
  induction l with
  | nil => intro b g a h; simp [findItalPlain] at h
  | cons c rest ih =>
    intro b g a h
    rw [findItalPlain.eq_def] at h
    dsimp only at h
    split_ifs at h with hc
    · subst hc
      split at h
      · rename_i g0 a0 hcc
        simp only [Option.some.injEq, Prod.mk.injEq] at h
        obtain ⟨rfl, rfl, rfl⟩ := h
        obtain ⟨hd, hg⟩ := italPlainClose_sound _ _ _ hcc
        exact ⟨by simp [hd], hg⟩
      · rename_i hcc
        rw [Option.map_eq_some'] at h
        obtain ⟨p, hp, hpe⟩ := h
        cases hpe
        obtain ⟨hd, hg⟩ := ih p.1 p.2.1 p.2.2 hp
        exact ⟨by simp [hd], hg⟩
    · rw [Option.map_eq_some'] at h
      obtain ⟨p, hp, hpe⟩ := h
      cases hpe
      obtain ⟨hd, hg⟩ := ih p.1 p.2.1 p.2.2 hp
      exact ⟨by simp [hd], hg⟩

theorem findItalPlain_none (l : List Char) (h : ∀ c ∈ l, c ≠ '*') :
    findItalPlain l = none := by
  induction l with
  | nil => rfl
  | cons c rest ih =>
    rw [findItalPlain.eq_def]
    dsimp only
    rw [if_neg (h c (by simp))]
    rw [ih (fun x hx => h x (by simp [hx]))]
    rfl

theorem findItalPlain_skip (p : List Char) (hp : ∀ c ∈ p, c ≠ '*') (l : List Char) :
    findItalPlain (p ++ l) = (findItalPlain l).map (fun t => (p ++ t.1, t.2.1, t.2.2)) := by
  induction p with
  | nil =>
    cases hf : findItalPlain l with
    | none => simp [hf]
    | some t => simp [hf]
  | cons c p' ih =>
    rw [List.cons_append, findItalPlain.eq_def]
    dsimp only
    rw [if_neg (hp c (by simp))]
    rw [ih (fun x hx => hp x (by simp [hx]))]
    cases hf : findItalPlain l with
    | none => rfl
    | some t => rfl

theorem findItalPlain_run (p t a : List Char) (hp : ∀ c ∈ p, c ≠ '*') (ht : t ≠ [])
    (hs : ∀ c ∈ t, c ≠ '*') (hn : ∀ c ∈ t, c ≠ '\n') :
    findItalPlain (p ++ '*' :: (t ++ '*' :: a)) = some (p, t, a) := by
  rw [findItalPlain_skip p hp]
  rw [show findItalPlain ('*' :: (t ++ '*' :: a)) = some ([], t, a) from ?_]
  · simp
  · rw [findItalPlain.eq_def]
    dsimp only
    rw [if_pos rfl]
    rw [italPlainClose_run t a ht hs hn]

theorem lp2Go_sound (l : List Char) : ∀ g a, lp2Go l = some (g, a) →
    l = g ++ ')' :: a := by
  induction l with
  | nil => intro g a h; simp [lp2Go] at h
  | cons c rest ih =>
    intro g a h
    rw [lp2Go.eq_def] at h
    split at h
    · rename_i r2 heq
      simp only [Option.some.injEq, Prod.mk.injEq] at h
      obtain ⟨rfl, rfl⟩ := h
      simpa using heq
    · rename_i c2 r2 hno heq
      split_ifs at h
      rw [Option.map_eq_some'] at h
      obtain ⟨p, hp, hpe⟩ := h
      injection heq with h1 h2
      subst h1; subst h2
      cases hpe
      simpa using ih p.1 p.2 hp
    · rename_i heq; simp at heq

theorem lp2Go_run (t a : List Char) (hs : ∀ c ∈ t, c ≠ ')')
    (hn : ∀ c ∈ t, c ≠ '\n') :
    lp2Go (t ++ ')' :: a) = some (t, a) := by
  induction t with
  | nil => rfl
  | cons c t' ih =>
    rw [lp2Go.eq_def]
    split
    · rename_i r2 heq
      exact absurd (by simpa using congrArg List.head? heq)
        (by simpa using hs c (by simp))
    · rename_i c2 r2 hno heq
      injection heq with h1 h2
      simp only [List.append_eq] at h2 ⊢
      rw [if_neg (h1 ▸ (by simpa using hn c (by simp)))]
      rw [← h2, ih (fun x hx => hs x (by simp [hx])) (fun x hx => hn x (by simp [hx]))]
      rw [← h1]; rfl
    · rename_i heq; simp at heq

theorem lp2_sound (l g a : List Char) (h : lp2 l = some (g, a)) :
    l = g ++ ')' :: a ∧ g ≠ [] := by
  match l, h with
  | c :: rest, h =>
    rw [lp2] at h
    split_ifs at h
    rw [Option.map_eq_some'] at h
    obtain ⟨p, hp, hpe⟩ := h
    cases hpe
    exact ⟨by simpa using lp2Go_sound rest p.1 p.2 hp, by simp⟩

theorem lp2_run (t a : List Char) (ht : t ≠ []) (hs : ∀ c ∈ t, c ≠ ')')
    (hn : ∀ c ∈ t, c ≠ '\n') :
    lp2 (t ++ ')' :: a) = some (t, a) := by
  match t, ht with
  | c :: t', _ =>
    rw [List.cons_append, lp2]
    rw [if_neg (by push_neg; exact ⟨by simpa using hs c (by simp), by simpa using hn c (by simp)⟩)]
    rw [lp2Go_run t' a (fun x hx => hs x (by simp [hx])) (fun x hx => hn x (by simp [hx]))]
    rfl

theorem linkGo_sound (l : List Char) : ∀ t u a, linkGo l = some (t, u, a) →
    l = t ++ ']' :: '(' :: (u ++ ')' :: a) ∧ u ≠ [] := by
  induction l with
  | nil => intro t u a h; simp [linkGo] at h
  | cons c rest ih =>
    intro t u a h
    rw [linkGo.eq_def] at h
    split at h
    · rename_i r2 heq
      injection heq with h1 h2
      subst h1
      split at h
      · rename_i u0 a0 hlp
        simp only [Option.some.injEq, Prod.mk.injEq] at h
        obtain ⟨rfl, rfl, rfl⟩ := h
        obtain ⟨hd, hu⟩ := lp2_sound _ _ _ hlp
        subst h2
        exact ⟨by simp [hd], hu⟩
      · rename_i hlp
        rw [Option.map_eq_some'] at h
        obtain ⟨p, hp, hpe⟩ := h
        cases hpe
        obtain ⟨hd, hu⟩ := ih p.1 p.2.1 p.2.2 (h2 ▸ hp)
        exact ⟨by simp [hd], hu⟩
    · rename_i c2 r2 hno heq
      injection heq with h1 h2
      subst h1; subst h2
      split_ifs at h
      rw [Option.map_eq_some'] at h
      obtain ⟨p, hp, hpe⟩ := h
      cases hpe
      obtain ⟨hd, hu⟩ := ih p.1 p.2.1 p.2.2 hp
      exact ⟨by simp [hd], hu⟩
    · rename_i heq; simp at heq

theorem linkGo_run (t u a : List Char) (hs : ∀ c ∈ t, c ≠ ']')
    (hn : ∀ c ∈ t, c ≠ '\n') (hu : u ≠ []) (hup : ∀ c ∈ u, c ≠ ')')
    (hun : ∀ c ∈ u, c ≠ '\n') :
    linkGo (t ++ ']' :: '(' :: (u ++ ')' :: a)) = some (t, u, a) := by
  induction t with
  | nil =>
    rw [List.nil_append, linkGo.eq_def]
    split
    · rename_i r2 heq
      injection heq with h1 h2
      injection h2 with h3 h4
      subst h4
      rw [lp2_run u a hu hup hun]
    · rename_i c2 r2 hno heq
      injection heq with h1 h2
      exact absurd rfl ((h1 ▸ h2 ▸ hno) (u ++ ')' :: a) rfl)
    · rename_i heq; simp at heq
  | cons c t' ih =>
    rw [List.cons_append, linkGo.eq_def]
    split
    · rename_i r2 heq
      exact absurd (by simpa using congrArg List.head? heq)
        (by simpa using hs c (by simp))
    · rename_i c2 r2 hno heq
      injection heq with h1 h2
      rw [if_neg (h1 ▸ (by simpa using hn c (by simp)))]
      rw [← h2, ih (fun x hx => hs x (by simp [hx])) (fun x hx => hn x (by simp [hx]))]
      rw [← h1]; rfl
    · rename_i heq; simp at heq

theorem linkClose_sound (l t u a : List Char) (h : linkClose l = some (t, u, a)) :
    l = t ++ ']' :: '(' :: (u ++ ')' :: a) ∧ t ≠ [] ∧ u ≠ [] := by
  match l, h with
  | c :: rest, h =>
    rw [linkClose] at h
    split_ifs at h
    rw [Option.map_eq_some'] at h
    obtain ⟨p, hp, hpe⟩ := h
    cases hpe
    obtain ⟨hd, hu⟩ := linkGo_sound rest p.1 p.2.1 p.2.2 hp
    exact ⟨by simp [hd], by simp, hu⟩

theorem linkClose_run (t u a : List Char) (ht : t ≠ []) (hs : ∀ c ∈ t, c ≠ ']')
    (hn : ∀ c ∈ t, c ≠ '\n') (hu : u ≠ []) (hup : ∀ c ∈ u, c ≠ ')')
    (hun : ∀ c ∈ u, c ≠ '\n') :
    linkClose (t ++ ']' :: '(' :: (u ++ ')' :: a)) = some (t, u, a) := by
  match t, ht with
  | c :: t', _ =>
    rw [List.cons_append, linkClose]
    rw [if_neg (by simpa using hn c (by simp))]
    rw [linkGo_run t' u a (fun x hx => hs x (by simp [hx]))
      (fun x hx => hn x (by simp [hx])) hu hup hun]
    rfl

theorem findLink_sound (l : List Char) : ∀ b t u a, findLink l = some (b, t, u, a) →
    l = b ++ '[' :: (t ++ ']' :: '(' :: (u ++ ')' :: a)) ∧ t ≠ [] ∧ u ≠ [] := by
  induction l with
  | nil => intro b t u a h; simp [findLink] at h
  | cons c rest ih =>
    intro b t u a h
    rw [findLink.eq_def] at h
    dsimp only at h
    split_ifs at h with hc
    · subst hc
      split at h
      · rename_i t0 u0 a0 hlc
        simp only [Option.some.injEq, Prod.mk.injEq] at h
        obtain ⟨rfl, rfl, rfl, rfl⟩ := h
        obtain ⟨hd, ht, hu⟩ := linkClose_sound _ _ _ _ hlc
        exact ⟨by simp [hd], ht, hu⟩
      · rename_i hlc
        rw [Option.map_eq_some'] at h
        obtain ⟨p, hp, hpe⟩ := h
        cases hpe
        obtain ⟨hd, ht, hu⟩ := ih p.1 p.2.1 p.2.2.1 p.2.2.2 hp
        exact ⟨by simp [hd], ht, hu⟩
    · rw [Option.map_eq_some'] at h
      obtain ⟨p, hp, hpe⟩ := h
      cases hpe
      obtain ⟨hd, ht, hu⟩ := ih p.1 p.2.1 p.2.2.1 p.2.2.2 hp
      exact ⟨by simp [hd], ht, hu⟩

theorem findLink_none (l : List Char) (h : ∀ c ∈ l, c ≠ '[') : findLink l = none := by
  induction l with
  | nil => rfl
  | cons c rest ih =>
    rw [findLink.eq_def]
    dsimp only
    rw [if_neg (h c (by simp))]
    rw [ih (fun x hx => h x (by simp [hx]))]
    rfl

theorem findLink_skip (p : List Char) (hp : ∀ c ∈ p, c ≠ '[') (l : List Char) :
    findLink (p ++ l) = (findLink l).map (fun q => (p ++ q.1, q.2.1, q.2.2.1, q.2.2.2)) := by
  induction p with
  | nil =>
    cases hf : findLink l with
    | none => simp [hf]
    | some q => simp [hf]
  | cons c p' ih =>
    rw [List.cons_append, findLink.eq_def]
    dsimp only
    rw [if_neg (hp c (by simp))]
    rw [ih (fun x hx => hp x (by simp [hx]))]
    cases hf : findLink l with
    | none => rfl
    | some q => rfl

theorem findLink_run (p t u a : List Char) (hp : ∀ c ∈ p, c ≠ '[') (ht : t ≠ [])
    (hs : ∀ c ∈ t, c ≠ ']') (hn : ∀ c ∈ t, c ≠ '\n') (hu : u ≠ [])
    (hup : ∀ c ∈ u, c ≠ ')') (hun : ∀ c ∈ u, c ≠ '\n') :
    findLink (p ++ '[' :: (t ++ ']' :: '(' :: (u ++ ')' :: a))) = some (p, t, u, a) := by
  rw [findLink_skip p hp]
  rw [show findLink ('[' :: (t ++ ']' :: '(' :: (u ++ ')' :: a))) = some ([], t, u, a) from ?_]
  · simp
  · rw [findLink.eq_def]
    dsimp only
    rw [if_pos rfl]
    rw [linkClose_run t u a ht hs hn hu hup hun]

theorem prevAfter_ne (prev : Option Char) (p : List Char) (hp : prev ≠ some '*')
    (h : ∀ c ∈ p, c ≠ '*') : prevAfter prev p ≠ some '*' := by
  induction p generalizing prev with
  | nil => exact hp
  | cons c p' ih =>
    exact ih (some c) (by simpa using h c (by simp)) (fun x hx => h x (by simp [hx]))

theorem italCloseGo_sound (l : List Char) : ∀ prevC g a,
    italCloseGo prevC l = some (g, a) → l = g ++ '*' :: a := by
  induction l with
  | nil => intro prevC g a h; simp [italCloseGo] at h
  | cons c rest ih =>
    intro prevC g a h
    rw [italCloseGo.eq_def] at h
    dsimp only at h
    split_ifs at h with h1 h2
    · simp only [Option.some.injEq, Prod.mk.injEq] at h
      obtain ⟨rfl, rfl⟩ := h
      simp [h1.1]
    · rw [Option.map_eq_some'] at h
      obtain ⟨p, hp, hpe⟩ := h
      cases hpe
      simpa using ih c p.1 p.2 hp

theorem italCloseGo_none (l : List Char) (h : ∀ c ∈ l, c ≠ '*') (prevC : Char) :
    italCloseGo prevC l = none := by
  induction l generalizing prevC with
  | nil => rfl
  | cons c rest ih =>
    rw [italCloseGo.eq_def]
    dsimp only
    rw [if_neg (by simp [h c (by simp)])]
    split_ifs with h2
    · rfl
    · rw [ih (fun x hx => h x (by simp [hx])) c]; rfl

theorem italCloseGo_run (t : List Char) : ∀ (prevC : Char) (a : List Char),
    prevC ≠ '*' → (∀ c ∈ t, c ≠ '*') → (∀ c ∈ t, c ≠ '\n') →
    a.head? ≠ some '*' →
    italCloseGo prevC (t ++ '*' :: a) = some (t, a) := by
  induction t with
  | nil =>
    intro prevC a hp hs hn ha
    rw [List.nil_append, italCloseGo.eq_def]
    dsimp only
    rw [if_pos ⟨rfl, hp, ha⟩]
  | cons c t' ih =>
    intro prevC a hp hs hn ha
    rw [List.cons_append, italCloseGo.eq_def]
    dsimp only
    rw [if_neg (by simp [hs c (by simp)])]
    rw [if_neg (hn c (by simp))]
    rw [ih c a (hs c (by simp)) (fun x hx => hs x (by simp [hx]))
      (fun x hx => hn x (by simp [hx])) ha]
    rfl

theorem italClose_sound (l g a : List Char) (h : italClose l = some (g, a)) :
    l = g ++ '*' :: a ∧ g ≠ [] := by
  match l, h with
  | c :: rest, h =>
    rw [italClose] at h
    split_ifs at h
    rw [Option.map_eq_some'] at h
    obtain ⟨p, hp, hpe⟩ := h
    cases hpe
    exact ⟨by simpa using italCloseGo_sound rest c p.1 p.2 hp, by simp⟩

theorem italClose_none (l : List Char) (h : ∀ c ∈ l, c ≠ '*') :
    italClose l = none := by
  match l with
  | [] => rfl
  | c :: rest =>
    rw [italClose]
    split_ifs
    · rfl
    · rw [italCloseGo_none rest (fun x hx => h x (by simp [hx])) c]; rfl

theorem italClose_run (t a : List Char) (ht : t ≠ []) (hs : ∀ c ∈ t, c ≠ '*')
    (hn : ∀ c ∈ t, c ≠ '\n') (ha : a.head? ≠ some '*') :
    italClose (t ++ '*' :: a) = some (t, a) := by
  match t, ht with
  | c :: t', _ =>
    rw [List.cons_append, italClose]
    rw [if_neg (by simpa using hn c (by simp))]
    rw [italCloseGo_run t' c a (hs c (by simp)) (fun x hx => hs x (by simp [hx]))
      (fun x hx => hn x (by simp [hx])) ha]
    rfl

theorem findItal_sound (l : List Char) : ∀ prev b g a, findItal prev l = some (b, g, a) →
    l = b ++ '*' :: (g ++ '*' :: a) ∧ g ≠ [] := by
  induction l with
  | nil => intro prev b g a h; simp [findItal] at h
  | cons c rest ih =>
    intro prev b g a h
    rw [findItal.eq_def] at h
    dsimp only at h
    split_ifs at h with hc
    · split at h
      · rename_i g0 a0 hcc
        simp only [Option.some.injEq, Prod.mk.injEq] at h
        obtain ⟨rfl, rfl, rfl⟩ := h
        obtain ⟨hd, hg⟩ := italClose_sound _ _ _ hcc
        exact ⟨by simp [hd, hc.1], hg⟩
      · rename_i hcc
        rw [Option.map_eq_some'] at h
        obtain ⟨p, hp, hpe⟩ := h
        cases hpe
        obtain ⟨hd, hg⟩ := ih (some c) p.1 p.2.1 p.2.2 hp
        exact ⟨by simp [hd], hg⟩
    · rw [Option.map_eq_some'] at h
      obtain ⟨p, hp, hpe⟩ := h
      cases hpe
      obtain ⟨hd, hg⟩ := ih (some c) p.1 p.2.1 p.2.2 hp
      exact ⟨by simp [hd], hg⟩

theorem findItal_none (l : List Char) (h : ∀ c ∈ l, c ≠ '*') (prev : Option Char) :
    findItal prev l = none := by
  induction l generalizing prev with
  | nil => rfl
  | cons c rest ih =>
    rw [findItal.eq_def]
    dsimp only
    rw [if_neg (by simp [h c (by simp)])]
    rw [ih (fun x hx => h x (by simp [hx])) (some c)]
    rfl

theorem findItal_skip (p : List Char) : ∀ (prev : Option Char) (l : List Char),
    (∀ c ∈ p, c ≠ '*') →
    findItal prev (p ++ l) =
      (findItal (prevAfter prev p) l).map (fun t => (p ++ t.1, t.2.1, t.2.2)) := by
  induction p with
  | nil =>
    intro prev l hp
    cases hf : findItal prev l with
    | none => simp [prevAfter, hf]
    | some t => simp [prevAfter, hf]
  | cons c p' ih =>
    intro prev l hp
    rw [List.cons_append, findItal.eq_def]
    dsimp only
    rw [if_neg (by simp [hp c (by simp)])]
    rw [ih (some c) l (fun x hx => hp x (by simp [hx]))]
    rw [show prevAfter prev (c :: p') = prevAfter (some c) p' from rfl]
    cases hf : findItal (prevAfter (some c) p') l with
    | none => rfl
    | some t => rfl

theorem findItal_twostars (l : List Char) (prev : Option Char) :
    findItal prev ('*' :: '*' :: l) =
      (findItal (some '*') l).map (fun t => ('*' :: '*' :: t.1, t.2.1, t.2.2)) := by
  rw [findItal.eq_def]
  dsimp only
  rw [if_neg (by simp)]
  rw [show findItal (some '*') ('*' :: l) =
    (findItal (some '*') l).map (fun t => ('*' :: t.1, t.2.1, t.2.2)) from ?_]
  · cases hf : findItal (some '*') l with
    | none => rfl
    | some t => rfl
  · rw [findItal.eq_def]
    dsimp only
    rw [if_neg (by simp)]

theorem findItal_run (p t a : List Char) (prev : Option Char) (hprev : prev ≠ some '*')
    (hp : ∀ c ∈ p, c ≠ '*') (ht : t ≠ []) (hs : ∀ c ∈ t, c ≠ '*')
    (hn : ∀ c ∈ t, c ≠ '\n') (ha : a.head? ≠ some '*') :
    findItal prev (p ++ '*' :: (t ++ '*' :: a)) = some (p, t, a) := by
  rw [findItal_skip p prev _ hp]
  rw [show findItal (prevAfter prev p) ('*' :: (t ++ '*' :: a)) = some ([], t, a) from ?_]
  · simp
  · rw [findItal.eq_def]
    dsimp only
    have hh : (t ++ '*' :: a).head? ≠ some '*' := by
      match t, ht with
      | c :: t', _ => simpa using hs c (by simp)
    rw [if_pos ⟨rfl, prevAfter_ne prev p hprev hp, hh⟩]
    rw [italClose_run t a ht hs hn ha]

theorem pickMin_mem (xs : List (List Char × Span × List Char)) :
    ∀ y, pickMin xs = some y → y ∈ xs := by
  induction xs with
  | nil => intro y h; simp [pickMin] at h
  | cons x xs ih =>
    intro y h
    rw [pickMin.eq_def] at h
    dsimp only at h
    split at h
    · simp only [Option.some.injEq] at h
      simp [← h]
    · rename_i z hz
      split_ifs at h <;> simp only [Option.some.injEq] at h
      · simp [← h]
      · simp [← h, ih z hz]

theorem pickMin_none (xs : List (List Char × Span × List Char))
    (h : pickMin xs = none) : xs = [] := by
  match xs with
  | [] => rfl
  | x :: xs =>
    rw [pickMin.eq_def] at h
    dsimp only at h
    split at h
    · simp at h
    · split_ifs at h

theorem pickMin_min (xs : List (List Char × Span × List Char)) :
    ∀ y, pickMin xs = some y → ∀ x ∈ xs, y.1.length ≤ x.1.length := by
  induction xs with
  | nil => intro y h; simp [pickMin] at h
  | cons x xs ih =>
    intro y h z hz
    rw [pickMin.eq_def] at h
    dsimp only at h
    split at h
    · rename_i hnone
      simp only [Option.some.injEq] at h
      subst h
      rcases List.mem_cons.mp hz with rfl | hz2
      · exact le_refl _
      · rw [pickMin_none xs hnone] at hz2
        simp at hz2
    · rename_i w hw
      split_ifs at h with hle <;> simp only [Option.some.injEq] at h <;> subst h
      · rcases List.mem_cons.mp hz with rfl | hz2
        · exact le_refl _
        · exact le_trans hle (ih w hw z hz2)
      · rcases List.mem_cons.mp hz with rfl | hz2
        · exact le_of_lt (lt_of_not_le hle)
        · exact ih w hw z hz2

theorem pickMin_head_le (x : List Char × Span × List Char)
    (xs : List (List Char × Span × List Char))
    (h : ∀ y ∈ xs, x.1.length ≤ y.1.length) : pickMin (x :: xs) = some x := by
  rw [pickMin.eq_def]
  dsimp only
  split
  · rfl
  · rename_i z hz
    rw [if_pos (h z (pickMin_mem xs z hz))]

theorem pickMin_cons_gt (x y : List Char × Span × List Char)
    (xs : List (List Char × Span × List Char))
    (hy : pickMin xs = some y) (hlt : y.1.length < x.1.length) :
    pickMin (x :: xs) = some y := by
  rw [pickMin.eq_def]
  dsimp only
  split
  · rename_i hnone; rw [hnone] at hy; simp at hy
  · rename_i z hz
    rw [hz] at hy
    injection hy with hy
    subst hy
    rw [if_neg (by omega)]

theorem cands_progress (l : List Char) (b : List Char) (sp : Span) (a : List Char)
    (h : (b, sp, a) ∈ inlineCands l) : a.length + 3 ≤ l.length := by
  rw [inlineCands] at h
  simp only [List.mem_filterMap, List.mem_cons, List.not_mem_nil, or_false, id_eq] at h
  obtain ⟨o, ho, rfl⟩ := h
  rcases ho with ho | ho | ho <;> replace ho := ho.symm
  · rw [Option.map_eq_some'] at ho
    obtain ⟨t, ht, hte⟩ := ho
    obtain ⟨hd, hg⟩ := findBold_sound l t.1 t.2.1 t.2.2 ht
    have : t.2.2 = a := congrArg (fun q => q.2.2) hte
    subst this
    rw [hd]
    simp only [List.length_append, List.length_cons]
    omega
  · rw [Option.map_eq_some'] at ho
    obtain ⟨t, ht, hte⟩ := ho
    obtain ⟨hd, hg⟩ := findItal_sound l none t.1 t.2.1 t.2.2 ht
    have : t.2.2 = a := congrArg (fun q => q.2.2) hte
    subst this
    rw [hd]
    simp only [List.length_append, List.length_cons]
    have : t.2.1.length ≥ 1 := by
      match t21 : t.2.1, hg with
      | c :: r, _ => simp
    omega
  · rw [Option.map_eq_some'] at ho
    obtain ⟨t, ht, hte⟩ := ho
    obtain ⟨hd, hg⟩ := findCode_sound l t.1 t.2.1 t.2.2 ht
    have : t.2.2 = a := congrArg (fun q => q.2.2) hte
    subst this
    rw [hd]
    simp only [List.length_append, List.length_cons]
    have : t.2.1.length ≥ 1 := by
      match t21 : t.2.1, hg with
      | c :: r, _ => simp
    omega

theorem parseInlineF_nil (f : Nat) : parseInlineF f [] = [] := by
  cases f <;> rfl

theorem parseInlineF_congr (n : Nat) : ∀ l f1 f2, l.length ≤ n → l.length < f1 →
    l.length < f2 → parseInlineF f1 l = parseInlineF f2 l := by
  induction n with
  | zero =>
    intro l f1 f2 h1 _ _
    rw [List.length_eq_zero.mp (Nat.le_zero.mp h1)]
    rw [parseInlineF_nil, parseInlineF_nil]
  | succ n ih =>
    intro l f1 f2 h1 h2 h3
    match l, f1, f2, h2, h3 with
    | [], f1, f2, _, _ => rw [parseInlineF_nil, parseInlineF_nil]
    | c :: r, k1 + 1, k2 + 1, h2, h3 =>
      rw [parseInlineF.eq_def, parseInlineF.eq_def]
      dsimp only
      split
      · rfl
      · rename_i b sp a hpk
        have hprog := cands_progress (c :: r) b sp a (pickMin_mem _ _ hpk)
        have ha : a.length ≤ n := by
          simp only [List.length_cons] at hprog h1
          omega
        have hk1 : a.length < k1 := by
          simp only [List.length_cons] at hprog h2
          omega
        have hk2 : a.length < k2 := by
          simp only [List.length_cons] at hprog h3
          omega
        rw [ih a k1 k2 ha hk1 hk2]

theorem parseInline_unfold (l b : List Char) (sp : Span) (a : List Char)
    (h : pickMin (inlineCands l) = some (b, sp, a)) :
    parseInlineFormatting l =
      (if b = [] then [] else [Span.plain b]) ++ sp :: parseInlineFormatting a := by
  have hprog := cands_progress l b sp a (pickMin_mem _ _ h)
  match l, hprog with
  | c :: r, hprog =>
    rw [parseInlineFormatting, parseInlineF.eq_def]
    dsimp only
    rw [h]
    rw [parseInlineFormatting]
    dsimp only
    rw [parseInlineF_congr a.length a (c :: r).length (a.length + 1) (le_refl _)
      (by simp only [List.length_cons] at hprog ⊢; omega) (by omega)]

theorem findBold_twostars_stray (t : List Char) (ht : ∀ c ∈ t, c ≠ '*') :
    findBold ('*' :: '*' :: t) = none := by
  rw [findBold.eq_def]
  dsimp only
  rw [if_pos rfl]
  split
  · rename_i s0 r3 heq
    injection heq with h2 h3
    subst h3
    rw [boldClose_none t ht]
    rw [show findBold ('*' :: t) = none from ?_]
    · rfl
    · rw [findBold.eq_def]
      dsimp only
      rw [if_pos rfl]
      match t, ht with
      | [], _ => rfl
      | c0 :: t', ht =>
        split
        · rename_i r3 heq
          exact absurd (by simpa using congrArg List.head? heq) (ht c0 (by simp))
        · rw [findBold_none (c0 :: t') ht]; rfl
  · rename_i hno heq
    exact absurd rfl (heq t)

theorem parseInline_nomatch (l : List Char) (hne : l ≠ []) (hb : findBold l = none)
    (hi : findItal none l = none) (hc : findCode l = none) :
    parseInlineFormatting l = [Span.plain l] := by
  have hcand : inlineCands l = [] := by rw [inlineCands, hb, hi, hc]; rfl
  match l, hne with
  | c :: r, _ =>
    rw [parseInlineFormatting, parseInlineF.eq_def]
    dsimp only
    rw [show inlineCands (c :: r) = [] from hcand]
    rfl

theorem pickMin_cands_bold (l b g a : List Char) (hB : findBold l = some (b, g, a))
    (hI : ∀ b2 g2 a2, findItal none l = some (b2, g2, a2) → b.length ≤ b2.length)
    (hC : ∀ b2 g2 a2, findCode l = some (b2, g2, a2) → b.length ≤ b2.length) :
    pickMin (inlineCands l) = some (b, Span.bold g, a) := by
  rw [inlineCands, hB]
  cases hi : findItal none l with
  | none =>
    cases hc : findCode l with
    | none =>
      simp only [Option.map_some', Option.map_none', List.filterMap_cons, id_eq,
        List.filterMap_nil]
      rfl
    | some y =>
      simp only [Option.map_some', Option.map_none', List.filterMap_cons, id_eq,
        List.filterMap_nil]
      refine pickMin_head_le _ _ ?_
      intro z hz
      simp only [List.mem_singleton] at hz
      subst hz
      exact hC y.1 y.2.1 y.2.2 hc
  | some y =>
    cases hc : findCode l with
    | none =>
      simp only [Option.map_some', Option.map_none', List.filterMap_cons, id_eq,
        List.filterMap_nil]
      refine pickMin_head_le _ _ ?_
      intro z hz
      simp only [List.mem_singleton] at hz
      subst hz
      exact hI y.1 y.2.1 y.2.2 hi
    | some w =>
      simp only [Option.map_some', Option.map_none', List.filterMap_cons, id_eq,
        List.filterMap_nil]
      refine pickMin_head_le _ _ ?_
      intro z hz
      simp only [List.mem_cons, List.mem_singleton, List.not_mem_nil, or_false] at hz
      rcases hz with rfl | rfl
      · exact hI y.1 y.2.1 y.2.2 hi
      · exact hC w.1 w.2.1 w.2.2 hc

theorem pickMin_cands_ital (l b g a : List Char) (hI : findItal none l = some (b, g, a))
    (hB : ∀ b2 g2 a2, findBold l = some (b2, g2, a2) → b.length < b2.length)
    (hC : ∀ b2 g2 a2, findCode l = some (b2, g2, a2) → b.length ≤ b2.length) :
    pickMin (inlineCands l) = some (b, Span.ital g, a) := by
  rw [inlineCands, hI]
  have hrest : ∀ (tl : List (List Char × Span × List Char)),
      (∀ z ∈ tl, b.length ≤ z.1.length) →
      pickMin ((b, Span.ital g, a) :: tl) = some (b, Span.ital g, a) :=
    fun tl htl => pickMin_head_le _ tl htl
  cases hb : findBold l with
  | none =>
    cases hc : findCode l with
    | none =>
      simp only [Option.map_some', Option.map_none', List.filterMap_cons, id_eq,
        List.filterMap_nil]
      rfl
    | some w =>
      simp only [Option.map_some', Option.map_none', List.filterMap_cons, id_eq,
        List.filterMap_nil]
      refine hrest _ ?_
      intro z hz
      simp only [List.mem_singleton] at hz
      subst hz
      exact hC w.1 w.2.1 w.2.2 hc
  | some y =>
    cases hc : findCode l with
    | none =>
      simp only [Option.map_some', Option.map_none', List.filterMap_cons, id_eq,
        List.filterMap_nil]
      refine pickMin_cons_gt _ _ _ (hrest [] (by simp)) ?_
      exact hB y.1 y.2.1 y.2.2 hb
    | some w =>
      simp only [Option.map_some', Option.map_none', List.filterMap_cons, id_eq,
        List.filterMap_nil]
      refine pickMin_cons_gt _ _ _ (hrest _ ?_) ?_
      · intro z hz
        simp only [List.mem_singleton] at hz
        subst hz
        exact hC w.1 w.2.1 w.2.2 hc
      · exact hB y.1 y.2.1 y.2.2 hb

/-- C5: on every line, `parseInlineFormatting` picks, among the first bold,
first italic and first inline-code matches, the candidate whose match starts
at the lowest character index (the earlier-listed pattern winning ties),
emits the text before it as a plain span and the matched group as the
corresponding styled span, and recurses on the remainder; a line with no
match is a single plain span; a stray `**` with no closing pair never
matches and stays literal text; and a `**` pair is never taken by the
italic pattern, which always skips a two-star prefix. -/
theorem parseInline_spec :
    (∀ l : List Char, l ≠ [] →
       findBold l = none → findItal none l = none → findCode l = none →
       parseInlineFormatting l = [Span.plain l])
    ∧ (∀ (l b : List Char) (sp : Span) (a : List Char),
       pickMin (inlineCands l) = some (b, sp, a) →
       (b, sp, a) ∈ inlineCands l ∧
       (∀ x ∈ inlineCands l, b.length ≤ x.1.length) ∧
       parseInlineFormatting l =
         (if b = [] then [] else [Span.plain b]) ++ sp :: parseInlineFormatting a)
    ∧ (∀ p t a : List Char,
       (∀ c ∈ p, c ≠ '*' ∧ c ≠ '`') → (∀ c ∈ t, c ≠ '*' ∧ c ≠ '`') →
       t ≠ [] → (∀ c ∈ t, c ≠ '\n') →
       parseInlineFormatting (p ++ '*' :: '*' :: (t ++ '*' :: '*' :: a)) =
         (if p = [] then [] else [Span.plain p]) ++
           Span.bold t :: parseInlineFormatting a)
    ∧ (∀ p t : List Char,
       (∀ c ∈ p, c ≠ '*' ∧ c ≠ '`') → (∀ c ∈ t, c ≠ '*' ∧ c ≠ '`') →
       parseInlineFormatting (p ++ '*' :: '*' :: t) =
         [Span.plain (p ++ '*' :: '*' :: t)])
    ∧ (∀ p t a : List Char,
       (∀ c ∈ p, c ≠ '*' ∧ c ≠ '`') → (∀ c ∈ t, c ≠ '*' ∧ c ≠ '`') →
       t ≠ [] → (∀ c ∈ t, c ≠ '\n') → a.head? ≠ some '*' →
       parseInlineFormatting (p ++ '*' :: (t ++ '*' :: a)) =
         (if p = [] then [] else [Span.plain p]) ++
           Span.ital t :: parseInlineFormatting a)
    ∧ (∀ (prev : Option Char) (l : List Char),
       findItal prev ('*' :: '*' :: l) =
         (findItal (some '*') l).map (fun t => ('*' :: '*' :: t.1, t.2.1, t.2.2))) := by
  refine ⟨?_, ?_, ?_, ?_, ?_, ?_⟩
  · exact parseInline_nomatch
  · intro l b sp a h
    exact ⟨pickMin_mem _ _ h, pickMin_min _ _ h, parseInline_unfold l b sp a h⟩
  · intro p t a hp ht hne hnl
    have hB : findBold (p ++ '*' :: '*' :: (t ++ '*' :: '*' :: a)) = some (p, t, a) :=
      findBold_run p t a (fun c hc => (hp c hc).1) hne (fun c hc => (ht c hc).1) hnl
    have hIeq : findItal none (p ++ '*' :: '*' :: (t ++ '*' :: '*' :: a)) =
        (findItal (some '*') a).map
          (fun x => (p ++ '*' :: '*' :: (t ++ '*' :: '*' :: x.1), x.2.1, x.2.2)) := by
      rw [findItal_skip p none _ (fun c hc => (hp c hc).1)]
      rw [findItal_twostars]
      rw [findItal_skip t (some '*') _ (fun c hc => (ht c hc).1)]
      rw [findItal_twostars]
      cases findItal (some '*') a <;> rfl
    have hCeq : findCode (p ++ '*' :: '*' :: (t ++ '*' :: '*' :: a)) =
        (findCode a).map
          (fun x => (p ++ '*' :: '*' :: (t ++ '*' :: '*' :: x.1), x.2.1, x.2.2)) := by
      rw [show p ++ '*' :: '*' :: (t ++ '*' :: '*' :: a) =
        (p ++ '*' :: '*' :: (t ++ ['*', '*'])) ++ a by simp]
      rw [findCode_skip _ ?tickfree a]
      case tickfree =>
        intro c hc
        simp only [List.mem_append, List.mem_cons, List.not_mem_nil, or_false] at hc
        rcases hc with hc | hc | hc | hc | hc
        · exact (hp c hc).2
        · subst hc; decide
        · subst hc; decide
        · exact (ht c hc).2
        · rcases hc with rfl | rfl <;> decide
      cases findCode a <;> simp
    have hpk : pickMin (inlineCands (p ++ '*' :: '*' :: (t ++ '*' :: '*' :: a))) =
        some (p, Span.bold t, a) := by
      refine pickMin_cands_bold _ p t a hB ?_ ?_
      · intro b2 g2 a2 h2
        rw [hIeq, Option.map_eq_some'] at h2
        obtain ⟨x, hx, hxe⟩ := h2
        have hb2 : p ++ '*' :: '*' :: (t ++ '*' :: '*' :: x.1) = b2 :=
          congrArg Prod.fst hxe
        rw [← hb2]; simp
      · intro b2 g2 a2 h2
        rw [hCeq, Option.map_eq_some'] at h2
        obtain ⟨x, hx, hxe⟩ := h2
        have hb2 : p ++ '*' :: '*' :: (t ++ '*' :: '*' :: x.1) = b2 :=
          congrArg Prod.fst hxe
        rw [← hb2]; simp
    exact parseInline_unfold _ p (Span.bold t) a hpk
  · intro p t hp ht
    have hb : findBold (p ++ '*' :: '*' :: t) = none := by
      rw [findBold_skip p (fun c hc => (hp c hc).1)]
      rw [findBold_twostars_stray t (fun c hc => (ht c hc).1)]
      rfl
    have hi : findItal none (p ++ '*' :: '*' :: t) = none := by
      rw [findItal_skip p none _ (fun c hc => (hp c hc).1)]
      rw [findItal_twostars]
      rw [findItal_none t (fun c hc => (ht c hc).1) (some '*')]
      rfl
    have hc : findCode (p ++ '*' :: '*' :: t) = none := by
      refine findCode_none _ ?_
      intro c hc
      simp only [List.mem_append, List.mem_cons] at hc
      rcases hc with hc | hc | hc | hc
      · exact (hp c hc).2
      · subst hc; decide
      · subst hc; decide
      · exact (ht c hc).2
    exact parseInline_nomatch _ (by simp) hb hi hc
  · intro p t a hp ht hne hnl ha
    have hI : findItal none (p ++ '*' :: (t ++ '*' :: a)) = some (p, t, a) :=
      findItal_run p t a none (by simp) (fun c hc => (hp c hc).1) hne
        (fun c hc => (ht c hc).1) hnl ha
    have hBeq : findBold (p ++ '*' :: (t ++ '*' :: a)) =
        (findBold a).map
          (fun x => (p ++ '*' :: (t ++ '*' :: x.1), x.2.1, x.2.2)) := by
      rw [findBold_skip p (fun c hc => (hp c hc).1)]
      rw [findBold_skip_star t a (fun c hc => (ht c hc).1) hne ha]
      cases findBold a <;> rfl
    have hCeq : findCode (p ++ '*' :: (t ++ '*' :: a)) =
        (findCode a).map
          (fun x => (p ++ '*' :: (t ++ '*' :: x.1), x.2.1, x.2.2)) := by
      rw [show p ++ '*' :: (t ++ '*' :: a) = (p ++ '*' :: (t ++ ['*'])) ++ a by simp]
      rw [findCode_skip _ ?tickfree2 a]
      case tickfree2 =>
        intro c hc
        simp only [List.mem_append, List.mem_cons, List.not_mem_nil, or_false] at hc
        rcases hc with hc | hc | hc | hc
        · exact (hp c hc).2
        · subst hc; decide
        · exact (ht c hc).2
        · subst hc; decide
      cases findCode a <;> simp
    have hpk : pickMin (inlineCands (p ++ '*' :: (t ++ '*' :: a))) =
        some (p, Span.ital t, a) := by
      refine pickMin_cands_ital _ p t a hI ?_ ?_
      · intro b2 g2 a2 h2
        rw [hBeq, Option.map_eq_some'] at h2
        obtain ⟨x, hx, hxe⟩ := h2
        have hb2 : p ++ '*' :: (t ++ '*' :: x.1) = b2 := congrArg Prod.fst hxe
        rw [← hb2]; simp
      · intro b2 g2 a2 h2
        rw [hCeq, Option.map_eq_some'] at h2
        obtain ⟨x, hx, hxe⟩ := h2
        have hb2 : p ++ '*' :: (t ++ '*' :: x.1) = b2 := congrArg Prod.fst hxe
        rw [← hb2]; simp
    exact parseInline_unfold _ p (Span.ital t) a hpk
  · exact fun prev l => findItal_twostars l prev

theorem parseInline_spec_witness :
    parseInlineFormatting (str "x**b**y") =
      [Span.plain (str "x"), Span.bold (str "b"), Span.plain (str "y")] ∧
    parseInlineFormatting (str "a*i*") =
      [Span.plain (str "a"), Span.ital (str "i")] ∧
    parseInlineFormatting (str "a**b") = [Span.plain (str "a**b")] ∧
    parseInlineFormatting (str "x`c`!") =
      [Span.plain (str "x"), Span.code (str "c"), Span.plain (str "!")] ∧
    parseInlineFormatting (str "hi") = [Span.plain (str "hi")] := by
  refine ⟨?_, ?_, ?_, ?_, ?_⟩
  · have h := parseInline_spec.2.2.1 (str "x") (str "b") (str "y")
      (by decide) (by decide) (by decide) (by decide)
    exact h.trans (by rfl)
  · have h := parseInline_spec.2.2.2.2.1 (str "a") (str "i") []
      (by decide) (by decide) (by decide) (by decide) (by decide)
    exact h.trans (by rfl)
  · have h := parseInline_spec.2.2.2.1 (str "a") (str "b") (by decide) (by decide)
    exact h.trans (by rfl)
  · have h := (parseInline_spec.2.1 (str "x`c`!") (str "x") (Span.code (str "c"))
      (str "!") (by decide)).2.2
    exact h.trans (by rfl)
  · exact parseInline_spec.1 (str "hi") (by decide) (by decide) (by decide) (by decide)

theorem rdropWhile_pref (p : Char → Bool) (l : List Char) :
    List.rdropWhile p l <+: l :=
  List.rdropWhile_prefix p l

theorem jsTrim_eq_rdrop (l : List Char) :
    jsTrim l = List.rdropWhile Char.isWhitespace (List.dropWhile Char.isWhitespace l) := rfl

theorem jsTrim_idem (l : List Char) : jsTrim (jsTrim l) = jsTrim l := by
  rw [jsTrim_eq_rdrop, jsTrim_eq_rdrop]
  have hBpre : List.rdropWhile Char.isWhitespace (List.dropWhile Char.isWhitespace l) <+:
      List.dropWhile Char.isWhitespace l := rdropWhile_pref _ _
  have hdw : List.dropWhile Char.isWhitespace
      (List.rdropWhile Char.isWhitespace (List.dropWhile Char.isWhitespace l)) =
      List.rdropWhile Char.isWhitespace (List.dropWhile Char.isWhitespace l) := by
    rw [List.dropWhile_eq_self_iff]
    intro hl
    have h0 : (List.rdropWhile Char.isWhitespace (List.dropWhile Char.isWhitespace l)).get
        ⟨0, hl⟩ = (List.dropWhile Char.isWhitespace l).get
        ⟨0, lt_of_lt_of_le hl hBpre.length_le⟩ := by
      simpa using hBpre.getElem hl
    rw [h0]
    exact List.dropWhile_get_zero_not _ _ _
  rw [hdw, List.rdropWhile_idempotent]

theorem jsTrim_mem (l : List Char) (c : Char) (h : c ∈ jsTrim l) : c ∈ l := by
  rw [jsTrim_eq_rdrop] at h
  have h2 := (rdropWhile_pref _ _).sublist.mem h
  exact (List.dropWhile_suffix _).sublist.mem h2

theorem renderSegs_append (a b : List Seg) :
    renderSegs (a ++ b) = renderSegs a ++ renderSegs b := by
  induction a with
  | nil => rfl
  | cons s a' ih => simp [renderSegs, ih]

theorem renderSegs_head_ne_star (rest : List Seg) (hg : ∀ s ∈ rest, goodSeg s)
    (hpl : ∀ s2 ∈ rest.head?, isPlainSeg s2 = true) :
    (renderSegs rest).head? ≠ some '*' := by
  match rest with
  | [] => simp [renderSegs]
  | s :: rest' =>
    have hp := hpl s (by simp)
    match s, hp with
    | Seg.plain t, _ =>
      have hgs := hg (Seg.plain t) (by simp)
      obtain ⟨hne, hgood⟩ := hgs
      match t, hne with
      | c :: t', _ =>
        have := (hgood c (by simp)).1
        simpa [renderSegs, renderSeg] using this

theorem findBold_render (segs : List Seg) (hg : ∀ s ∈ segs, goodSeg s)
    (hch : List.Chain' (fun s1 s2 => isPlainSeg s1 = true ∨ isPlainSeg s2 = true) segs) :
    findBold (renderSegs segs) =
      (firstBoldSplit segs).map (fun q => (renderSegs q.1, q.2.1, renderSegs q.2.2)) := by
  induction segs with
  | nil => rfl
  | cons s rest ih =>
    have hgrest : ∀ x ∈ rest, goodSeg x := fun x hx => hg x (by simp [hx])
    have hchrest := hch.tail
    match s with
    | Seg.bold t =>
      obtain ⟨hne, hgood⟩ := hg (Seg.bold t) (by simp)
      rw [show renderSegs (Seg.bold t :: rest) =
        [] ++ '*' :: '*' :: (t ++ '*' :: '*' :: renderSegs rest) by
          simp [renderSegs, renderSeg]]
      rw [findBold_run [] t (renderSegs rest) (by simp) hne
        (fun c hc => (hgood c hc).1) (fun c hc => (hgood c hc).2.2.2.2.2.2)]
      simp [firstBoldSplit, renderSegs]
    | Seg.plain t =>
      obtain ⟨hne, hgood⟩ := hg (Seg.plain t) (by simp)
      rw [show renderSegs (Seg.plain t :: rest) = t ++ renderSegs rest by
        simp [renderSegs, renderSeg]]
      rw [findBold_skip t (fun c hc => (hgood c hc).1)]
      rw [ih hgrest hchrest]
      rw [show firstBoldSplit (Seg.plain t :: rest) =
        (firstBoldSplit rest).map (fun q => (Seg.plain t :: q.1, q.2.1, q.2.2)) from rfl]
      cases firstBoldSplit rest with
      | none => rfl
      | some q => simp [renderSegs, renderSeg]
    | Seg.code t =>
      obtain ⟨hne, hgood⟩ := hg (Seg.code t) (by simp)
      rw [show renderSegs (Seg.code t :: rest) =
        ('`' :: (t ++ ['`'])) ++ renderSegs rest by simp [renderSegs, renderSeg]]
      rw [findBold_skip ('`' :: (t ++ ['`'])) ?cstar]
      case cstar =>
        intro c hc
        simp only [List.mem_cons, List.mem_append, List.mem_singleton,
          List.not_mem_nil, or_false] at hc
        rcases hc with rfl | hc | rfl
        · decide
        · exact (hgood c hc).1
        · decide
      rw [ih hgrest hchrest]
      rw [show firstBoldSplit (Seg.code t :: rest) =
        (firstBoldSplit rest).map (fun q => (Seg.code t :: q.1, q.2.1, q.2.2)) from rfl]
      cases firstBoldSplit rest with
      | none => rfl
      | some q => simp [renderSegs, renderSeg]
    | Seg.link t u =>
      obtain ⟨⟨hne, hgood⟩, ⟨hune, hugood⟩⟩ := hg (Seg.link t u) (by simp)
      rw [show renderSegs (Seg.link t u :: rest) =
        ('[' :: (t ++ ']' :: '(' :: (u ++ [')']))) ++ renderSegs rest by
          simp [renderSegs, renderSeg]]
      rw [findBold_skip ('[' :: (t ++ ']' :: '(' :: (u ++ [')']))) ?lstar]
      case lstar =>
        intro c hc
        simp only [List.mem_cons, List.mem_append, List.mem_singleton,
          List.not_mem_nil, or_false] at hc
        rcases hc with rfl | hc | rfl | rfl | hc | rfl
        · decide
        · exact (hgood c hc).1
        · decide
        · decide
        · exact (hugood c hc).1
        · decide
      rw [ih hgrest hchrest]
      rw [show firstBoldSplit (Seg.link t u :: rest) =
        (firstBoldSplit rest).map (fun q => (Seg.link t u :: q.1, q.2.1, q.2.2)) from rfl]
      cases firstBoldSplit rest with
      | none => rfl
      | some q => simp [renderSegs, renderSeg]
    | Seg.ital t =>
      obtain ⟨hne, hgood⟩ := hg (Seg.ital t) (by simp)
      have hhead : (renderSegs rest).head? ≠ some '*' := by
        refine renderSegs_head_ne_star rest hgrest ?_
        intro s2 hs2
        match rest, hs2 with
        | r2 :: rest', hs2 =>
          simp only [List.head?_cons, Option.mem_def, Option.some.injEq] at hs2
          subst hs2
          rcases List.chain'_cons.mp hch with ⟨hsep, _⟩
          rcases hsep with hsep | hsep
          · simp [isPlainSeg] at hsep
          · exact hsep
      rw [show renderSegs (Seg.ital t :: rest) =
        '*' :: (t ++ '*' :: renderSegs rest) by simp [renderSegs, renderSeg]]
      rw [findBold_skip_star t (renderSegs rest) (fun c hc => (hgood c hc).1) hne hhead]
      rw [ih hgrest hchrest]
      rw [show firstBoldSplit (Seg.ital t :: rest) =
        (firstBoldSplit rest).map (fun q => (Seg.ital t :: q.1, q.2.1, q.2.2)) from rfl]
      cases firstBoldSplit rest with
      | none => rfl
      | some q => simp [renderSegs, renderSeg]

theorem findItalPlain_render (segs : List Seg) (hg : ∀ s ∈ segs, goodSeg s)
    (hnb : ∀ t, Seg.bold t ∉ segs) :
    findItalPlain (renderSegs segs) =
      (firstItalSplit segs).map (fun q => (renderSegs q.1, q.2.1, renderSegs q.2.2)) := by
  induction segs with
  | nil => rfl
  | cons s rest ih =>
    have hgrest : ∀ x ∈ rest, goodSeg x := fun x hx => hg x (by simp [hx])
    have hnbrest : ∀ t, Seg.bold t ∉ rest := fun t ht => hnb t (by simp [ht])
    match s with
    | Seg.bold t => exact absurd (by simp) (hnb t)
    | Seg.ital t =>
      obtain ⟨hne, hgood⟩ := hg (Seg.ital t) (by simp)
      rw [show renderSegs (Seg.ital t :: rest) =
        [] ++ '*' :: (t ++ '*' :: renderSegs rest) by simp [renderSegs, renderSeg]]
      rw [findItalPlain_run [] t (renderSegs rest) (by simp) hne
        (fun c hc => (hgood c hc).1) (fun c hc => (hgood c hc).2.2.2.2.2.2)]
      simp [firstItalSplit, renderSegs]
    | Seg.plain t =>
      obtain ⟨hne, hgood⟩ := hg (Seg.plain t) (by simp)
      rw [show renderSegs (Seg.plain t :: rest) = t ++ renderSegs rest by
        simp [renderSegs, renderSeg]]
      rw [findItalPlain_skip t (fun c hc => (hgood c hc).1)]
      rw [ih hgrest hnbrest]
      rw [show firstItalSplit (Seg.plain t :: rest) =
        (firstItalSplit rest).map (fun q => (Seg.plain t :: q.1, q.2.1, q.2.2)) from rfl]
      cases firstItalSplit rest with
      | none => rfl
      | some q => simp [renderSegs, renderSeg]
    | Seg.code t =>
      obtain ⟨hne, hgood⟩ := hg (Seg.code t) (by simp)
      rw [show renderSegs (Seg.code t :: rest) =
        ('`' :: (t ++ ['`'])) ++ renderSegs rest by simp [renderSegs, renderSeg]]
      rw [findItalPlain_skip ('`' :: (t ++ ['`'])) ?cstar2]
      case cstar2 =>
        intro c hc
        simp only [List.mem_cons, List.mem_append, List.mem_singleton,
          List.not_mem_nil, or_false] at hc
        rcases hc with rfl | hc | rfl
        · decide
        · exact (hgood c hc).1
        · decide
      rw [ih hgrest hnbrest]
      rw [show firstItalSplit (Seg.code t :: rest) =
        (firstItalSplit rest).map (fun q => (Seg.code t :: q.1, q.2.1, q.2.2)) from rfl]
      cases firstItalSplit rest with
      | none => rfl
      | some q => simp [renderSegs, renderSeg]
    | Seg.link t u =>
      obtain ⟨⟨hne, hgood⟩, ⟨hune, hugood⟩⟩ := hg (Seg.link t u) (by simp)
      rw [show renderSegs (Seg.link t u :: rest) =
        ('[' :: (t ++ ']' :: '(' :: (u ++ [')']))) ++ renderSegs rest by
          simp [renderSegs, renderSeg]]
      rw [findItalPlain_skip ('[' :: (t ++ ']' :: '(' :: (u ++ [')']))) ?lstar2]
      case lstar2 =>
        intro c hc
        simp only [List.mem_cons, List.mem_append, List.mem_singleton,
          List.not_mem_nil, or_false] at hc
        rcases hc with rfl | hc | rfl | rfl | hc | rfl
        · decide
        · exact (hgood c hc).1
        · decide
        · decide
        · exact (hugood c hc).1
        · decide
      rw [ih hgrest hnbrest]
      rw [show firstItalSplit (Seg.link t u :: rest) =
        (firstItalSplit rest).map (fun q => (Seg.link t u :: q.1, q.2.1, q.2.2)) from rfl]
      cases firstItalSplit rest with
      | none => rfl
      | some q => simp [renderSegs, renderSeg]

theorem findCode_render (segs : List Seg) (hg : ∀ s ∈ segs, goodSeg s)
    (hnb : ∀ t, Seg.bold t ∉ segs) (hni : ∀ t, Seg.ital t ∉ segs) :
    findCode (renderSegs segs) =
      (firstCodeSplit segs).map (fun q => (renderSegs q.1, q.2.1, renderSegs q.2.2)) := by
  induction segs with
  | nil => rfl
  | cons s rest ih =>
    have hgrest : ∀ x ∈ rest, goodSeg x := fun x hx => hg x (by simp [hx])
    have hnbrest : ∀ t, Seg.bold t ∉ rest := fun t ht => hnb t (by simp [ht])
    have hnirest : ∀ t, Seg.ital t ∉ rest := fun t ht => hni t (by simp [ht])
    match s with
    | Seg.bold t => exact absurd (by simp) (hnb t)
    | Seg.ital t => exact absurd (by simp) (hni t)
    | Seg.code t =>
      obtain ⟨hne, hgood⟩ := hg (Seg.code t) (by simp)
      rw [show renderSegs (Seg.code t :: rest) =
        [] ++ '`' :: (t ++ '`' :: renderSegs rest) by simp [renderSegs, renderSeg]]
      rw [findCode_run [] t (renderSegs rest) (by simp) hne
        (fun c hc => (hgood c hc).2.1)]
      simp [firstCodeSplit, renderSegs]
    | Seg.plain t =>
      obtain ⟨hne, hgood⟩ := hg (Seg.plain t) (by simp)
      rw [show renderSegs (Seg.plain t :: rest) = t ++ renderSegs rest by
        simp [renderSegs, renderSeg]]
      rw [findCode_skip t (fun c hc => (hgood c hc).2.1)]
      rw [ih hgrest hnbrest hnirest]
      rw [show firstCodeSplit (Seg.plain t :: rest) =
        (firstCodeSplit rest).map (fun q => (Seg.plain t :: q.1, q.2.1, q.2.2)) from rfl]
      cases firstCodeSplit rest with
      | none => rfl
      | some q => simp [renderSegs, renderSeg]
    | Seg.link t u =>
      obtain ⟨⟨hne, hgood⟩, ⟨hune, hugood⟩⟩ := hg (Seg.link t u) (by simp)
      rw [show renderSegs (Seg.link t u :: rest) =
        ('[' :: (t ++ ']' :: '(' :: (u ++ [')']))) ++ renderSegs rest by
          simp [renderSegs, renderSeg]]
      rw [findCode_skip ('[' :: (t ++ ']' :: '(' :: (u ++ [')']))) ?ltick]
      case ltick =>
        intro c hc
        simp only [List.mem_cons, List.mem_append, List.mem_singleton,
          List.not_mem_nil, or_false] at hc
        rcases hc with rfl | hc | rfl | rfl | hc | rfl
        · decide
        · exact (hgood c hc).2.1
        · decide
        · decide
        · exact (hugood c hc).2.1
        · decide
      rw [ih hgrest hnbrest hnirest]
      rw [show firstCodeSplit (Seg.link t u :: rest) =
        (firstCodeSplit rest).map (fun q => (Seg.link t u :: q.1, q.2.1, q.2.2)) from rfl]
      cases firstCodeSplit rest with
      | none => rfl
      | some q => simp [renderSegs, renderSeg]

theorem findLink_render (segs : List Seg) (hg : ∀ s ∈ segs, goodSeg s)
    (hnb : ∀ t, Seg.bold t ∉ segs) (hni : ∀ t, Seg.ital t ∉ segs)
    (hnc : ∀ t, Seg.code t ∉ segs) :
    findLink (renderSegs segs) =
      (firstLinkSplit segs).map
        (fun q => (renderSegs q.1, q.2.1, q.2.2.1, renderSegs q.2.2.2)) := by
  induction segs with
  | nil => rfl
  | cons s rest ih =>
    have hgrest : ∀ x ∈ rest, goodSeg x := fun x hx => hg x (by simp [hx])
    have hnbrest : ∀ t, Seg.bold t ∉ rest := fun t ht => hnb t (by simp [ht])
    have hnirest : ∀ t, Seg.ital t ∉ rest := fun t ht => hni t (by simp [ht])
    have hncrest : ∀ t, Seg.code t ∉ rest := fun t ht => hnc t (by simp [ht])
    match s with
    | Seg.bold t => exact absurd (by simp) (hnb t)
    | Seg.ital t => exact absurd (by simp) (hni t)
    | Seg.code t => exact absurd (by simp) (hnc t)
    | Seg.link t u =>
      obtain ⟨⟨hne, hgood⟩, ⟨hune, hugood⟩⟩ := hg (Seg.link t u) (by simp)
      rw [show renderSegs (Seg.link t u :: rest) =
        [] ++ '[' :: (t ++ ']' :: '(' :: (u ++ ')' :: renderSegs rest)) by
          simp [renderSegs, renderSeg]]
      rw [findLink_run [] t u (renderSegs rest) (by simp) hne
        (fun c hc => (hgood c hc).2.2.2.1) (fun c hc => (hgood c hc).2.2.2.2.2.2)
        hune (fun c hc => (hugood c hc).2.2.2.2.2.1)
        (fun c hc => (hugood c hc).2.2.2.2.2.2)]
      simp [firstLinkSplit, renderSegs]
    | Seg.plain t =>
      obtain ⟨hne, hgood⟩ := hg (Seg.plain t) (by simp)
      rw [show renderSegs (Seg.plain t :: rest) = t ++ renderSegs rest by
        simp [renderSegs, renderSeg]]
      rw [findLink_skip t (fun c hc => (hgood c hc).2.2.1)]
      rw [ih hgrest hnbrest hnirest hncrest]
      rw [show firstLinkSplit (Seg.plain t :: rest) =
        (firstLinkSplit rest).map
          (fun q => (Seg.plain t :: q.1, q.2.1, q.2.2.1, q.2.2.2)) from rfl]
      cases firstLinkSplit rest with
      | none => rfl
      | some q => simp [renderSegs, renderSeg]

theorem firstBoldSplit_none (segs : List Seg) (h : firstBoldSplit segs = none) :
    ∀ t, Seg.bold t ∉ segs := by
  induction segs with
  | nil => intro t; simp
  | cons s rest ih =>
    intro t
    rw [firstBoldSplit.eq_def] at h
    match s with
    | Seg.bold t2 => simp at h
    | Seg.plain t2 =>
      dsimp only at h
      rw [Option.map_eq_none'] at h
      simp only [List.mem_cons]
      rintro (hc | hc)
      · exact absurd hc.symm (by simp)
      · exact ih h t hc
    | Seg.ital t2 =>
      dsimp only at h
      rw [Option.map_eq_none'] at h
      simp only [List.mem_cons]
      rintro (hc | hc)
      · exact absurd hc.symm (by simp)
      · exact ih h t hc
    | Seg.code t2 =>
      dsimp only at h
      rw [Option.map_eq_none'] at h
      simp only [List.mem_cons]
      rintro (hc | hc)
      · exact absurd hc.symm (by simp)
      · exact ih h t hc
    | Seg.link t2 u2 =>
      dsimp only at h
      rw [Option.map_eq_none'] at h
      simp only [List.mem_cons]
      rintro (hc | hc)
      · exact absurd hc.symm (by simp)
      · exact ih h t hc

theorem firstItalSplit_none (segs : List Seg) (h : firstItalSplit segs = none) :
    ∀ t, Seg.ital t ∉ segs := by
  induction segs with
  | nil => intro t; simp
  | cons s rest ih =>
    intro t
    rw [firstItalSplit.eq_def] at h
    cases s <;> dsimp only at h
    case ital => simp at h
    all_goals {
      rw [Option.map_eq_none'] at h
      simp only [List.mem_cons]
      rintro (hc | hc)
      · exact absurd hc.symm (by simp)
      · exact ih h t hc }

theorem firstCodeSplit_none (segs : List Seg) (h : firstCodeSplit segs = none) :
    ∀ t, Seg.code t ∉ segs := by
  induction segs with
  | nil => intro t; simp
  | cons s rest ih =>
    intro t
    rw [firstCodeSplit.eq_def] at h
    cases s <;> dsimp only at h
    case code => simp at h
    all_goals {
      rw [Option.map_eq_none'] at h
      simp only [List.mem_cons]
      rintro (hc | hc)
      · exact absurd hc.symm (by simp)
      · exact ih h t hc }

theorem firstLinkSplit_none (segs : List Seg) (h : firstLinkSplit segs = none) :
    ∀ t u, Seg.link t u ∉ segs := by
  induction segs with
  | nil => intro t u; simp
  | cons s rest ih =>
    intro t u
    rw [firstLinkSplit.eq_def] at h
    cases s <;> dsimp only at h
    case link => simp at h
    all_goals {
      rw [Option.map_eq_none'] at h
      simp only [List.mem_cons]
      rintro (hc | hc)
      · exact absurd hc.symm (by simp)
      · exact ih h t u hc }

theorem firstBoldSplit_some (segs : List Seg) : ∀ pre t rest,
    firstBoldSplit segs = some (pre, t, rest) →
    segs = pre ++ Seg.bold t :: rest ∧ ∀ u, Seg.bold u ∉ pre := by
  induction segs with
  | nil => intro pre t rest h; simp [firstBoldSplit] at h
  | cons s rest0 ih =>
    intro pre t rest h
    rw [firstBoldSplit.eq_def] at h
    cases s <;> dsimp only at h
    case bold =>
      simp only [Option.some.injEq, Prod.mk.injEq] at h
      obtain ⟨rfl, rfl, rfl⟩ := h
      exact ⟨rfl, by simp⟩
    all_goals {
      rw [Option.map_eq_some'] at h
      obtain ⟨q, hq, hqe⟩ := h
      cases hqe
      obtain ⟨hd, hnb⟩ := ih q.1 q.2.1 q.2.2 hq
      refine ⟨by simp [hd], ?_⟩
      intro u hu
      simp only [List.mem_cons] at hu
      rcases hu with hu | hu
      · exact absurd hu.symm (by simp)
      · exact hnb u hu }

theorem firstItalSplit_some (segs : List Seg) : ∀ pre t rest,
    firstItalSplit segs = some (pre, t, rest) →
    segs = pre ++ Seg.ital t :: rest ∧ ∀ u, Seg.ital u ∉ pre := by
  induction segs with
  | nil => intro pre t rest h; simp [firstItalSplit] at h
  | cons s rest0 ih =>
    intro pre t rest h
    rw [firstItalSplit.eq_def] at h
    cases s <;> dsimp only at h
    case ital =>
      simp only [Option.some.injEq, Prod.mk.injEq] at h
      obtain ⟨rfl, rfl, rfl⟩ := h
      exact ⟨rfl, by simp⟩
    all_goals {
      rw [Option.map_eq_some'] at h
      obtain ⟨q, hq, hqe⟩ := h
      cases hqe
      obtain ⟨hd, hnb⟩ := ih q.1 q.2.1 q.2.2 hq
      refine ⟨by simp [hd], ?_⟩
      intro u hu
      simp only [List.mem_cons] at hu
      rcases hu with hu | hu
      · exact absurd hu.symm (by simp)
      · exact hnb u hu }

theorem firstCodeSplit_some (segs : List Seg) : ∀ pre t rest,
    firstCodeSplit segs = some (pre, t, rest) →
    segs = pre ++ Seg.code t :: rest ∧ ∀ u, Seg.code u ∉ pre := by
  induction segs with
  | nil => intro pre t rest h; simp [firstCodeSplit] at h
  | cons s rest0 ih =>
    intro pre t rest h
    rw [firstCodeSplit.eq_def] at h
    cases s <;> dsimp only at h
    case code =>
      simp only [Option.some.injEq, Prod.mk.injEq] at h
      obtain ⟨rfl, rfl, rfl⟩ := h
      exact ⟨rfl, by simp⟩
    all_goals {
      rw [Option.map_eq_some'] at h
      obtain ⟨q, hq, hqe⟩ := h
      cases hqe
      obtain ⟨hd, hnb⟩ := ih q.1 q.2.1 q.2.2 hq
      refine ⟨by simp [hd], ?_⟩
      intro u hu
      simp only [List.mem_cons] at hu
      rcases hu with hu | hu
      · exact absurd hu.symm (by simp)
      · exact hnb u hu }

theorem firstLinkSplit_some (segs : List Seg) : ∀ pre t u rest,
    firstLinkSplit segs = some (pre, t, u, rest) →
    segs = pre ++ Seg.link t u :: rest ∧ ∀ t2 u2, Seg.link t2 u2 ∉ pre := by
  induction segs with
  | nil => intro pre t u rest h; simp [firstLinkSplit] at h
  | cons s rest0 ih =>
    intro pre t u rest h
    rw [firstLinkSplit.eq_def] at h
    cases s <;> dsimp only at h
    case link =>
      simp only [Option.some.injEq, Prod.mk.injEq] at h
      obtain ⟨rfl, rfl, rfl, rfl⟩ := h
      exact ⟨rfl, by simp⟩
    all_goals {
      rw [Option.map_eq_some'] at h
      obtain ⟨q, hq, hqe⟩ := h
      cases hqe
      obtain ⟨hd, hnb⟩ := ih q.1 q.2.1 q.2.2.1 q.2.2.2 hq
      refine ⟨by simp [hd], ?_⟩
      intro t2 u2 hu
      simp only [List.mem_cons] at hu
      rcases hu with hu | hu
      · exact absurd hu.symm (by simp)
      · exact hnb t2 u2 hu }

theorem deBold_id (segs : List Seg) (h : ∀ t, Seg.bold t ∉ segs) :
    deBold segs = segs := by
  induction segs with
  | nil => rfl
  | cons s rest ih =>
    have hr : deBold rest = rest := ih (fun t ht => h t (by simp [ht]))
    cases s with
    | bold t => exact absurd (by simp) (h t)
    | plain t => simpa [deBold] using hr
    | ital t => simpa [deBold] using hr
    | code t => simpa [deBold] using hr
    | link t u => simpa [deBold] using hr

theorem deItal_id (segs : List Seg) (h : ∀ t, Seg.ital t ∉ segs) :
    deItal segs = segs := by
  induction segs with
  | nil => rfl
  | cons s rest ih =>
    have hr : deItal rest = rest := ih (fun t ht => h t (by simp [ht]))
    cases s with
    | ital t => exact absurd (by simp) (h t)
    | plain t => simpa [deItal] using hr
    | bold t => simpa [deItal] using hr
    | code t => simpa [deItal] using hr
    | link t u => simpa [deItal] using hr

theorem deCode_id (segs : List Seg) (h : ∀ t, Seg.code t ∉ segs) :
    deCode segs = segs := by
  induction segs with
  | nil => rfl
  | cons s rest ih =>
    have hr : deCode rest = rest := ih (fun t ht => h t (by simp [ht]))
    cases s with
    | code t => exact absurd (by simp) (h t)
    | plain t => simpa [deCode] using hr
    | bold t => simpa [deCode] using hr
    | ital t => simpa [deCode] using hr
    | link t u => simpa [deCode] using hr

theorem deLink_id (segs : List Seg) (h : ∀ t u, Seg.link t u ∉ segs) :
    deLink segs = segs := by
  induction segs with
  | nil => rfl
  | cons s rest ih =>
    have hr : deLink rest = rest := ih (fun t u ht => h t u (by simp [ht]))
    cases s with
    | link t u => exact absurd (by simp) (h t u)
    | plain t => simpa [deLink] using hr
    | bold t => simpa [deLink] using hr
    | ital t => simpa [deLink] using hr
    | code t => simpa [deLink] using hr

theorem deBold_good (segs : List Seg) (h : ∀ s ∈ segs, goodSeg s) :
    ∀ s ∈ deBold segs, goodSeg s := by
  intro s hs
  rw [deBold, List.mem_map] at hs
  obtain ⟨s0, hs0, rfl⟩ := hs
  have := h s0 hs0
  cases s0 <;> simpa [goodSeg] using this

theorem deItal_good (segs : List Seg) (h : ∀ s ∈ segs, goodSeg s) :
    ∀ s ∈ deItal segs, goodSeg s := by
  intro s hs
  rw [deItal, List.mem_map] at hs
  obtain ⟨s0, hs0, rfl⟩ := hs
  have := h s0 hs0
  cases s0 <;> simpa [goodSeg] using this

theorem deCode_good (segs : List Seg) (h : ∀ s ∈ segs, goodSeg s) :
    ∀ s ∈ deCode segs, goodSeg s := by
  intro s hs
  rw [deCode, List.mem_map] at hs
  obtain ⟨s0, hs0, rfl⟩ := hs
  have := h s0 hs0
  cases s0 <;> simpa [goodSeg] using this

theorem deLink_good (segs : List Seg) (h : ∀ s ∈ segs, goodSeg s) :
    ∀ s ∈ deLink segs, goodSeg s := by
  intro s hs
  rw [deLink, List.mem_map] at hs
  obtain ⟨s0, hs0, rfl⟩ := hs
  have := h s0 hs0
  cases s0 <;> first
    | simpa [goodSeg] using this
    | exact this.1

theorem deBold_noBold (segs : List Seg) : ∀ t, Seg.bold t ∉ deBold segs := by
  intro t ht
  rw [deBold, List.mem_map] at ht
  obtain ⟨s0, hs0, he⟩ := ht
  cases s0 <;> simp at he

theorem deItal_noItal (segs : List Seg) : ∀ t, Seg.ital t ∉ deItal segs := by
  intro t ht
  rw [deItal, List.mem_map] at ht
  obtain ⟨s0, hs0, he⟩ := ht
  cases s0 <;> simp at he

theorem deCode_noCode (segs : List Seg) : ∀ t, Seg.code t ∉ deCode segs := by
  intro t ht
  rw [deCode, List.mem_map] at ht
  obtain ⟨s0, hs0, he⟩ := ht
  cases s0 <;> simp at he

theorem deLink_noLink (segs : List Seg) : ∀ t u, Seg.link t u ∉ deLink segs := by
  intro t u ht
  rw [deLink, List.mem_map] at ht
  obtain ⟨s0, hs0, he⟩ := ht
  cases s0 <;> simp at he

theorem deItal_noBold (segs : List Seg) (h : ∀ t, Seg.bold t ∉ segs) :
    ∀ t, Seg.bold t ∉ deItal segs := by
  intro t ht
  rw [deItal, List.mem_map] at ht
  obtain ⟨s0, hs0, he⟩ := ht
  cases s0 <;> simp at he
  subst he
  exact h _ hs0

theorem deCode_noBold (segs : List Seg) (h : ∀ t, Seg.bold t ∉ segs) :
    ∀ t, Seg.bold t ∉ deCode segs := by
  intro t ht
  rw [deCode, List.mem_map] at ht
  obtain ⟨s0, hs0, he⟩ := ht
  cases s0 <;> simp at he
  subst he
  exact h _ hs0

theorem deCode_noItal (segs : List Seg) (h : ∀ t, Seg.ital t ∉ segs) :
    ∀ t, Seg.ital t ∉ deCode segs := by
  intro t ht
  rw [deCode, List.mem_map] at ht
  obtain ⟨s0, hs0, he⟩ := ht
  cases s0 <;> simp at he
  subst he
  exact h _ hs0

theorem deLink_noBold (segs : List Seg) (h : ∀ t, Seg.bold t ∉ segs) :
    ∀ t, Seg.bold t ∉ deLink segs := by
  intro t ht
  rw [deLink, List.mem_map] at ht
  obtain ⟨s0, hs0, he⟩ := ht
  cases s0 <;> simp at he
  subst he
  exact h _ hs0

theorem deLink_noItal (segs : List Seg) (h : ∀ t, Seg.ital t ∉ segs) :
    ∀ t, Seg.ital t ∉ deLink segs := by
  intro t ht
  rw [deLink, List.mem_map] at ht
  obtain ⟨s0, hs0, he⟩ := ht
  cases s0 <;> simp at he
  subst he
  exact h _ hs0

theorem deLink_noCode (segs : List Seg) (h : ∀ t, Seg.code t ∉ segs) :
    ∀ t, Seg.code t ∉ deLink segs := by
  intro t ht
  rw [deLink, List.mem_map] at ht
  obtain ⟨s0, hs0, he⟩ := ht
  cases s0 <;> simp at he
  subst he
  exact h _ hs0

theorem renderSeg_ne_nil (s : Seg) (h : goodSeg s) : renderSeg s ≠ [] := by
  cases s with
  | plain t =>
    have := h.1
    simp only [renderSeg]
    exact this
  | bold t => simp [renderSeg]
  | ital t => simp [renderSeg]
  | code t => simp [renderSeg]
  | link t u => simp [renderSeg]

theorem length_renderSegs_ge (segs : List Seg) (hg : ∀ s ∈ segs, goodSeg s) :
    segs.length ≤ (renderSegs segs).length := by
  induction segs with
  | nil => simp [renderSegs]
  | cons s rest ih =>
    have h1 := renderSeg_ne_nil s (hg s (by simp))
    have h2 := ih (fun x hx => hg x (by simp [hx]))
    rw [show renderSegs (s :: rest) = renderSeg s ++ renderSegs rest from rfl]
    simp only [List.length_cons, List.length_append]
    have : 1 ≤ (renderSeg s).length := by
      match hr : renderSeg s, h1 with
      | c :: r, _ => simp
    omega

theorem rewriteF_bold_render (f : Nat) : ∀ segs, (∀ s ∈ segs, goodSeg s) →
    List.Chain' (fun s1 s2 => isPlainSeg s1 = true ∨ isPlainSeg s2 = true) segs →
    countBold segs < f →
    rewriteF boldFindU f () (renderSegs segs) = renderSegs (deBold segs) := by
  induction f with
  | zero => intro segs _ _ h; omega
  | succ f ih =>
    intro segs hg hch hcount
    rw [rewriteF.eq_def]
    dsimp only
    rw [show boldFindU () (renderSegs segs) = (findBold (renderSegs segs)).map
      (fun t => (t.1, t.2.1, t.2.2, ())) from rfl]
    rw [findBold_render segs hg hch]
    cases hsplit : firstBoldSplit segs with
    | none =>
      dsimp only [Option.map_none']
      rw [deBold_id segs (firstBoldSplit_none segs hsplit)]
    | some q =>
      obtain ⟨pre, t, rest⟩ := q
      dsimp only [Option.map_some']
      obtain ⟨hdec, hnb⟩ := firstBoldSplit_some segs pre t rest hsplit
      subst hdec
      have hgrest : ∀ s ∈ rest, goodSeg s := fun s hs => hg s (by simp [hs])
      have hchrest : List.Chain'
          (fun s1 s2 => isPlainSeg s1 = true ∨ isPlainSeg s2 = true) rest :=
        hch.suffix ⟨pre ++ [Seg.bold t], by simp⟩
      have hcr : countBold rest < f := by
        have hce : countBold (pre ++ Seg.bold t :: rest) =
            countBold pre + (countBold rest + 1) := by
          simp [countBold, List.countP_append, List.countP_cons]
        omega
      rw [ih rest hgrest hchrest hcr]
      rw [show deBold (pre ++ Seg.bold t :: rest) =
        pre ++ Seg.plain t :: deBold rest from ?_]
      · rw [renderSegs_append]
        simp [renderSegs, renderSeg]
      · rw [deBold, List.map_append]
        rw [show List.map _ pre = deBold pre from rfl]
        rw [deBold_id pre hnb]
        rfl

theorem rewriteF_ital_render (f : Nat) : ∀ segs, (∀ s ∈ segs, goodSeg s) →
    (∀ t, Seg.bold t ∉ segs) → countItal segs < f →
    rewriteF italFindU f () (renderSegs segs) = renderSegs (deItal segs) := by
  induction f with
  | zero => intro segs _ _ h; omega
  | succ f ih =>
    intro segs hg hnb hcount
    rw [rewriteF.eq_def]
    dsimp only
    rw [show italFindU () (renderSegs segs) = (findItalPlain (renderSegs segs)).map
      (fun t => (t.1, t.2.1, t.2.2, ())) from rfl]
    rw [findItalPlain_render segs hg hnb]
    cases hsplit : firstItalSplit segs with
    | none =>
      dsimp only [Option.map_none']
      rw [deItal_id segs (firstItalSplit_none segs hsplit)]
    | some q =>
      obtain ⟨pre, t, rest⟩ := q
      dsimp only [Option.map_some']
      obtain ⟨hdec, hni⟩ := firstItalSplit_some segs pre t rest hsplit
      subst hdec
      have hgrest : ∀ s ∈ rest, goodSeg s := fun s hs => hg s (by simp [hs])
      have hnbrest : ∀ t2, Seg.bold t2 ∉ rest := fun t2 ht2 => hnb t2 (by simp [ht2])
      have hcr : countItal rest < f := by
        have hce : countItal (pre ++ Seg.ital t :: rest) =
            countItal pre + (countItal rest + 1) := by
          simp [countItal, List.countP_append, List.countP_cons]
        omega
      rw [ih rest hgrest hnbrest hcr]
      rw [show deItal (pre ++ Seg.ital t :: rest) =
        pre ++ Seg.plain t :: deItal rest from ?_]
      · rw [renderSegs_append]
        simp [renderSegs, renderSeg]
      · rw [deItal, List.map_append]
        rw [show List.map _ pre = deItal pre from rfl]
        rw [deItal_id pre hni]
        rfl

theorem rewriteF_code_render (f : Nat) : ∀ segs, (∀ s ∈ segs, goodSeg s) →
    (∀ t, Seg.bold t ∉ segs) → (∀ t, Seg.ital t ∉ segs) → countCode segs < f →
    rewriteF codeFindU f () (renderSegs segs) = renderSegs (deCode segs) := by
  induction f with
  | zero => intro segs _ _ _ h; omega
  | succ f ih =>
    intro segs hg hnb hni hcount
    rw [rewriteF.eq_def]
    dsimp only
    rw [show codeFindU () (renderSegs segs) = (findCode (renderSegs segs)).map
      (fun t => (t.1, t.2.1, t.2.2, ())) from rfl]
    rw [findCode_render segs hg hnb hni]
    cases hsplit : firstCodeSplit segs with
    | none =>
      dsimp only [Option.map_none']
      rw [deCode_id segs (firstCodeSplit_none segs hsplit)]
    | some q =>
      obtain ⟨pre, t, rest⟩ := q
      dsimp only [Option.map_some']
      obtain ⟨hdec, hnc⟩ := firstCodeSplit_some segs pre t rest hsplit
      subst hdec
      have hgrest : ∀ s ∈ rest, goodSeg s := fun s hs => hg s (by simp [hs])
      have hnbrest : ∀ t2, Seg.bold t2 ∉ rest := fun t2 ht2 => hnb t2 (by simp [ht2])
      have hnirest : ∀ t2, Seg.ital t2 ∉ rest := fun t2 ht2 => hni t2 (by simp [ht2])
      have hcr : countCode rest < f := by
        have hce : countCode (pre ++ Seg.code t :: rest) =
            countCode pre + (countCode rest + 1) := by
          simp [countCode, List.countP_append, List.countP_cons]
        omega
      rw [ih rest hgrest hnbrest hnirest hcr]
      rw [show deCode (pre ++ Seg.code t :: rest) =
        pre ++ Seg.plain t :: deCode rest from ?_]
      · rw [renderSegs_append]
        simp [renderSegs, renderSeg]
      · rw [deCode, List.map_append]
        rw [show List.map _ pre = deCode pre from rfl]
        rw [deCode_id pre hnc]
        rfl

theorem rewriteF_link_render (f : Nat) : ∀ segs, (∀ s ∈ segs, goodSeg s) →
    (∀ t, Seg.bold t ∉ segs) → (∀ t, Seg.ital t ∉ segs) → (∀ t, Seg.code t ∉ segs) →
    countLink segs < f →
    rewriteF linkFindU f () (renderSegs segs) = renderSegs (deLink segs) := by
  induction f with
  | zero => intro segs _ _ _ _ h; omega
  | succ f ih =>
    intro segs hg hnb hni hnc hcount
    rw [rewriteF.eq_def]
    dsimp only
    rw [show linkFindU () (renderSegs segs) = (findLink (renderSegs segs)).map
      (fun q => (q.1, q.2.1, q.2.2.2, ())) from rfl]
    rw [findLink_render segs hg hnb hni hnc]
    cases hsplit : firstLinkSplit segs with
    | none =>
      dsimp only [Option.map_none']
      rw [deLink_id segs (fun t u => firstLinkSplit_none segs hsplit t u)]
    | some q =>
      obtain ⟨pre, t, u, rest⟩ := q
      dsimp only [Option.map_some']
      obtain ⟨hdec, hnl⟩ := firstLinkSplit_some segs pre t u rest hsplit
      subst hdec
      have hgrest : ∀ s ∈ rest, goodSeg s := fun s hs => hg s (by simp [hs])
      have hnbrest : ∀ t2, Seg.bold t2 ∉ rest := fun t2 ht2 => hnb t2 (by simp [ht2])
      have hnirest : ∀ t2, Seg.ital t2 ∉ rest := fun t2 ht2 => hni t2 (by simp [ht2])
      have hncrest : ∀ t2, Seg.code t2 ∉ rest := fun t2 ht2 => hnc t2 (by simp [ht2])
      have hcr : countLink rest < f := by
        have hce : countLink (pre ++ Seg.link t u :: rest) =
            countLink pre + (countLink rest + 1) := by
          simp [countLink, List.countP_append, List.countP_cons]
        omega
      rw [ih rest hgrest hnbrest hnirest hncrest hcr]
      rw [show deLink (pre ++ Seg.link t u :: rest) =
        pre ++ Seg.plain t :: deLink rest from ?_]
      · rw [renderSegs_append]
        simp [renderSegs, renderSeg]
      · rw [deLink, List.map_append]
        rw [show List.map _ pre = deLink pre from rfl]
        rw [deLink_id pre hnl]
        rfl

theorem countBold_lt_fuel (segs : List Seg) (hg : ∀ s ∈ segs, goodSeg s) :
    countBold segs < (renderSegs segs).length + 1 := by
  have h1 : countBold segs ≤ segs.length := List.countP_le_length _
  have h2 := length_renderSegs_ge segs hg
  omega

theorem strip_render (segs : List Seg) (h : goodSegs segs) :
    stripInlineMarkdown (renderSegs segs) =
      jsTrim (renderSegs (deLink (deCode (deItal (deBold segs))))) := by
  obtain ⟨hg, hch⟩ := h
  have hg1 := deBold_good segs hg
  have hg2 := deItal_good _ hg1
  have hg3 := deCode_good _ hg2
  have hnb1 := deBold_noBold segs
  have hnb2 := deItal_noBold _ hnb1
  have hnb3 := deCode_noBold _ hnb2
  have hni2 := deItal_noItal (deBold segs)
  have hni3 := deCode_noItal _ hni2
  have hnc3 := deCode_noCode (deItal (deBold segs))
  rw [stripInlineMarkdown]
  rw [replaceBoldG]
  rw [rewriteF_bold_render _ segs hg hch (countBold_lt_fuel segs hg)]
  rw [replaceItalG]
  rw [rewriteF_ital_render _ _ hg1 hnb1 (by
    have h1 : countItal (deBold segs) ≤ (deBold segs).length := List.countP_le_length _
    have h15 : (deBold segs).length = segs.length := by simp [deBold]
    have h2 := length_renderSegs_ge _ hg1
    omega)]
  rw [replaceCodeG]
  rw [rewriteF_code_render _ _ hg2 hnb2 hni2 (by
    have h1 : countCode (deItal (deBold segs)) ≤ (deItal (deBold segs)).length :=
      List.countP_le_length _
    have h2 := length_renderSegs_ge _ hg2
    omega)]
  rw [replaceLinkG]
  rw [rewriteF_link_render _ _ hg3 hnb3 hni3 hnc3 (by
    have h1 : countLink (deCode (deItal (deBold segs))) ≤
        (deCode (deItal (deBold segs))).length := List.countP_le_length _
    have h2 := length_renderSegs_ge _ hg3
    omega)]

theorem renderSegs_mem (segs : List Seg) (c : Char) (h : c ∈ renderSegs segs) :
    ∃ s ∈ segs, c ∈ renderSeg s := by
  induction segs with
  | nil => simp [renderSegs] at h
  | cons s rest ih =>
    rw [show renderSegs (s :: rest) = renderSeg s ++ renderSegs rest from rfl] at h
    rw [List.mem_append] at h
    rcases h with h | h
    · exact ⟨s, by simp, h⟩
    · obtain ⟨s2, hs2, hc2⟩ := ih h
      exact ⟨s2, by simp [hs2], hc2⟩

theorem plain_of_none (s : Seg) (hnb : ∀ t, s ≠ Seg.bold t) (hni : ∀ t, s ≠ Seg.ital t)
    (hnc : ∀ t, s ≠ Seg.code t) (hnl : ∀ t u, s ≠ Seg.link t u) :
    ∃ t, s = Seg.plain t := by
  cases s with
  | plain t => exact ⟨t, rfl⟩
  | bold t => exact absurd rfl (hnb t)
  | ital t => exact absurd rfl (hni t)
  | code t => exact absurd rfl (hnc t)
  | link t u => exact absurd rfl (hnl t u)

theorem final_all_good (segs : List Seg) (h : goodSegs segs) :
    ∀ c ∈ renderSegs (deLink (deCode (deItal (deBold segs)))), goodCh c := by
  obtain ⟨hg, hch⟩ := h
  intro c hc
  obtain ⟨s, hs, hcs⟩ := renderSegs_mem _ c hc
  have hgood : goodSeg s :=
    deLink_good _ (deCode_good _ (deItal_good _ (deBold_good _ hg))) s hs
  have hnb := deLink_noBold _ (deCode_noBold _ (deItal_noBold _ (deBold_noBold segs)))
  have hni := deLink_noItal _ (deCode_noItal _ (deItal_noItal (deBold segs)))
  have hnc := deLink_noCode _ (deCode_noCode (deItal (deBold segs)))
  have hnl := deLink_noLink (deCode (deItal (deBold segs)))
  obtain ⟨t, rfl⟩ := plain_of_none s
    (fun t ht => hnb t (ht ▸ hs)) (fun t ht => hni t (ht ▸ hs))
    (fun t ht => hnc t (ht ▸ hs)) (fun t u ht => hnl t u (ht ▸ hs))
  exact hgood.2 c hcs

theorem allgood_strip (l : List Char) (h : ∀ c ∈ l, goodCh c) :
    stripInlineMarkdown l = jsTrim l := by
  have hb : findBold l = none := findBold_none l (fun c hc => (h c hc).1)
  have hi : findItalPlain l = none := findItalPlain_none l (fun c hc => (h c hc).1)
  have hc : findCode l = none := findCode_none l (fun c hc => (h c hc).2.1)
  have hl : findLink l = none := findLink_none l (fun c hc => (h c hc).2.2.1)
  have h1 : replaceBoldG l = l := by
    rw [replaceBoldG, rewriteF.eq_def]
    dsimp only
    rw [show boldFindU () l = (findBold l).map (fun t => (t.1, t.2.1, t.2.2, ())) from rfl]
    rw [hb]
    rfl
  have h2 : replaceItalG l = l := by
    rw [replaceItalG, rewriteF.eq_def]
    dsimp only
    rw [show italFindU () l = (findItalPlain l).map (fun t => (t.1, t.2.1, t.2.2, ())) from rfl]
    rw [hi]
    rfl
  have h3 : replaceCodeG l = l := by
    rw [replaceCodeG, rewriteF.eq_def]
    dsimp only
    rw [show codeFindU () l = (findCode l).map (fun t => (t.1, t.2.1, t.2.2, ())) from rfl]
    rw [hc]
    rfl
  have h4 : replaceLinkG l = l := by
    rw [replaceLinkG, rewriteF.eq_def]
    dsimp only
    rw [show linkFindU () l = (findLink l).map (fun q => (q.1, q.2.1, q.2.2.2, ())) from rfl]
    rw [hl]
    rfl
  rw [stripInlineMarkdown, h1, h2, h3, h4]

/-- C6: inline markdown stripping is idempotent on strings without nested
or malformed delimiters, formalised as the renderings of well-formed
fragment lists: nonempty delimiter-free contents, with no two styled
fragments directly adjacent. -/
theorem strip_idempotent (segs : List Seg) (h : goodSegs segs) :
    stripInlineMarkdown (stripInlineMarkdown (renderSegs segs)) =
      stripInlineMarkdown (renderSegs segs) := by
  rw [strip_render segs h]
  rw [allgood_strip _ (fun c hc => final_all_good segs h c (jsTrim_mem _ c hc))]
  exact jsTrim_idem _

theorem strip_idempotent_witness :
    goodSegs [Seg.plain (str "see "), Seg.bold (str "this"), Seg.plain (str " and "),
      Seg.ital (str "that"), Seg.plain (str " or "), Seg.code (str "x"),
      Seg.plain (str " at "), Seg.link (str "home") (str "url")] ∧
    stripInlineMarkdown (stripInlineMarkdown (renderSegs
      [Seg.plain (str "see "), Seg.bold (str "this"), Seg.plain (str " and "),
       Seg.ital (str "that"), Seg.plain (str " or "), Seg.code (str "x"),
       Seg.plain (str " at "), Seg.link (str "home") (str "url")])) =
      stripInlineMarkdown (renderSegs
      [Seg.plain (str "see "), Seg.bold (str "this"), Seg.plain (str " and "),
       Seg.ital (str "that"), Seg.plain (str " or "), Seg.code (str "x"),
       Seg.plain (str " at "), Seg.link (str "home") (str "url")]) :=
  ⟨⟨by decide, by simp [List.chain'_cons, isPlainSeg]⟩,
   strip_idempotent _ ⟨by decide, by simp [List.chain'_cons, isPlainSeg]⟩⟩

end Jarvis
